import Mathlib

/-!
# RamSort: bucket-partitioned in-memory sort engine

Shallow embedding of `include/chia/RamSort.h` and `include/chia/RamSort.hpp`.

* Bytes are natural numbers, buffers are lists of bytes, a null pointer is `none`.
* `size_t`, `uint64_t` and `int` values are unbounded (`Nat`, `Int`); no statement below
  depends on wrap-around.  A shift by a negative amount is undefined in C++; the statements
  below that depend on a shift assume it non-negative.
* A function that can throw returns the exception (if any) together with the state at the
  point where it was left, so that the effect of a failed call is visible.
* `std::mutex` is not modelled: every call is one atomic step.  The thread pools of `read`
  are run as one task after the other; the order in which runs reach the output is
  therefore one of the possible arrival orders.
* `bucket_t::file_name` is diagnostic only and left out.
* Allocation (`std::realloc`) always succeeds.
-/

namespace Chia

/-- One byte of a buffer (`uint8_t`). -/
abbrev Byte := Nat

/-- The exceptions thrown in `RamSort.hpp`. -/
inductive Exn where
  /-- Thrown as `std::logic_error("bucket index out of range")` (the spec's RangeError). -/
  | bucket_index_out_of_range
  /-- Thrown as `std::logic_error("read only")` (the spec's StateError). -/
  | read_only
  /-- Thrown as `std::logic_error("key_shift < 0")`. -/
  | key_shift_negative
  /-- Thrown as `std::runtime_error("RamSort can't use as readonly")`. -/
  | cant_use_as_readonly
  deriving DecidableEq, Repr

/-- Modelled from the spec: the template arguments `T` and `Key` of `RamSort<T, Key>`, the
constant `write_buffer_t<T>::capacity` of `chia/buffer.h`, and `std::sort`; none of them is
defined in `RamSort.h` or `RamSort.hpp`.  `write` is `T::write` (serialise into `disk_size`
bytes), `read` is `T::read`, `key` is `Key{}(entry)`, and `sort` is `std::sort` with the
comparator `Key{}(lhs) < Key{}(rhs)`. -/
structure Extern (T : Type) where
  disk_size : Nat
  write : T → List Byte
  read : List Byte → T
  key : T → Nat
  capacity : Nat
  sort : List T → List T

/-- What the record type, the staging capacity and `std::sort` are required to satisfy:
a record serialises to exactly `disk_size` bytes and decodes back to itself, a staging
buffer holds at least one record, and `std::sort` returns a permutation of its input that
is ordered by the comparator. -/
structure Extern.Lawful {T : Type} (X : Extern T) : Prop where
  write_length : ∀ e, (X.write e).length = X.disk_size
  read_write : ∀ e, X.read (X.write e) = e
  capacity_pos : 0 < X.capacity
  sort_perm : ∀ l, (X.sort l).Perm l
  sort_sorted : ∀ l, (X.sort l).Pairwise (fun a b => X.key a ≤ X.key b)

/-- The C++ expression `key >> shift` for an `int` shift (defined for `0 ≤ shift`). -/
def shr (key : Nat) (shift : Int) : Nat := key >>> shift.toNat

/-- The C++ expression `1 << n` on `int`, for `0 ≤ n ≤ 30`: from 31 on the source
overflows `int`, which this definition does not follow. -/
def shl1 (n : Int) : Nat := 1 <<< n.toNat

/-- The call `memcpy(dst + off, src, |src|)` on a buffer `dst` with `off + |src| ≤ |dst|`. -/
def memcpy (dst : List Byte) (off : Nat) (src : List Byte) : List Byte :=
  dst.take off ++ src ++ dst.drop (off + src.length)

/-- The call `std::realloc(p, n)`: a buffer of `n` bytes that starts with the old contents;
the bytes beyond the old contents are indeterminate in C++ and zero here. -/
def realloc (p : Option (List Byte)) (n : Nat) : List Byte :=
  (p.getD []).take n ++ List.replicate (n - (p.getD []).length) 0

/-- The struct `RamSort::bucket_t`: the backing buffer (`none` is the null pointer) and the
number of records it holds. -/
structure bucket_t where
  data : Option (List Byte)
  num_entries : Nat
  deriving DecidableEq, Repr

/-- A default-constructed bucket: null pointer, `num_entries = 0`. -/
def bucket_t.empty : bucket_t := { data := none, num_entries := 0 }

/-- The bytes of the backing buffer, none for the null pointer. -/
def bucket_t.bytes (b : bucket_t) : List Byte := b.data.getD []

/-- The method `bucket_t::remove`. -/
def bucket_t.remove (b : bucket_t) : bucket_t := { b with data := none }

/-- The method `bucket_t::resize`. -/
def bucket_t.resize (b : bucket_t) (newSize : Nat) : bucket_t :=
  if newSize = 0 then { b with data := none }
  else { b with data := some (realloc b.data newSize) }

/-- The method `bucket_t::write`: resize, copy `count * disk_size` bytes of `data_` behind
the old records, add `count` to `num_entries`. -/
def bucket_t.write {T : Type} (X : Extern T) (b : bucket_t) (data_ : List Byte) (count : Nat) :
    bucket_t :=
  let last_size := b.num_entries
  let b1 := b.resize (last_size * X.disk_size + count * X.disk_size)
  let b2 : bucket_t :=
    { b1 with data := b1.data.map fun buf =>
        memcpy buf (last_size * X.disk_size) (data_.take (count * X.disk_size)) }
  { b2 with num_entries := b2.num_entries + count }

/-- Modelled from the spec: `write_buffer_t<T>` of `chia/buffer.h`, a staging array of
`capacity` serialised records of which the first `count` are pending. -/
structure write_buffer_t where
  count : Nat
  data : List Byte
  deriving DecidableEq, Repr

/-- A fresh staging buffer: `capacity * disk_size` bytes (indeterminate in C++, zero here),
nothing pending. -/
def write_buffer_t.new {T : Type} (X : Extern T) : write_buffer_t :=
  { count := 0, data := List.replicate (X.capacity * X.disk_size) 0 }

/-- The offset of `write_buffer_t::entry_at(i)` in the staging array. -/
def write_buffer_t.entry_at {T : Type} (X : Extern T) (i : Nat) : Nat := i * X.disk_size

/-- The class `RamSort::WriteCache` (the pointer `ram` is passed to its methods). -/
structure WriteCache where
  key_shift : Int
  buckets : List write_buffer_t
  deriving DecidableEq, Repr

/-- The constructor `WriteCache::WriteCache`. -/
def WriteCache.new {T : Type} (X : Extern T) (key_shift : Int) (num_buckets : Nat) : WriteCache :=
  { key_shift := key_shift, buckets := List.replicate num_buckets (write_buffer_t.new X) }

/-- The class `RamSort`. -/
structure RamSort where
  key_size : Int
  log_num_buckets : Int
  bucket_key_shift : Int
  keep_files : Bool
  is_finished : Bool
  cache : WriteCache
  buckets : List bucket_t
  deriving DecidableEq, Repr

/-- The constructor `RamSort::RamSort`: every bucket is resized to zero; with `read_only`
set the loop throws at the first bucket. -/
def RamSort.new {T : Type} (X : Extern T) (key_size log_num_buckets : Int) (read_only : Bool) :
    Except Exn RamSort :=
  let ram : RamSort :=
    { key_size := key_size
      log_num_buckets := log_num_buckets
      bucket_key_shift := key_size - log_num_buckets
      keep_files := read_only
      is_finished := read_only
      cache := WriteCache.new X (key_size - log_num_buckets) (shl1 log_num_buckets)
      buckets := (List.replicate (shl1 log_num_buckets) bucket_t.empty).map
        fun b => b.resize 0 }
  if ram.buckets.length ≠ 0 ∧ read_only = true then .error Exn.cant_use_as_readonly
  else .ok ram

/-- The method `RamSort::num_buckets`. -/
def RamSort.num_buckets (ram : RamSort) : Nat := ram.buckets.length

/-- The method `RamSort::set_keep_files`. -/
def RamSort.set_keep_files (ram : RamSort) (enable : Bool) : RamSort :=
  { ram with keep_files := enable }

/-- The method `RamSort::write`. -/
def RamSort.write {T : Type} (X : Extern T) (ram : RamSort) (index : Nat) (data : List Byte)
    (count : Nat) : Option Exn × RamSort :=
  if ram.is_finished = true then (some Exn.read_only, ram)
  else if h : ram.buckets.length ≤ index then (some Exn.bucket_index_out_of_range, ram)
  else
    (none, { ram with
      buckets := ram.buckets.set index
        ((ram.buckets.get ⟨index, Nat.lt_of_not_le h⟩).write X data count) })

/-- The statement `buffer.count = 0`. -/
def write_buffer_t.reset (buffer : write_buffer_t) : write_buffer_t :=
  { count := 0, data := buffer.data }

/-- The statements `entry.write(buffer.entry_at(buffer.count)); buffer.count++` of
`WriteCache::add`. -/
def write_buffer_t.push {T : Type} (X : Extern T) (buffer : write_buffer_t) (entry : T) :
    write_buffer_t :=
  { count := buffer.count + 1
    data := memcpy buffer.data (write_buffer_t.entry_at X buffer.count) (X.write entry) }

/-- The method `WriteCache::add`. -/
def WriteCache.add {T : Type} (X : Extern T) (c : WriteCache) (ram : RamSort) (entry : T) :
    Option Exn × WriteCache × RamSort :=
  let index := shr (X.key entry) c.key_shift
  if h : c.buckets.length ≤ index then (some Exn.bucket_index_out_of_range, c, ram)
  else
    let buffer := c.buckets.get ⟨index, Nat.lt_of_not_le h⟩
    if X.capacity ≤ buffer.count then
      match ram.write X index buffer.data buffer.count with
      | (some e, ram1) => (some e, c, ram1)
      | (none, ram1) =>
        (none, { c with buckets := c.buckets.set index (buffer.reset.push X entry) }, ram1)
    else (none, { c with buckets := c.buckets.set index (buffer.push X entry) }, ram)

/-- One iteration of the loop of `WriteCache::flush`; an exception thrown by an earlier
iteration has left the loop. -/
def WriteCache.flush_step {T : Type} (X : Extern T) (st : Option Exn × WriteCache × RamSort)
    (index : Nat) : Option Exn × WriteCache × RamSort :=
  match st with
  | (some e, c, ram) => (some e, c, ram)
  | (none, c, ram) =>
    if h : index < c.buckets.length then
      let buffer := c.buckets.get ⟨index, h⟩
      if buffer.count ≠ 0 then
        match ram.write X index buffer.data buffer.count with
        | (some e, ram1) => (some e, c, ram1)
        | (none, ram1) =>
          (none, { c with buckets := c.buckets.set index buffer.reset }, ram1)
      else (none, c, ram)
    else (none, c, ram)

/-- The method `WriteCache::flush`. -/
def WriteCache.flush {T : Type} (X : Extern T) (c : WriteCache) (ram : RamSort) :
    Option Exn × WriteCache × RamSort :=
  (List.range c.buckets.length).foldl (WriteCache.flush_step X) (none, c, ram)

/-- The method `RamSort::add`: `cache.add(entry)` on the engine's own front. -/
def RamSort.add {T : Type} (X : Extern T) (ram : RamSort) (entry : T) : Option Exn × RamSort :=
  match ram.cache.add X ram entry with
  | (err, c, ram1) => (err, { ram1 with cache := c })

/-- The method `RamSort::add_cache`. -/
def RamSort.add_cache {T : Type} (X : Extern T) (ram : RamSort) : WriteCache :=
  WriteCache.new X ram.bucket_key_shift ram.buckets.length

/-- The method `RamSort::finish`. -/
def RamSort.finish {T : Type} (X : Extern T) (ram : RamSort) : Option Exn × RamSort :=
  match ram.cache.flush X ram with
  | (some e, c, ram1) => (some e, { ram1 with cache := c })
  | (none, c, ram1) => (none, { ram1 with cache := c, is_finished := true })

/-- The method `RamSort::close`: the loop removes every buffer unless `keep_files` is set,
then `buckets.clear()` destroys the buckets (the destructor of `bucket_t` removes a buffer
that was kept). -/
def RamSort.close (ram : RamSort) : RamSort :=
  let removed : RamSort :=
    { ram with buckets := ram.buckets.map (fun b => if ram.keep_files = false then b.remove else b) }
  { removed with buckets := [] }

/-- The record read at `ptr + i * T::disk_size`, for a buffer `ptr` that holds at least
`(i + 1) * T::disk_size` bytes: the source reads out of bounds otherwise (through a null
pointer when the buffer was released), which this definition does not follow. -/
def read_entry {T : Type} (X : Extern T) (ptr : List Byte) (i : Nat) : T :=
  X.read ((ptr.drop (i * X.disk_size)).take X.disk_size)

/-- The statement `table[k].push_back(entry)` on the `std::unordered_map` of `read_bucket`,
kept as an association list. -/
def table_push {T : Type} : List (Nat × List T) → Nat → T → List (Nat × List T)
  | [], k, entry => [(k, [entry])]
  | (k1, block) :: rest, k, entry =>
    if k1 = k then (k1, block ++ [entry]) :: rest
    else (k1, block) :: table_push rest k entry

/-- The statement `sorted.emplace(k, block)` on the `std::map` of `read_bucket`, kept as an
association list in ascending key order; a key that is present is left alone. -/
def map_emplace {T : Type} : List (Nat × List T) → Nat → List T → List (Nat × List T)
  | [], k, block => [(k, block)]
  | (k1, block1) :: rest, k, block =>
    if k < k1 then (k, block) :: (k1, block1) :: rest
    else if k = k1 then (k1, block1) :: rest
    else (k1, block1) :: map_emplace rest k block

/-- The last loop of `read_bucket`: every block with the offset accumulated so far. -/
def emit_blocks {T : Type} : List (Nat × List T) → Nat → List (List T × Nat)
  | [], _ => []
  | (_, block) :: rest, offset => (block, offset) :: emit_blocks rest (offset + block.length)

/-- The loop of `read_bucket` that moves the table into the `std::map` named `sorted`. -/
def sort_table {T : Type} (table : List (Nat × List T)) : List (Nat × List T) :=
  table.foldl (fun sorted entry => map_emplace sorted entry.1 entry.2) []

/-- The decoding loop of `read_bucket`: the table after the first `n` records at `ptr`. -/
def read_table {T : Type} (X : Extern T) (key_shift : Int) (ptr : List Byte) (n : Nat) :
    List (Nat × List T) :=
  (List.range n).foldl
    (fun table i =>
      let entry := read_entry X ptr i
      table_push table (shr (X.key entry) key_shift) entry)
    []

/-- The method `RamSort::read_bucket` for the task `index = (bucket index, start offset)`:
the exception (if any), the engine afterwards and the vector `out`. -/
def RamSort.read_bucket {T : Type} (X : Extern T) (ram : RamSort) (index : Nat × Nat) :
    Option Exn × RamSort × List (List T × Nat) :=
  if h : index.1 < ram.buckets.length then
    let bucket := ram.buckets.get ⟨index.1, h⟩
    let key_shift := ram.bucket_key_shift - ram.log_num_buckets
    if key_shift < 0 then (some Exn.key_shift_negative, ram, [])
    else
      let table := read_table X key_shift bucket.bytes bucket.num_entries
      let ram1 : RamSort :=
        if ram.keep_files = false then
          { ram with buckets := ram.buckets.set index.1 bucket.remove }
        else ram
      let sorted := sort_table table
      (none, ram1, emit_blocks sorted index.2)
  else (none, ram, [])

/-- The tasks `(i, offset)` handed to the read pool by the loop of `RamSort::read`. -/
def read_tasks : List bucket_t → Nat → Nat → List (Nat × Nat)
  | [], _, _ => []
  | b :: bs, i, offset => (i, offset) :: read_tasks bs (i + 1) (offset + b.num_entries)

/-- One task of the read pool followed by the sort pool: `read_bucket`, then `std::sort` on
every block, then the push to the output. -/
def RamSort.read_step {T : Type} (X : Extern T)
    (st : Option Exn × RamSort × List (List T × Nat)) (task : Nat × Nat) :
    Option Exn × RamSort × List (List T × Nat) :=
  match st with
  | (some e, ram, output) => (some e, ram, output)
  | (none, ram, output) =>
    match ram.read_bucket X task with
    | (some e, ram1, _) => (some e, ram1, output)
    | (none, ram1, out) => (none, ram1, output ++ out.map fun block => (X.sort block.1, block.2))

/-- The method `RamSort::read`: the exception (if any), the engine afterwards and the runs
pushed to `output`.  The thread counts only set the degree of parallelism. -/
def RamSort.read {T : Type} (X : Extern T) (ram : RamSort) :
    Option Exn × RamSort × List (List T × Nat) :=
  (read_tasks ram.buckets 0 0).foldl (RamSort.read_step X) (none, ram, [])

/-! ## Several producers -/

/-- An engine together with the fronts handed out by `add_cache()`. -/
structure System where
  ram : RamSort
  fronts : List WriteCache
  deriving DecidableEq, Repr

/-- The calls a producer can make during the build phase.  `cache_add j` and `cache_flush j`
are `add` and `flush` on the front returned by the `j`-th call of `add_cache()`. -/
inductive Op (T : Type) where
  | add (entry : T)
  | write (index : Nat) (data : List Byte) (count : Nat)
  | add_cache
  | cache_add (j : Nat) (entry : T)
  | cache_flush (j : Nat)
  | finish

/-- One call; a call on a front that does not exist is no call at all. -/
def System.step {T : Type} (X : Extern T) (s : System) : Op T → Option Exn × System
  | Op.add entry =>
    match s.ram.add X entry with
    | (err, ram1) => (err, { s with ram := ram1 })
  | Op.write index data count =>
    match s.ram.write X index data count with
    | (err, ram1) => (err, { s with ram := ram1 })
  | Op.add_cache => (none, { s with fronts := s.fronts ++ [s.ram.add_cache X] })
  | Op.cache_add j entry =>
    if h : j < s.fronts.length then
      match (s.fronts.get ⟨j, h⟩).add X s.ram entry with
      | (err, c, ram1) => (err, { ram := ram1, fronts := s.fronts.set j c })
    else (none, s)
  | Op.cache_flush j =>
    if h : j < s.fronts.length then
      match (s.fronts.get ⟨j, h⟩).flush X s.ram with
      | (err, c, ram1) => (err, { ram := ram1, fronts := s.fronts.set j c })
    else (none, s)
  | Op.finish =>
    match s.ram.finish X with
    | (err, ram1) => (err, { s with ram := ram1 })

/-- A sequence of calls, left at the first exception. -/
def System.exec {T : Type} (X : Extern T) : System → List (Op T) → Option Exn × System
  | s, [] => (none, s)
  | s, op :: ops =>
    match s.step X op with
    | (some e, s1) => (some e, s1)
    | (none, s1) => System.exec X s1 ops

/-- The records passed to `add` by a sequence of calls, in call order. -/
def Op.added {T : Type} : List (Op T) → List T
  | [] => []
  | Op.add entry :: ops => entry :: Op.added ops
  | Op.cache_add _ entry :: ops => entry :: Op.added ops
  | _ :: ops => Op.added ops

/-- Every call on a front refers to a front that exists when the call is made; `n` is the
number of fronts handed out so far. -/
def Op.well_formed {T : Type} : Nat → List (Op T) → Prop
  | _, [] => True
  | n, Op.add_cache :: ops => Op.well_formed (n + 1) ops
  | n, Op.cache_add j _ :: ops => j < n ∧ Op.well_formed n ops
  | n, Op.cache_flush j :: ops => j < n ∧ Op.well_formed n ops
  | n, _ :: ops => Op.well_formed n ops

/-- The states an engine and its fronts can be in: built by the constructor and then driven
by any calls among the `allowed` ones, also after a call has thrown. -/
inductive Reachable {T : Type} (X : Extern T) (allowed : Op T → Prop)
    (key_size log_num_buckets : Int) : System → Prop where
  | init (ram : RamSort) (h : RamSort.new X key_size log_num_buckets false = .ok ram) :
      Reachable X allowed key_size log_num_buckets { ram := ram, fronts := [] }
  | step (s : System) (op : Op T) (h : Reachable X allowed key_size log_num_buckets s)
      (hop : allowed op) : Reachable X allowed key_size log_num_buckets (s.step X op).2

/-- The calls on the public surface of an engine and its fronts: the build calls,
`set_keep_files`, `read` and `close`. -/
inductive Call (T : Type) where
  | build (op : Op T)
  | set_keep_files (enable : Bool)
  | read
  | close

/-- One call on the public surface; the runs of a `read` go to the output consumer. -/
def System.call {T : Type} (X : Extern T) (s : System) : Call T → Option Exn × System
  | Call.build op => s.step X op
  | Call.set_keep_files enable => (none, { s with ram := s.ram.set_keep_files enable })
  | Call.read =>
    match s.ram.read X with
    | (err, ram1, _) => (err, { s with ram := ram1 })
  | Call.close => (none, { s with ram := s.ram.close })

/-- The states an engine and its fronts can be in over their whole life: built by the
constructor and then driven by any calls that `allowed` admits in the state they are made
in, also after a call has thrown. -/
inductive Reached {T : Type} (X : Extern T) (allowed : System → Call T → Prop)
    (key_size log_num_buckets : Int) : System → Prop where
  | init (ram : RamSort) (h : RamSort.new X key_size log_num_buckets false = .ok ram) :
      Reached X allowed key_size log_num_buckets { ram := ram, fronts := [] }
  | step (s : System) (call : Call T) (h : Reached X allowed key_size log_num_buckets s)
      (hcall : allowed s call) : Reached X allowed key_size log_num_buckets (s.call X call).2

/-- The calls `add(entry)` on one front one after the other, left at the first exception. -/
def WriteCache.add_all {T : Type} (X : Extern T) :
    WriteCache → RamSort → List T → Option Exn × WriteCache × RamSort
  | c, ram, [] => (none, c, ram)
  | c, ram, entry :: entries =>
    match c.add X ram entry with
    | (some e, c1, ram1) => (some e, c1, ram1)
    | (none, c1, ram1) => WriteCache.add_all X c1 ram1 entries

/-- The calls `add(entry)` one after the other, left at the first exception. -/
def RamSort.add_all {T : Type} (X : Extern T) : RamSort → List T → Option Exn × RamSort
  | ram, [] => (none, ram)
  | ram, entry :: entries =>
    match ram.add X entry with
    | (some e, ram1) => (some e, ram1)
    | (none, ram1) => RamSort.add_all X ram1 entries

/-- Build an engine, add the records through its own front, `finish()`, `read()`: the runs
pushed to the output, or nothing when a call throws. -/
def sort_all {T : Type} (X : Extern T) (key_size log_num_buckets : Int) (records : List T) :
    Option (List (List T × Nat)) :=
  match RamSort.new X key_size log_num_buckets false with
  | .error _ => none
  | .ok ram0 =>
    match ram0.add_all X records with
    | (some _, _) => none
    | (none, ram1) =>
      match ram1.finish X with
      | (some _, _) => none
      | (none, ram2) =>
        match ram2.read X with
        | (some _, _, _) => none
        | (none, _, runs) => some runs

/-- Build an engine, let the producers make their calls, `finish()`, `read()`: the runs
pushed to the output, or nothing when a call throws. -/
def sort_ops {T : Type} (X : Extern T) (key_size log_num_buckets : Int) (ops : List (Op T)) :
    Option (List (List T × Nat)) :=
  match RamSort.new X key_size log_num_buckets false with
  | .error _ => none
  | .ok ram0 =>
    match System.exec X { ram := ram0, fronts := [] } ops with
    | (some _, _) => none
    | (none, s) =>
      match s.ram.finish X with
      | (some _, _) => none
      | (none, ram2) =>
        match ram2.read X with
        | (some _, _, _) => none
        | (none, _, runs) => some runs

/-- The state the producers leave behind when they are done, before `finish()`. -/
def built {T : Type} (X : Extern T) (key_size log_num_buckets : Int) (ops : List (Op T)) :
    Option System :=
  match RamSort.new X key_size log_num_buckets false with
  | .error _ => none
  | .ok ram0 => some (System.exec X { ram := ram0, fronts := [] } ops).2

/-- Every front handed out by `add_cache()` has been flushed: nothing is pending in it. -/
def System.flushed (s : System) : Prop :=
  ∀ c ∈ s.fronts, ∀ buffer ∈ c.buckets, buffer.count = 0

instance (s : System) : Decidable s.flushed := by
  unfold System.flushed
  infer_instance

/-- Every `read` is made with `keep_files` set; the other calls are not restricted. -/
def read_keeps {T : Type} (s : System) : Call T → Prop
  | Call.read => s.ram.keep_files = true
  | _ => True

/-- The runs arranged in ascending order of `global_offset`. -/
def in_offset_order {T : Type} (runs : List (List T × Nat)) : List (List T × Nat) :=
  List.insertionSort (fun a b => a.2 ≤ b.2) runs

/-! ## Reading the state -/

/-- The first `n` records serialised in `bytes`. -/
def decode {T : Type} (X : Extern T) (bytes : List Byte) (n : Nat) : List T :=
  (List.range n).map (read_entry X bytes)

/-- The records stored in a bucket. -/
def bucket_t.entries {T : Type} (X : Extern T) (b : bucket_t) : List T :=
  decode X b.bytes b.num_entries

/-- The records pending in a staging buffer. -/
def write_buffer_t.pending {T : Type} (X : Extern T) (buffer : write_buffer_t) : List T :=
  decode X buffer.data buffer.count

/-- All records stored in the buckets, bucket after bucket. -/
def RamSort.stored {T : Type} (X : Extern T) (ram : RamSort) : List T :=
  ram.buckets.flatMap (bucket_t.entries X)

/-- All records pending in a front. -/
def WriteCache.staged {T : Type} (X : Extern T) (c : WriteCache) : List T :=
  c.buckets.flatMap (write_buffer_t.pending X)

/-- The sum of `num_entries` over all buckets. -/
def RamSort.total_entries (ram : RamSort) : Nat :=
  (ram.buckets.map bucket_t.num_entries).sum

/-- The records of a list of runs, one run after the other. -/
def concat_runs {T : Type} (runs : List (List T × Nat)) : List T :=
  runs.flatMap Prod.fst

/-- The pairs (bucket index, sub-bucket id) of the records stored in the buckets `bs`, the
first of which has index `i`; the sub-bucket id of a record is `key >> key_shift`. -/
def sub_pairs {T : Type} (X : Extern T) (key_shift : Int) : List bucket_t → Nat → List (Nat × Nat)
  | [], _ => []
  | b :: bs, i =>
    (b.entries X).map (fun e => (i, shr (X.key e) key_shift)) ++ sub_pairs X key_shift bs (i + 1)

/-- The number of records pending in a front. -/
def WriteCache.pending_count (c : WriteCache) : Nat :=
  (c.buckets.map write_buffer_t.count).sum

/-- The buffer of a bucket is exactly as long as its records. -/
def bucket_t.ok {T : Type} (X : Extern T) (b : bucket_t) : Prop :=
  b.bytes.length = b.num_entries * X.disk_size

/-- A staging buffer has its `capacity * disk_size` bytes and at most `capacity` pending
records. -/
def write_buffer_t.ok {T : Type} (X : Extern T) (buffer : write_buffer_t) : Prop :=
  buffer.data.length = X.capacity * X.disk_size ∧ buffer.count ≤ X.capacity

/-- A front that belongs to the engine `ram`: same shift, one well-formed staging buffer per
bucket, and every pending record staged for the bucket its key selects. -/
structure WriteCache.ok {T : Type} (X : Extern T) (ram : RamSort) (c : WriteCache) : Prop where
  key_shift : c.key_shift = ram.bucket_key_shift
  length : c.buckets.length = ram.buckets.length
  buffers : ∀ buffer ∈ c.buckets, buffer.ok X
  routed : ∀ i (h : i < c.buckets.length), ∀ e ∈ (c.buckets.get ⟨i, h⟩).pending X,
    shr (X.key e) c.key_shift = i

/-- The buckets of an engine are well-formed and every stored record lies in the bucket its
key selects. -/
structure RamSort.ok {T : Type} (X : Extern T) (ram : RamSort) : Prop where
  buckets : ∀ b ∈ ram.buckets, b.ok X
  routed : ∀ i (h : i < ram.buckets.length), ∀ e ∈ (ram.buckets.get ⟨i, h⟩).entries X,
    shr (X.key e) ram.bucket_key_shift = i

/-- The engine `ram1` is `ram` with other bucket contents. -/
def RamSort.frame (ram ram1 : RamSort) : Prop :=
  ram1 = { ram with buckets := ram1.buckets } ∧ ram1.buckets.length = ram.buckets.length

/-- The invariant of an engine with its fronts. -/
structure System.Inv {T : Type} (X : Extern T) (s : System) : Prop where
  ram : s.ram.ok X
  cache : s.ram.cache.ok X s.ram
  fronts : ∀ c ∈ s.fronts, c.ok X s.ram

/-- All records an engine and its fronts hold, stored or pending. -/
def System.records {T : Type} (X : Extern T) (s : System) : List T :=
  s.ram.stored X ++ s.ram.cache.staged X ++ s.fronts.flatMap (WriteCache.staged X)

/-- The records one call hands to the engine in state `s`. -/
def Op.records {T : Type} (X : Extern T) (s : System) : Op T → List T
  | Op.add entry => [entry]
  | Op.write _ data count => decode X data count
  | Op.cache_add j entry => if j < s.fronts.length then [entry] else []
  | _ => []

/-- The number of records one call of `add` or `write` hands to the engine. -/
def Op.count {T : Type} : Op T → Nat
  | Op.add _ => 1
  | Op.write _ _ count => count
  | _ => 0

/-- The configuration `(key_size, log_num_buckets)` an engine was built with, and the
number of buckets that goes with it. -/
structure RamSort.Conf (ks l : Int) (ram : RamSort) : Prop where
  key_size : ram.key_size = ks
  log_num_buckets : ram.log_num_buckets = l
  bucket_key_shift : ram.bucket_key_shift = ks - l
  length : ram.buckets.length = shl1 l

/-- The calls of a producer that hands records to `add` on some front: no direct `write`
and no `finish`. -/
def Op.producer {T : Type} : Op T → Prop
  | Op.write _ _ _ => False
  | Op.finish => False
  | _ => True

/-- The calls `add(record)` with a key below `2 ^ key_size` and `write(index, data, count)`
with `index` below the number of buckets. -/
def Op.direct {T : Type} (X : Extern T) (ks l : Int) : Op T → Prop
  | Op.add entry => X.key entry < 2 ^ ks.toNat
  | Op.write index _ _ => index < shl1 l
  | _ => False

/-- The records of bucket `j` followed by the records pending for it in the front `c`. -/
def content {T : Type} (X : Extern T) (ram : RamSort) (c : WriteCache) (j : Nat) : List T :=
  ((ram.buckets[j]?).map (bucket_t.entries X)).getD [] ++
    ((c.buckets[j]?).map (write_buffer_t.pending X)).getD []

/-- A direct `write` passes a block of `count` serialised records whose keys all select the
bucket written to; the other calls are not restricted. -/
def Op.routed {T : Type} (X : Extern T) (shift : Int) : Op T → Prop
  | Op.write index data count =>
    data.length = count * X.disk_size ∧ ∀ e ∈ decode X data count, shr (X.key e) shift = index
  | _ => True

/-- What holds of the table of `read_bucket` while it is filled: the ids are distinct, a
block is never empty, and a block holds only records of its own id. -/
structure TableInv {T : Type} (f : T → Nat) (table : List (Nat × List T)) : Prop where
  nodup : (table.map Prod.fst).Nodup
  nonempty : ∀ p ∈ table, p.2 ≠ []
  keyed : ∀ p ∈ table, ∀ x ∈ p.2, f x = p.1

/-- The runs follow one another without gap from position `a` to position `b`: each run is
non-empty and starts where the one before it ends. -/
def Chain {T : Type} : List (List T × Nat) → Nat → Nat → Prop
  | [], a, b => a = b
  | r :: rs, a, b => r.2 = a ∧ r.1 ≠ [] ∧ Chain rs (a + r.1.length) b

/-- The vector `out` that `read_bucket` fills for bucket `b` and start offset `offset`. -/
def bucket_runs {T : Type} (X : Extern T) (key_shift : Int) (b : bucket_t) (offset : Nat) :
    List (List T × Nat) :=
  emit_blocks (sort_table (read_table X key_shift b.bytes b.num_entries)) offset

/-- The sort pool applied to every block of a vector `out`. -/
def sort_runs {T : Type} (X : Extern T) (out : List (List T × Nat)) : List (List T × Nat) :=
  out.map fun block => (X.sort block.1, block.2)

/-- The runs of the buckets `bs`, bucket after bucket, the first one starting at `offset`. -/
def read_out {T : Type} (X : Extern T) (key_shift : Int) : List bucket_t → Nat → List (List T × Nat)
  | [], _ => []
  | b :: bs, offset =>
    sort_runs X (bucket_runs X key_shift b offset) ++
      read_out X key_shift bs (offset + b.num_entries)

/-! ## A small record type to run the engine on -/

/-- A record of two bytes: the key and a tag. -/
structure Rec where
  key : Nat
  tag : Nat
  deriving DecidableEq, Repr

/-- Two-byte records keyed by their first byte, staging buffers of two records, and
insertion sort (what `std::sort` of libstdc++ runs on short ranges) as `std::sort`. -/
def demo : Extern Rec :=
  { disk_size := 2
    write := fun r => [r.key, r.tag]
    read := fun bytes => { key := bytes.getD 0 0, tag := bytes.getD 1 0 }
    key := Rec.key
    capacity := 2
    sort := List.insertionSort (fun a b => a.key ≤ b.key) }

/-- The engine built by `RamSort(8, 2, prefix)` for the small record type: four buckets,
top-level shift 6. -/
def demo_engine : RamSort :=
  { key_size := 8
    log_num_buckets := 2
    bucket_key_shift := 6
    keep_files := false
    is_finished := false
    cache := WriteCache.new demo 6 4
    buckets := List.replicate 4 bucket_t.empty }

/-- The state after `write(0, data, 1)` on a fresh engine, where `data` is the serialised
record with key 255. -/
def misrouted : System :=
  (System.step demo { ram := demo_engine, fronts := [] } (Op.write 0 [255, 0] 1)).2

/-- The state after `add_cache()` and one `add` on the new front, before `finish()`. -/
def unflushed : System :=
  (System.exec demo { ram := demo_engine, fronts := [] }
    [Op.add_cache, Op.cache_add 0 { key := 5, tag := 1 }]).2

/-- The state after `add(record)`, `finish()` and `read()` on a fresh engine. -/
def released : System :=
  (System.call demo
    (System.call demo
      (System.call demo { ram := demo_engine, fronts := [] }
        (Call.build (Op.add { key := 5, tag := 1 }))).2
      (Call.build Op.finish)).2
    Call.read).2

/-- The state after `add(record)`, `finish()`, `set_keep_files(true)` and `read()` on a fresh
engine. -/
def retained : System :=
  (System.call demo
    (System.call demo
      (System.call demo
        (System.call demo { ram := demo_engine, fronts := [] }
          (Call.build (Op.add { key := 5, tag := 1 }))).2
        (Call.build Op.finish)).2
      (Call.set_keep_files true)).2
    Call.read).2

/-- The engine built by `RamSort(3, 2, prefix)` for the small record type: four buckets,
top-level shift 1, secondary shift `3 - 2 * 2 = -1`. -/
def narrow_engine : RamSort :=
  { key_size := 3
    log_num_buckets := 2
    bucket_key_shift := 1
    keep_files := false
    is_finished := false
    cache := WriteCache.new demo 1 4
    buckets := List.replicate 4 bucket_t.empty }

/-- The engine after `add(record)` and `finish()` on a fresh engine. -/
def finished_engine : RamSort :=
  (System.exec demo { ram := demo_engine, fronts := [] }
    [Op.add { key := 5, tag := 1 }, Op.add { key := 200, tag := 2 }, Op.finish]).2.ram

/-- The engine's own front and the engine after two `add` calls for bucket 0: the staging
buffer of bucket 0 is at capacity. -/
def full_front : WriteCache × RamSort :=
  (WriteCache.add_all demo demo_engine.cache demo_engine
    [{ key := 5, tag := 1 }, { key := 7, tag := 2 }]).2

/-- The staging buffer of bucket 0 in `full_front`. -/
def full_buffer : write_buffer_t := { count := 2, data := [5, 1, 7, 2] }

/-- Two producers: the engine's own front receives the first record, a front from
`add_cache()` the second one, and that front is flushed before `finish()`. -/
def two_fronts : List (Op Rec) :=
  [Op.add_cache, Op.add { key := 5, tag := 1 }, Op.cache_add 0 { key := 5, tag := 2 },
    Op.cache_flush 0]

/-- Ten records with keys of eight bits. -/
def ten_records : List Rec :=
  [{ key := 200, tag := 1 }, { key := 5, tag := 2 }, { key := 5, tag := 3 },
    { key := 130, tag := 4 }, { key := 7, tag := 5 }, { key := 255, tag := 6 },
    { key := 64, tag := 7 }, { key := 3, tag := 8 }, { key := 1, tag := 9 },
    { key := 20, tag := 10 }]

/-- The engine after the ten records have been added and `finish()` has returned. -/
def ten_engine : RamSort :=
  ((RamSort.add_all demo demo_engine ten_records).2.finish demo).2

/-! ## The table of `read_bucket` -/

theorem table_push_keys {T : Type} (table : List (Nat × List T)) (k : Nat) (e : T) :
    (table_push table k e).map Prod.fst =
      if k ∈ table.map Prod.fst then table.map Prod.fst else table.map Prod.fst ++ [k] := by
  induction table with
  | nil => simp [table_push]
  | cons p rest ih =>
    obtain ⟨k1, block⟩ := p
    by_cases h : k1 = k
    · simp [table_push, h]
    · have h2 : ¬ k = k1 := fun h3 => h h3.symm
      simp only [table_push, h, if_false, List.map_cons, ih, List.mem_cons, h2, false_or]
      split <;> simp

theorem table_push_perm {T : Type} (table : List (Nat × List T)) (k : Nat) (e : T) :
    ((table_push table k e).flatMap Prod.snd).Perm (table.flatMap Prod.snd ++ [e]) := by
  induction table with
  | nil => simp [table_push]
  | cons p rest ih =>
    obtain ⟨k1, block⟩ := p
    by_cases h : k1 = k
    · simp only [table_push, h, if_true, List.flatMap_cons, List.append_assoc]
      exact List.Perm.append_left _ List.perm_append_comm
    · simp only [table_push, h, if_false, List.flatMap_cons, List.append_assoc]
      exact List.Perm.append_left _ ih

theorem table_push_mem {T : Type} (table : List (Nat × List T)) (k : Nat) (e : T)
    (p : Nat × List T) (hp : p ∈ table_push table k e) :
    p ∈ table ∨ (p.1 = k ∧ p.2 ≠ [] ∧ ∀ x ∈ p.2, x = e ∨ ∃ q ∈ table, q.1 = k ∧ x ∈ q.2) := by
  induction table with
  | nil =>
    simp only [table_push, List.mem_singleton] at hp
    subst hp
    right
    simp
  | cons q rest ih =>
    obtain ⟨k1, block⟩ := q
    by_cases h : k1 = k
    · simp only [table_push, h, if_true, List.mem_cons] at hp
      rcases hp with hp | hp
      · subst hp
        right
        refine ⟨rfl, by simp, ?_⟩
        intro x hx
        simp only [List.mem_append, List.mem_singleton] at hx
        rcases hx with hx | hx
        · exact Or.inr ⟨(k1, block), by simp, h, hx⟩
        · exact Or.inl hx
      · left
        simp [hp]
    · simp only [table_push, h, if_false, List.mem_cons] at hp
      rcases hp with hp | hp
      · left
        simp [hp]
      · rcases ih hp with h1 | ⟨h1, h2, h3⟩
        · left
          simp [h1]
        · right
          refine ⟨h1, h2, ?_⟩
          intro x hx
          rcases h3 x hx with h4 | ⟨q, hq, hq1, hq2⟩
          · exact Or.inl h4
          · exact Or.inr ⟨q, by simp [hq], hq1, hq2⟩

theorem TableInv.nil {T : Type} (f : T → Nat) : TableInv f ([] : List (Nat × List T)) :=
  ⟨by simp, by simp, by simp⟩

theorem TableInv.push {T : Type} {f : T → Nat} {table : List (Nat × List T)}
    (h : TableInv f table) (e : T) : TableInv f (table_push table (f e) e) := by
  refine ⟨?_, ?_, ?_⟩
  · rw [table_push_keys]
    split
    · exact h.nodup
    · rename_i hk
      exact List.Nodup.append h.nodup (by simp) (by simpa using hk)
  · intro p hp
    rcases table_push_mem _ _ _ _ hp with h1 | ⟨_, h2, _⟩
    · exact h.nonempty p h1
    · exact h2
  · intro p hp x hx
    rcases table_push_mem _ _ _ _ hp with h1 | ⟨h1, _, h3⟩
    · exact h.keyed p h1 x hx
    · rcases h3 x hx with h4 | ⟨q, hq, hq1, hq2⟩
      · rw [h4, h1]
      · rw [h1, ← hq1]
        exact h.keyed q hq x hq2

theorem foldl_table_push {T : Type} (f : T → Nat) (es : List T) (table : List (Nat × List T))
    (h : TableInv f table) :
    TableInv f (es.foldl (fun t e => table_push t (f e) e) table) ∧
    ((es.foldl (fun t e => table_push t (f e) e) table).flatMap Prod.snd).Perm
      (table.flatMap Prod.snd ++ es) := by
  induction es generalizing table with
  | nil => simpa using h
  | cons e es ih =>
    obtain ⟨h1, h2⟩ := ih (table_push table (f e) e) (h.push e)
    refine ⟨h1, h2.trans ?_⟩
    have := (table_push_perm table (f e) e).append_right es
    simpa using this

theorem read_table_eq {T : Type} (X : Extern T) (key_shift : Int) (ptr : List Byte) (n : Nat) :
    read_table X key_shift ptr n =
      (decode X ptr n).foldl (fun t e => table_push t (shr (X.key e) key_shift) e) [] := by
  simp [read_table, decode, List.foldl_map]

/-! ## The ordered map of `read_bucket` -/

theorem map_emplace_perm {T : Type} (sorted : List (Nat × List T)) (k : Nat) (v : List T)
    (hk : k ∉ sorted.map Prod.fst) : (map_emplace sorted k v).Perm ((k, v) :: sorted) := by
  induction sorted with
  | nil => simp [map_emplace]
  | cons p rest ih =>
    obtain ⟨k1, v1⟩ := p
    simp only [List.map_cons, List.mem_cons, not_or] at hk
    by_cases h : k < k1
    · simp [map_emplace, h]
    · simp only [map_emplace, h, if_false, hk.1]
      exact ((ih hk.2).cons _).trans (List.Perm.swap _ _ _)

theorem map_emplace_keys_mem {T : Type} (sorted : List (Nat × List T)) (k : Nat) (v : List T)
    (x : Nat) (hx : x ∈ (map_emplace sorted k v).map Prod.fst) :
    x = k ∨ x ∈ sorted.map Prod.fst := by
  induction sorted with
  | nil => simpa [map_emplace] using hx
  | cons p rest ih =>
    obtain ⟨k1, v1⟩ := p
    by_cases h : k < k1
    · simpa [map_emplace, h] using hx
    · by_cases h2 : k = k1
      · right
        simpa [map_emplace, h, h2] using hx
      · simp only [map_emplace, h, h2, if_false, List.map_cons, List.mem_cons] at hx
        rcases hx with hx | hx
        · right
          simp [hx]
        · rcases ih hx with h3 | h3
          · exact Or.inl h3
          · right
            simp [h3]

theorem map_emplace_sorted {T : Type} (sorted : List (Nat × List T)) (k : Nat) (v : List T)
    (hs : (sorted.map Prod.fst).Pairwise (· < ·)) :
    ((map_emplace sorted k v).map Prod.fst).Pairwise (· < ·) := by
  induction sorted with
  | nil => simp [map_emplace]
  | cons p rest ih =>
    obtain ⟨k1, v1⟩ := p
    simp only [List.map_cons, List.pairwise_cons] at hs
    by_cases h : k < k1
    · simp only [map_emplace, h, if_true, List.map_cons, List.pairwise_cons, List.mem_cons]
      refine ⟨?_, hs.1, hs.2⟩
      intro a ha
      rcases ha with ha | ha
      · omega
      · have := hs.1 a ha
        omega
    · by_cases h2 : k = k1
      · subst h2
        simp only [map_emplace, Nat.lt_irrefl, if_false, if_true, List.map_cons,
          List.pairwise_cons]
        exact ⟨hs.1, hs.2⟩
      · simp only [map_emplace, h, h2, if_false, List.map_cons, List.pairwise_cons]
        refine ⟨?_, ih hs.2⟩
        intro a ha
        rcases map_emplace_keys_mem rest k v a ha with h3 | h3
        · omega
        · exact hs.1 a h3

theorem foldl_map_emplace {T : Type} (table acc : List (Nat × List T))
    (hn : (table.map Prod.fst).Nodup)
    (hd : ∀ x ∈ table.map Prod.fst, x ∉ acc.map Prod.fst)
    (hs : (acc.map Prod.fst).Pairwise (· < ·)) :
    (table.foldl (fun sorted entry => map_emplace sorted entry.1 entry.2) acc).Perm (acc ++ table) ∧
    ((table.foldl (fun sorted entry => map_emplace sorted entry.1 entry.2) acc).map
      Prod.fst).Pairwise (· < ·) := by
  induction table generalizing acc with
  | nil => simpa using hs
  | cons p rest ih =>
    simp only [List.map_cons, List.nodup_cons] at hn
    have hp : p.1 ∉ acc.map Prod.fst := hd p.1 (by simp)
    have h1 := map_emplace_perm acc p.1 p.2 hp
    have hd2 : ∀ x ∈ rest.map Prod.fst, x ∉ (map_emplace acc p.1 p.2).map Prod.fst := by
      intro x hx hx2
      rcases map_emplace_keys_mem acc p.1 p.2 x hx2 with h3 | h3
      · exact hn.1 (h3 ▸ hx)
      · exact hd x (by simp [hx]) h3
    obtain ⟨h4, h5⟩ := ih (map_emplace acc p.1 p.2) hn.2 hd2 (map_emplace_sorted acc p.1 p.2 hs)
    refine ⟨?_, h5⟩
    simp only [List.foldl_cons]
    refine h4.trans ?_
    refine (h1.append_right rest).trans ?_
    simp only [List.cons_append]
    exact List.perm_middle.symm

theorem sort_table_perm {T : Type} (table : List (Nat × List T))
    (hn : (table.map Prod.fst).Nodup) : (sort_table table).Perm table := by
  have := (foldl_map_emplace table [] hn (by simp) (by simp)).1
  simpa [sort_table] using this

theorem sort_table_sorted {T : Type} (table : List (Nat × List T))
    (hn : (table.map Prod.fst).Nodup) :
    ((sort_table table).map Prod.fst).Pairwise (· < ·) :=
  (foldl_map_emplace table [] hn (by simp) (by simp)).2

/-! ## Runs and offsets -/

theorem emit_blocks_fst {T : Type} (sorted : List (Nat × List T)) (offset : Nat) :
    (emit_blocks sorted offset).map Prod.fst = sorted.map Prod.snd := by
  induction sorted generalizing offset with
  | nil => rfl
  | cons p rest ih =>
    obtain ⟨k, v⟩ := p
    simp [emit_blocks, ih]

theorem emit_blocks_concat {T : Type} (sorted : List (Nat × List T)) (offset : Nat) :
    concat_runs (emit_blocks sorted offset) = sorted.flatMap Prod.snd := by
  induction sorted generalizing offset with
  | nil => rfl
  | cons p rest ih =>
    obtain ⟨k, v⟩ := p
    have := ih (offset + v.length)
    simp only [concat_runs] at this
    simp [emit_blocks, concat_runs, this]

theorem emit_blocks_chain {T : Type} (sorted : List (Nat × List T)) (offset : Nat)
    (hne : ∀ p ∈ sorted, p.2 ≠ []) :
    Chain (emit_blocks sorted offset) offset (offset + (sorted.flatMap Prod.snd).length) := by
  induction sorted generalizing offset with
  | nil => simp [emit_blocks, Chain]
  | cons p rest ih =>
    obtain ⟨k, v⟩ := p
    have h1 := ih (offset + v.length) (fun p hp => hne p (by simp [hp]))
    have h2 := hne (k, v) (by simp)
    simp only [emit_blocks, Chain, List.flatMap_cons, List.length_append]
    refine ⟨trivial, h2, ?_⟩
    rw [← Nat.add_assoc]
    exact h1

theorem Chain.append {T : Type} {xs ys : List (List T × Nat)} {a m b : Nat}
    (h1 : Chain xs a m) (h2 : Chain ys m b) : Chain (xs ++ ys) a b := by
  induction xs generalizing a with
  | nil =>
    simp only [Chain] at h1
    subst h1
    simpa using h2
  | cons r rs ih =>
    simp only [Chain] at h1
    simp only [List.cons_append, Chain]
    exact ⟨h1.1, h1.2.1, ih h1.2.2⟩

theorem Chain.le {T : Type} {runs : List (List T × Nat)} {a b : Nat} (h : Chain runs a b) :
    a ≤ b := by
  induction runs generalizing a with
  | nil =>
    simp only [Chain] at h
    omega
  | cons r rs ih =>
    simp only [Chain] at h
    have := ih h.2.2
    omega

theorem Chain.length_concat {T : Type} {runs : List (List T × Nat)} {a b : Nat}
    (h : Chain runs a b) : a + (concat_runs runs).length = b := by
  induction runs generalizing a with
  | nil =>
    simp only [Chain] at h
    simp [concat_runs, h]
  | cons r rs ih =>
    simp only [Chain] at h
    have := ih h.2.2
    simp only [concat_runs] at this
    simp only [concat_runs, List.flatMap_cons, List.length_append]
    omega

theorem Chain.bounds {T : Type} {runs : List (List T × Nat)} {a b : Nat} (h : Chain runs a b) :
    ∀ r ∈ runs, a ≤ r.2 ∧ r.2 < r.2 + r.1.length ∧ r.2 + r.1.length ≤ b := by
  induction runs generalizing a with
  | nil => simp
  | cons r rs ih =>
    simp only [Chain] at h
    have hlen : 0 < r.1.length := List.length_pos.mpr h.2.1
    have hle := Chain.le h.2.2
    intro q hq
    simp only [List.mem_cons] at hq
    rcases hq with hq | hq
    · subst hq
      omega
    · have := ih h.2.2 q hq
      omega

theorem Chain.disjoint {T : Type} {runs : List (List T × Nat)} {a b : Nat} (h : Chain runs a b) :
    runs.Pairwise (fun r1 r2 => r1.2 + r1.1.length ≤ r2.2) := by
  induction runs generalizing a with
  | nil => simp
  | cons r rs ih =>
    simp only [Chain] at h
    simp only [List.pairwise_cons]
    refine ⟨?_, ih h.2.2⟩
    intro q hq
    have := Chain.bounds h.2.2 q hq
    omega

theorem Chain.cover {T : Type} {runs : List (List T × Nat)} {a b : Nat} (h : Chain runs a b)
    (n : Nat) : (a ≤ n ∧ n < b) ↔ ∃ r ∈ runs, r.2 ≤ n ∧ n < r.2 + r.1.length := by
  induction runs generalizing a with
  | nil =>
    simp only [Chain] at h
    simp only [List.not_mem_nil, false_and, exists_false, iff_false]
    omega
  | cons r rs ih =>
    simp only [Chain] at h
    have hle := Chain.le h.2.2
    have := ih h.2.2
    constructor
    · intro hn
      by_cases h1 : n < a + r.1.length
      · exact ⟨r, by simp, by omega, by omega⟩
      · obtain ⟨q, hq, hq2⟩ := this.mp ⟨by omega, hn.2⟩
        exact ⟨q, by simp [hq], hq2⟩
    · rintro ⟨q, hq, hq2⟩
      simp only [List.mem_cons] at hq
      rcases hq with hq | hq
      · subst hq
        omega
      · have := this.mpr ⟨q, hq, hq2⟩
        omega

theorem sort_runs_chain {T : Type} {X : Extern T} (hX : X.Lawful) {out : List (List T × Nat)}
    {a b : Nat} (h : Chain out a b) : Chain (sort_runs X out) a b := by
  induction out generalizing a with
  | nil => simpa [sort_runs] using h
  | cons r rs ih =>
    simp only [Chain] at h
    simp only [sort_runs, List.map_cons, Chain]
    have hl : (X.sort r.1).length = r.1.length := (hX.sort_perm r.1).length_eq
    refine ⟨h.1, ?_, ?_⟩
    · intro h0
      rw [h0] at hl
      exact h.2.1 (List.length_eq_zero.mp hl.symm)
    · rw [hl]
      exact ih h.2.2

theorem sort_runs_concat {T : Type} {X : Extern T} (hX : X.Lawful) (out : List (List T × Nat)) :
    (concat_runs (sort_runs X out)).Perm (concat_runs out) := by
  induction out with
  | nil => simp [sort_runs, concat_runs]
  | cons r rs ih =>
    simp only [sort_runs, concat_runs, List.map_cons, List.flatMap_cons] at ih ⊢
    exact (hX.sort_perm r.1).append ih

theorem decode_length {T : Type} (X : Extern T) (bytes : List Byte) (n : Nat) :
    (decode X bytes n).length = n := by
  simp [decode]

theorem shr_lt_imp_lt {a b : Nat} {s : Int} (h : shr a s < shr b s) : a < b := by
  by_contra hab
  have hba : b ≤ a := Nat.le_of_not_lt hab
  have : shr b s ≤ shr a s := by
    simp only [shr, Nat.shiftRight_eq_div_pow]
    exact Nat.div_le_div_right hba
  omega

/-! ## The runs of one bucket -/

theorem read_table_inv {T : Type} (X : Extern T) (key_shift : Int) (b : bucket_t) :
    TableInv (fun e => shr (X.key e) key_shift)
      (read_table X key_shift b.bytes b.num_entries) ∧
    ((read_table X key_shift b.bytes b.num_entries).flatMap Prod.snd).Perm (b.entries X) := by
  rw [read_table_eq]
  have := foldl_table_push (fun e => shr (X.key e) key_shift) (decode X b.bytes b.num_entries) []
    (TableInv.nil _)
  simpa [bucket_t.entries] using this

theorem bucket_runs_concat {T : Type} (X : Extern T) (key_shift : Int) (b : bucket_t)
    (offset : Nat) : (concat_runs (bucket_runs X key_shift b offset)).Perm (b.entries X) := by
  obtain ⟨h1, h2⟩ := read_table_inv X key_shift b
  rw [bucket_runs, emit_blocks_concat]
  exact ((sort_table_perm _ h1.nodup).flatMap_right _).trans h2

theorem bucket_runs_chain {T : Type} (X : Extern T) (key_shift : Int) (b : bucket_t)
    (offset : Nat) :
    Chain (bucket_runs X key_shift b offset) offset (offset + b.num_entries) := by
  obtain ⟨h1, h2⟩ := read_table_inv X key_shift b
  have hp := sort_table_perm _ h1.nodup
  have h3 := emit_blocks_chain (sort_table (read_table X key_shift b.bytes b.num_entries)) offset
    (fun p hp2 => h1.nonempty p (hp.mem_iff.mp hp2))
  have h4 : ((sort_table (read_table X key_shift b.bytes b.num_entries)).flatMap Prod.snd).length
      = b.num_entries := by
    rw [((hp.flatMap_right _).trans h2).length_eq, bucket_t.entries, decode_length]
  rw [h4] at h3
  exact h3

theorem bucket_runs_ordered {T : Type} (X : Extern T) (key_shift : Int) (b : bucket_t)
    (offset : Nat) :
    (bucket_runs X key_shift b offset).Pairwise
      (fun r1 r2 => ∀ x ∈ r1.1, ∀ y ∈ r2.1, shr (X.key x) key_shift < shr (X.key y) key_shift) := by
  obtain ⟨h1, _⟩ := read_table_inv X key_shift b
  have hp := sort_table_perm _ h1.nodup
  have hs := sort_table_sorted _ h1.nodup
  have h5 : (sort_table (read_table X key_shift b.bytes b.num_entries)).Pairwise
      (fun p q => ∀ x ∈ p.2, ∀ y ∈ q.2,
        shr (X.key x) key_shift < shr (X.key y) key_shift) := by
    rw [List.pairwise_map] at hs
    refine List.Pairwise.imp_of_mem ?_ hs
    intro p q hp1 hq1 hlt x hx y hy
    have e1 := h1.keyed p (hp.mem_iff.mp hp1) x hx
    have e2 := h1.keyed q (hp.mem_iff.mp hq1) y hy
    simp only at e1 e2
    omega
  have h6 : ((bucket_runs X key_shift b offset).map Prod.fst).Pairwise
      (fun v w => ∀ x ∈ v, ∀ y ∈ w, shr (X.key x) key_shift < shr (X.key y) key_shift) := by
    rw [bucket_runs, emit_blocks_fst, List.pairwise_map]
    exact h5
  rw [List.pairwise_map] at h6
  exact h6

/-! ## The runs of all buckets -/

theorem read_out_concat {T : Type} {X : Extern T} (hX : X.Lawful) (key_shift : Int)
    (bs : List bucket_t) (offset : Nat) :
    (concat_runs (read_out X key_shift bs offset)).Perm (bs.flatMap (bucket_t.entries X)) := by
  induction bs generalizing offset with
  | nil => simp [read_out, concat_runs]
  | cons b bs ih =>
    have h1 := (sort_runs_concat hX (bucket_runs X key_shift b offset)).trans
      (bucket_runs_concat X key_shift b offset)
    have h2 := ih (offset + b.num_entries)
    simp only [concat_runs] at h1 h2
    simp only [read_out, concat_runs, List.flatMap_append, List.flatMap_cons]
    exact h1.append h2

theorem read_out_chain {T : Type} {X : Extern T} (hX : X.Lawful) (key_shift : Int)
    (bs : List bucket_t) (offset : Nat) :
    Chain (read_out X key_shift bs offset) offset
      (offset + (bs.map bucket_t.num_entries).sum) := by
  induction bs generalizing offset with
  | nil => simp [read_out, Chain]
  | cons b bs ih =>
    simp only [read_out, List.map_cons, List.sum_cons]
    rw [← Nat.add_assoc]
    exact Chain.append (sort_runs_chain hX (bucket_runs_chain X key_shift b offset))
      (ih (offset + b.num_entries))

theorem sort_runs_sorted {T : Type} {X : Extern T} (hX : X.Lawful) (key_shift : Int)
    (b : bucket_t) (offset : Nat) :
    (concat_runs (sort_runs X (bucket_runs X key_shift b offset))).Pairwise
      (fun x y => X.key x ≤ X.key y) := by
  simp only [concat_runs, sort_runs, List.flatMap_map]
  rw [List.pairwise_flatMap]
  refine ⟨fun r _ => hX.sort_sorted r.1, ?_⟩
  refine List.Pairwise.imp ?_ (bucket_runs_ordered X key_shift b offset)
  intro r1 r2 h x hx y hy
  have := h x ((hX.sort_perm r1.1).mem_iff.mp hx) y ((hX.sort_perm r2.1).mem_iff.mp hy)
  exact Nat.le_of_lt (shr_lt_imp_lt this)

theorem read_out_sorted {T : Type} {X : Extern T} (hX : X.Lawful) (key_shift shift : Int)
    (bs : List bucket_t) (offset k : Nat)
    (hr : ∀ j (h : j < bs.length), ∀ e ∈ (bs.get ⟨j, h⟩).entries X, shr (X.key e) shift = k + j) :
    (concat_runs (read_out X key_shift bs offset)).Pairwise (fun x y => X.key x ≤ X.key y) := by
  induction bs generalizing offset k with
  | nil => simp [read_out, concat_runs]
  | cons b bs ih =>
    have hr2 : ∀ j (h : j < bs.length), ∀ e ∈ (bs.get ⟨j, h⟩).entries X,
        shr (X.key e) shift = (k + 1) + j := by
      intro j h e he
      have := hr (j + 1) (by simp; omega) e (by simpa using he)
      omega
    have h1 := sort_runs_sorted hX key_shift b offset
    have h2 := ih (offset + b.num_entries) (k + 1) hr2
    have h3 := (sort_runs_concat hX (bucket_runs X key_shift b offset)).trans
      (bucket_runs_concat X key_shift b offset)
    have h4 := read_out_concat hX key_shift bs (offset + b.num_entries)
    simp only [concat_runs] at h1 h2 h3 h4
    simp only [read_out, concat_runs, List.flatMap_append]
    rw [List.pairwise_append]
    refine ⟨h1, h2, ?_⟩
    intro x hx y hy
    have hx2 := hr 0 (by simp) x (by simpa using h3.mem_iff.mp hx)
    have hy2 := h4.mem_iff.mp hy
    simp only [List.mem_flatMap] at hy2
    obtain ⟨c, hc, hyc⟩ := hy2
    obtain ⟨j, hj, hjc⟩ := List.getElem_of_mem hc
    have hy3 := hr2 j hj y (by simpa [hjc] using hyc)
    exact Nat.le_of_lt (shr_lt_imp_lt (s := shift) (by omega))

/-! ## `read_bucket` and `read` in closed form -/

/-- The engine after its buckets have been scanned: buffers dropped unless retained. -/
theorem read_bucket_eq {T : Type} (X : Extern T) (ram : RamSort) (i offset : Nat)
    (hi : i < ram.buckets.length) (hs : 0 ≤ ram.bucket_key_shift - ram.log_num_buckets) :
    ram.read_bucket X (i, offset) =
      (none,
        (if ram.keep_files = false then
          { ram with buckets := ram.buckets.set i (ram.buckets.get ⟨i, hi⟩).remove }
        else ram),
        bucket_runs X (ram.bucket_key_shift - ram.log_num_buckets)
          (ram.buckets.get ⟨i, hi⟩) offset) := by
  have hs2 : ¬ (ram.bucket_key_shift - ram.log_num_buckets < 0) := by omega
  simp only [RamSort.read_bucket, hi, dite_true, hs2, if_false, bucket_runs]

theorem read_fold {T : Type} (X : Extern T) (suf pre : List bucket_t) (ram : RamSort)
    (output : List (List T × Nat)) (offset : Nat)
    (hb : ram.buckets = pre ++ suf)
    (hs : 0 ≤ ram.bucket_key_shift - ram.log_num_buckets) :
    (read_tasks suf pre.length offset).foldl (RamSort.read_step X) (none, ram, output) =
      (none,
        { ram with
          buckets := pre ++ suf.map (fun b => if ram.keep_files = false then b.remove else b) },
        output ++ read_out X (ram.bucket_key_shift - ram.log_num_buckets) suf offset) := by
  induction suf generalizing pre ram output offset with
  | nil =>
    simp only [read_tasks, List.foldl_nil, read_out, List.append_nil, List.map_nil]
    rw [← List.append_nil pre, ← hb]
  | cons b bs ih =>
    have hi : pre.length < ram.buckets.length := by rw [hb]; simp
    have hget : ram.buckets.get ⟨pre.length, hi⟩ = b := by
      rw [List.get_eq_getElem, List.getElem_of_eq hb,
        List.getElem_append_right (Nat.le_refl _)]
      simp
    simp only [read_tasks, List.foldl_cons, RamSort.read_step]
    rw [read_bucket_eq X ram pre.length offset hi hs, hget]
    simp only
    have hset : ram.buckets.set pre.length b.remove = pre ++ b.remove :: bs := by
      rw [hb]; simp
    by_cases hk : ram.keep_files = false
    · rw [if_pos hk]
      have := ih (pre ++ [b.remove]) { ram with buckets := ram.buckets.set pre.length b.remove }
        (output ++ sort_runs X (bucket_runs X (ram.bucket_key_shift - ram.log_num_buckets) b offset))
        (offset + b.num_entries) (by simp [hset]) hs
      simp only [List.length_append, List.length_singleton] at this
      simp only [sort_runs] at this ⊢
      rw [this]
      simp [hk, read_out, sort_runs]
    · rw [if_neg hk]
      have := ih (pre ++ [b]) ram
        (output ++ sort_runs X (bucket_runs X (ram.bucket_key_shift - ram.log_num_buckets) b offset))
        (offset + b.num_entries) (by simp [hb]) hs
      simp only [List.length_append, List.length_singleton] at this
      simp only [sort_runs] at this ⊢
      rw [this]
      simp [hk, read_out, sort_runs]

theorem read_eq {T : Type} (X : Extern T) (ram : RamSort)
    (hs : 0 ≤ ram.bucket_key_shift - ram.log_num_buckets) :
    ram.read X =
      (none,
        { ram with
          buckets := ram.buckets.map (fun b => if ram.keep_files = false then b.remove else b) },
        read_out X (ram.bucket_key_shift - ram.log_num_buckets) ram.buckets 0) := by
  have := read_fold X ram.buckets [] ram [] 0 (by simp) hs
  simpa [RamSort.read] using this

/-! ## Serialised records -/

theorem read_entry_append_left {T : Type} (X : Extern T) (bytes more : List Byte) (i n : Nat)
    (hlen : bytes.length = n * X.disk_size) (hi : i < n) :
    read_entry X (bytes ++ more) i = read_entry X bytes i := by
  have h1 : i * X.disk_size + X.disk_size ≤ bytes.length := by
    rw [hlen]
    calc i * X.disk_size + X.disk_size = (i + 1) * X.disk_size := by ring
      _ ≤ n * X.disk_size := Nat.mul_le_mul_right _ hi
  simp only [read_entry]
  rw [List.drop_append_of_le_length (by omega), List.take_append_of_le_length (by simp; omega)]

theorem read_entry_append_right {T : Type} (X : Extern T) (bytes more : List Byte) (j n : Nat)
    (hlen : bytes.length = n * X.disk_size) :
    read_entry X (bytes ++ more) (n + j) = read_entry X more j := by
  simp only [read_entry]
  have : (n + j) * X.disk_size = bytes.length + j * X.disk_size := by rw [hlen]; ring
  rw [this, List.drop_append]

theorem decode_append {T : Type} (X : Extern T) (bytes more : List Byte) (n m : Nat)
    (hlen : bytes.length = n * X.disk_size) :
    decode X (bytes ++ more) (n + m) = decode X bytes n ++ decode X more m := by
  simp only [decode, List.range_add, List.map_append, List.map_map]
  congr 1
  · apply List.map_congr_left
    intro i hi
    exact read_entry_append_left X bytes more i n hlen (List.mem_range.mp hi)
  · apply List.map_congr_left
    intro j _
    exact read_entry_append_right X bytes more j n hlen

theorem decode_take {T : Type} (X : Extern T) (data : List Byte) (c : Nat) :
    decode X (data.take (c * X.disk_size)) c = decode X data c := by
  simp only [decode]
  apply List.map_congr_left
  intro i hi
  have hi2 : i < c := List.mem_range.mp hi
  have h1 : i * X.disk_size + X.disk_size ≤ c * X.disk_size := by
    calc i * X.disk_size + X.disk_size = (i + 1) * X.disk_size := by ring
      _ ≤ c * X.disk_size := Nat.mul_le_mul_right _ hi2
  simp only [read_entry]
  rw [List.drop_take, List.take_take]
  have h2 : min X.disk_size (c * X.disk_size - i * X.disk_size) = X.disk_size := by omega
  rw [h2]

theorem decode_one {T : Type} {X : Extern T} (hX : X.Lawful) (e : T) (rest : List Byte) :
    decode X (X.write e ++ rest) 1 = [e] := by
  have h1 : List.range 1 = [0] := rfl
  simp only [decode, h1, List.map_cons, List.map_nil, read_entry, Nat.zero_mul,
    List.drop_zero]
  rw [List.take_append_of_le_length (by rw [hX.write_length]), List.take_of_length_le
    (by rw [hX.write_length]), hX.read_write]

/-! ## Appending to a bucket -/

theorem bucket_write_bytes {T : Type} (X : Extern T) (b : bucket_t) (data : List Byte)
    (count : Nat) (hb : b.bytes.length = b.num_entries * X.disk_size)
    (hd : count * X.disk_size ≤ data.length) :
    (b.write X data count).bytes = b.bytes ++ data.take (count * X.disk_size) := by
  by_cases h0 : b.num_entries * X.disk_size + count * X.disk_size = 0
  · have h1 : b.bytes = [] := List.length_eq_zero.mp (by omega)
    have h2 : count * X.disk_size = 0 := by omega
    rw [h1, h2]
    simp [bucket_t.write, bucket_t.resize, h0, bucket_t.bytes]
  · have hb2 : (b.data.getD []).length = b.num_entries * X.disk_size := hb
    have ht : (data.take (count * X.disk_size)).length = count * X.disk_size := by
      simp; omega
    have hbuf : realloc b.data (b.num_entries * X.disk_size + count * X.disk_size) =
        b.data.getD [] ++ List.replicate (count * X.disk_size) 0 := by
      simp only [realloc]
      rw [List.take_of_length_le (by omega), hb2, Nat.add_sub_cancel_left]
    simp only [bucket_t.write, bucket_t.resize, h0, if_false, Option.map_some', bucket_t.bytes,
      Option.getD_some, memcpy, hbuf, ht]
    rw [List.take_append_of_le_length (by omega), List.take_of_length_le (by omega),
      List.drop_of_length_le (by simp; omega)]
    simp

theorem bucket_write_num_entries {T : Type} (X : Extern T) (b : bucket_t) (data : List Byte)
    (count : Nat) : (b.write X data count).num_entries = b.num_entries + count := by
  simp only [bucket_t.write, bucket_t.resize]
  split <;> rfl

theorem bucket_write_entries {T : Type} (X : Extern T) (b : bucket_t) (data : List Byte)
    (count : Nat) (hb : b.bytes.length = b.num_entries * X.disk_size)
    (hd : count * X.disk_size ≤ data.length) :
    (b.write X data count).entries X = b.entries X ++ decode X data count := by
  rw [bucket_t.entries, bucket_write_bytes X b data count hb hd, bucket_write_num_entries,
    decode_append X _ _ _ _ hb, decode_take, bucket_t.entries]

theorem bucket_write_ok {T : Type} (X : Extern T) (b : bucket_t) (data : List Byte)
    (count : Nat) (hb : b.bytes.length = b.num_entries * X.disk_size)
    (hd : count * X.disk_size ≤ data.length) :
    (b.write X data count).bytes.length = (b.write X data count).num_entries * X.disk_size := by
  rw [bucket_write_bytes X b data count hb hd, bucket_write_num_entries, List.length_append, hb,
    List.length_take, Nat.min_eq_left hd]
  ring

/-! ## Staging a record -/

theorem push_count {T : Type} (X : Extern T) (buffer : write_buffer_t) (e : T) :
    (buffer.push X e).count = buffer.count + 1 := rfl

theorem push_length {T : Type} {X : Extern T} (hX : X.Lawful) (buffer : write_buffer_t) (e : T)
    (hd : buffer.data.length = X.capacity * X.disk_size) (hc : buffer.count < X.capacity) :
    (buffer.push X e).data.length = X.capacity * X.disk_size := by
  have h1 : buffer.count * X.disk_size + X.disk_size ≤ X.capacity * X.disk_size := by
    calc buffer.count * X.disk_size + X.disk_size = (buffer.count + 1) * X.disk_size := by ring
      _ ≤ X.capacity * X.disk_size := Nat.mul_le_mul_right _ hc
  simp only [write_buffer_t.push, memcpy, write_buffer_t.entry_at, List.length_append,
    List.length_take, List.length_drop, hX.write_length, hd]
  omega

theorem push_pending {T : Type} {X : Extern T} (hX : X.Lawful) (buffer : write_buffer_t) (e : T)
    (hd : buffer.data.length = X.capacity * X.disk_size) (hc : buffer.count < X.capacity) :
    (buffer.push X e).pending X = buffer.pending X ++ [e] := by
  have h1 : buffer.count * X.disk_size + X.disk_size ≤ X.capacity * X.disk_size := by
    calc buffer.count * X.disk_size + X.disk_size = (buffer.count + 1) * X.disk_size := by ring
      _ ≤ X.capacity * X.disk_size := Nat.mul_le_mul_right _ hc
  simp only [write_buffer_t.pending, write_buffer_t.push, memcpy, write_buffer_t.entry_at,
    List.append_assoc]
  rw [decode_append X _ _ _ _ (by simp; omega), decode_take, decode_one hX]

/-! ## Replacing one element of a list -/

theorem sum_map_set {α : Type} (g : α → Nat) (L : List α) (i : Nat) (h : i < L.length) (x : α) :
    ((L.set i x).map g).sum + g (L.get ⟨i, h⟩) = (L.map g).sum + g x := by
  induction L generalizing i with
  | nil => simp at h
  | cons y ys ih =>
    cases i with
    | zero => simp; omega
    | succ j =>
      have := ih j (by simpa using h)
      simp at this ⊢
      omega

theorem count_flatMap_set {α T : Type} [DecidableEq T] (f : α → List T) (L : List α) (i : Nat)
    (h : i < L.length) (x : α) (a : T) :
    ((L.set i x).flatMap f).count a + (f (L.get ⟨i, h⟩)).count a =
      (L.flatMap f).count a + (f x).count a := by
  rw [List.count_flatMap, List.count_flatMap]
  exact sum_map_set (List.count a ∘ f) L i h x

theorem forall_mem_set {α : Type} {P : α → Prop} {L : List α} (i : Nat) {x : α}
    (hL : ∀ y ∈ L, P y) (hx : P x) : ∀ y ∈ L.set i x, P y := by
  intro y hy
  rcases List.mem_or_eq_of_mem_set hy with h | h
  · exact hL y h
  · exact h ▸ hx

theorem forall_get_set {α : Type} (P : Nat → α → Prop) {L : List α} (i : Nat) {x : α}
    (hL : ∀ j (h : j < L.length), P j (L.get ⟨j, h⟩)) (hx : P i x) :
    ∀ j (h : j < (L.set i x).length), P j ((L.set i x).get ⟨j, h⟩) := by
  intro j h
  rw [List.get_eq_getElem, List.getElem_set]
  split
  · rename_i hij
    subst hij
    exact hx
  · exact hL j (by simpa using h)

/-! ## `RamSort::write` -/

theorem RamSort.write_eq {T : Type} (X : Extern T) (ram : RamSort) (index : Nat)
    (data : List Byte) (count : Nat) (hf : ram.is_finished = false)
    (hi : index < ram.buckets.length) :
    ram.write X index data count =
      (none, { ram with
        buckets := ram.buckets.set index
          ((ram.buckets.get ⟨index, hi⟩).write X data count) }) := by
  have h2 : ¬ ram.buckets.length ≤ index := by omega
  simp [RamSort.write, hf, h2]

theorem RamSort.write_finished {T : Type} (X : Extern T) (ram : RamSort) (index : Nat)
    (data : List Byte) (count : Nat) (hf : ram.is_finished = true) :
    ram.write X index data count = (some Exn.read_only, ram) := by
  simp [RamSort.write, hf]

theorem RamSort.write_range {T : Type} (X : Extern T) (ram : RamSort) (index : Nat)
    (data : List Byte) (count : Nat) (hf : ram.is_finished = false)
    (hi : ram.buckets.length ≤ index) :
    ram.write X index data count = (some Exn.bucket_index_out_of_range, ram) := by
  simp [RamSort.write, hf, hi]

theorem RamSort.frame_refl (ram : RamSort) : ram.frame ram := ⟨rfl, rfl⟩

theorem RamSort.frame_set (ram : RamSort) (bs : List bucket_t)
    (h : bs.length = ram.buckets.length) : ram.frame { ram with buckets := bs } := ⟨rfl, h⟩

theorem RamSort.frame.trans {r1 r2 r3 : RamSort} (h1 : r1.frame r2) (h2 : r2.frame r3) :
    r1.frame r3 := by
  obtain ⟨e1, l1⟩ := h1
  obtain ⟨e2, l2⟩ := h2
  refine ⟨?_, l2.trans l1⟩
  rw [e2, e1]

theorem RamSort.ok_set_bucket {T : Type} {X : Extern T} {ram : RamSort} (hr : ram.ok X) (i : Nat)
    (b : bucket_t) (hb : b.ok X)
    (he : ∀ e ∈ b.entries X, shr (X.key e) ram.bucket_key_shift = i) :
    RamSort.ok X { ram with buckets := ram.buckets.set i b } :=
  ⟨forall_mem_set i hr.buckets hb,
   forall_get_set (fun j (b : bucket_t) => ∀ e ∈ b.entries X, shr (X.key e) ram.bucket_key_shift = j)
     i hr.routed he⟩

theorem WriteCache.ok_set_buffer {T : Type} {X : Extern T} {ram : RamSort} {c : WriteCache}
    (hc : c.ok X ram) (i : Nat) (buffer : write_buffer_t) (hb : buffer.ok X)
    (he : ∀ e ∈ buffer.pending X, shr (X.key e) c.key_shift = i) :
    WriteCache.ok X ram { c with buckets := c.buckets.set i buffer } :=
  ⟨hc.key_shift, by simpa using hc.length, forall_mem_set i hc.buffers hb,
   forall_get_set (fun j (b : write_buffer_t) => ∀ e ∈ b.pending X, shr (X.key e) c.key_shift = j)
     i hc.routed he⟩

theorem WriteCache.ok_frame {T : Type} {X : Extern T} {ram ram1 : RamSort} {c : WriteCache}
    (hc : c.ok X ram) (hf : ram.frame ram1) : c.ok X ram1 := by
  obtain ⟨e1, l1⟩ := hf
  refine ⟨?_, hc.length.trans l1.symm, hc.buffers, hc.routed⟩
  rw [hc.key_shift, e1]

/-! ## `WriteCache::add` -/

theorem WriteCache.add_cases {T : Type} (X : Extern T) (c : WriteCache) (ram : RamSort) (e : T)
    (hl : c.buckets.length = ram.buckets.length) :
    (c.buckets.length ≤ shr (X.key e) c.key_shift ∧
      c.add X ram e = (some Exn.bucket_index_out_of_range, c, ram)) ∨
    (∃ h : shr (X.key e) c.key_shift < c.buckets.length,
      X.capacity ≤ (c.buckets.get ⟨shr (X.key e) c.key_shift, h⟩).count ∧
      ram.is_finished = true ∧ c.add X ram e = (some Exn.read_only, c, ram)) ∨
    (∃ h : shr (X.key e) c.key_shift < c.buckets.length,
      ∃ h2 : shr (X.key e) c.key_shift < ram.buckets.length,
      X.capacity ≤ (c.buckets.get ⟨shr (X.key e) c.key_shift, h⟩).count ∧
      ram.is_finished = false ∧
      c.add X ram e =
        (none,
          { c with
            buckets := c.buckets.set (shr (X.key e) c.key_shift)
              ((c.buckets.get ⟨shr (X.key e) c.key_shift, h⟩).reset.push X e) },
          { ram with
            buckets := ram.buckets.set (shr (X.key e) c.key_shift)
              ((ram.buckets.get ⟨shr (X.key e) c.key_shift, h2⟩).write X
                (c.buckets.get ⟨shr (X.key e) c.key_shift, h⟩).data
                (c.buckets.get ⟨shr (X.key e) c.key_shift, h⟩).count) })) ∨
    (∃ h : shr (X.key e) c.key_shift < c.buckets.length,
      (c.buckets.get ⟨shr (X.key e) c.key_shift, h⟩).count < X.capacity ∧
      c.add X ram e =
        (none,
          { c with
            buckets := c.buckets.set (shr (X.key e) c.key_shift)
              ((c.buckets.get ⟨shr (X.key e) c.key_shift, h⟩).push X e) },
          ram)) := by
  by_cases h : c.buckets.length ≤ shr (X.key e) c.key_shift
  · left
    exact ⟨h, by simp [WriteCache.add, h]⟩
  · right
    have h1 : shr (X.key e) c.key_shift < c.buckets.length := by omega
    by_cases hfull : X.capacity ≤ (c.buckets.get ⟨shr (X.key e) c.key_shift, h1⟩).count
    · by_cases hf : ram.is_finished = true
      · left
        refine ⟨h1, hfull, hf, ?_⟩
        simp only [WriteCache.add, h, dite_false, hfull, if_true,
          RamSort.write_finished X ram _ _ _ hf]
      · right; left
        have hf2 : ram.is_finished = false := by simpa using hf
        refine ⟨h1, hl ▸ h1, hfull, hf2, ?_⟩
        simp only [WriteCache.add, h, dite_false, hfull, if_true,
          RamSort.write_eq X ram _ _ _ hf2 (hl ▸ h1)]
    · right; right
      refine ⟨h1, by omega, ?_⟩
      simp only [WriteCache.add, h, dite_false, hfull, if_false]

theorem total_entries_set (ram : RamSort) (i : Nat) (h : i < ram.buckets.length) (b : bucket_t) :
    RamSort.total_entries { ram with buckets := ram.buckets.set i b } +
      (ram.buckets.get ⟨i, h⟩).num_entries = ram.total_entries + b.num_entries :=
  sum_map_set bucket_t.num_entries ram.buckets i h b

theorem pending_count_set (c : WriteCache) (i : Nat) (h : i < c.buckets.length)
    (buffer : write_buffer_t) :
    WriteCache.pending_count { c with buckets := c.buckets.set i buffer } +
      (c.buckets.get ⟨i, h⟩).count = c.pending_count + buffer.count :=
  sum_map_set write_buffer_t.count c.buckets i h buffer

theorem count_stored_set {T : Type} [DecidableEq T] (X : Extern T) (ram : RamSort) (i : Nat)
    (h : i < ram.buckets.length) (b : bucket_t) (a : T) :
    (RamSort.stored X { ram with buckets := ram.buckets.set i b }).count a +
      ((ram.buckets.get ⟨i, h⟩).entries X).count a =
      (ram.stored X).count a + (b.entries X).count a :=
  count_flatMap_set (bucket_t.entries X) ram.buckets i h b a

theorem count_staged_set {T : Type} [DecidableEq T] (X : Extern T) (c : WriteCache) (i : Nat)
    (h : i < c.buckets.length) (buffer : write_buffer_t) (a : T) :
    (WriteCache.staged X { c with buckets := c.buckets.set i buffer }).count a +
      ((c.buckets.get ⟨i, h⟩).pending X).count a =
      (c.staged X).count a + (buffer.pending X).count a :=
  count_flatMap_set (write_buffer_t.pending X) c.buckets i h buffer a

/-- The shape of the state after `WriteCache::add`, and the number of records it holds. -/
theorem WriteCache.add_shape {T : Type} (X : Extern T) (c : WriteCache) (ram : RamSort) (e : T)
    (hl : c.buckets.length = ram.buckets.length) :
    ram.frame (c.add X ram e).2.2 ∧
    (c.add X ram e).2.1.buckets.length = c.buckets.length ∧
    (c.add X ram e).2.1.key_shift = c.key_shift ∧
    ((c.add X ram e).1 = none →
      (c.add X ram e).2.2.total_entries + (c.add X ram e).2.1.pending_count =
        ram.total_entries + c.pending_count + 1) ∧
    ((c.add X ram e).1 ≠ none → (c.add X ram e).2 = (c, ram)) ∧
    (ram.is_finished = false → shr (X.key e) c.key_shift < c.buckets.length →
      (c.add X ram e).1 = none) := by
  rcases WriteCache.add_cases X c ram e hl with ⟨h, he⟩ | ⟨h, _, hf, he⟩ | ⟨h, h2, hfull, hf, he⟩ |
    ⟨h, hfull, he⟩
  · rw [he]
    refine ⟨RamSort.frame_refl _, rfl, rfl, by simp, by simp, ?_⟩
    intro _ h3
    omega
  · rw [he]
    refine ⟨RamSort.frame_refl _, rfl, rfl, by simp, by simp, ?_⟩
    intro h3
    rw [hf] at h3
    cases h3
  · rw [he]
    refine ⟨RamSort.frame_set _ _ (by simp), by simp, rfl, ?_, by simp, by simp⟩
    intro _
    have e1 := total_entries_set ram _ h2
      ((ram.buckets.get ⟨shr (X.key e) c.key_shift, h2⟩).write X
        (c.buckets.get ⟨shr (X.key e) c.key_shift, h⟩).data
        (c.buckets.get ⟨shr (X.key e) c.key_shift, h⟩).count)
    have e2 := pending_count_set c _ h
      ((c.buckets.get ⟨shr (X.key e) c.key_shift, h⟩).reset.push X e)
    rw [bucket_write_num_entries] at e1
    rw [push_count] at e2
    have e3 : (c.buckets.get ⟨shr (X.key e) c.key_shift, h⟩).reset.count = 0 := rfl
    simp only at e1 e2 ⊢
    omega
  · rw [he]
    refine ⟨RamSort.frame_refl _, by simp, rfl, ?_, by simp, by simp⟩
    intro _
    have e2 := pending_count_set c _ h ((c.buckets.get ⟨shr (X.key e) c.key_shift, h⟩).push X e)
    rw [push_count] at e2
    simp only at e2 ⊢
    omega

/-- The invariant after `WriteCache::add`, and the records the state holds. -/
theorem WriteCache.add_ok {T : Type} [DecidableEq T] {X : Extern T} (hX : X.Lawful)
    (c : WriteCache) (ram : RamSort) (e : T) (hc : c.ok X ram) (hr : ram.ok X) :
    (c.add X ram e).2.1.ok X (c.add X ram e).2.2 ∧
    (c.add X ram e).2.2.ok X ∧
    ((c.add X ram e).1 = none → ∀ a,
      ((c.add X ram e).2.2.stored X).count a + ((c.add X ram e).2.1.staged X).count a =
        (ram.stored X).count a + (c.staged X).count a + [e].count a) := by
  rcases WriteCache.add_cases X c ram e hc.length with ⟨h, he⟩ | ⟨h, _, hf, he⟩ |
    ⟨h, h2, hfull, hf, he⟩ | ⟨h, hfull, he⟩
  · rw [he]
    exact ⟨hc, hr, by simp⟩
  · rw [he]
    exact ⟨hc, hr, by simp⟩
  · rw [he]
    have hbuf := hc.buffers _ (List.get_mem c.buckets _ h)
    have hbk := hr.buckets _ (List.get_mem ram.buckets _ h2)
    have hcap : (c.buckets.get ⟨shr (X.key e) c.key_shift, h⟩).count * X.disk_size ≤
        (c.buckets.get ⟨shr (X.key e) c.key_shift, h⟩).data.length := by
      rw [hbuf.1]
      exact Nat.mul_le_mul_right _ hbuf.2
    have hent := bucket_write_entries X _ _ _ hbk hcap
    have hpend : ((c.buckets.get ⟨shr (X.key e) c.key_shift, h⟩).reset.push X e).pending X
        = [e] := by
      rw [push_pending hX (c.buckets.get ⟨shr (X.key e) c.key_shift, h⟩).reset e hbuf.1
        hX.capacity_pos]
      simp [write_buffer_t.pending, write_buffer_t.reset, decode]
    have hram : RamSort.ok X { ram with
        buckets := ram.buckets.set (shr (X.key e) c.key_shift)
          ((ram.buckets.get ⟨shr (X.key e) c.key_shift, h2⟩).write X
            (c.buckets.get ⟨shr (X.key e) c.key_shift, h⟩).data
            (c.buckets.get ⟨shr (X.key e) c.key_shift, h⟩).count) } := by
      refine RamSort.ok_set_bucket hr _ _ (bucket_write_ok X _ _ _ hbk hcap) ?_
      intro x hx
      rw [hent, List.mem_append] at hx
      rcases hx with hx | hx
      · rw [← hc.key_shift]
        have := hr.routed _ h2 x hx
        rw [← hc.key_shift] at this
        exact this
      · rw [← hc.key_shift]
        exact hc.routed _ h x hx
    refine ⟨?_, hram, ?_⟩
    · refine WriteCache.ok_frame (WriteCache.ok_set_buffer hc _ _ ?_ ?_) (RamSort.frame_set _ _ (by simp))
      · refine ⟨?_, ?_⟩
        · exact push_length hX (c.buckets.get ⟨shr (X.key e) c.key_shift, h⟩).reset e hbuf.1
            hX.capacity_pos
        · rw [push_count]
          exact hX.capacity_pos
      · intro x hx
        rw [hpend] at hx
        simp only [List.mem_singleton] at hx
        rw [hx]
    · intro _ a
      have e1 := count_stored_set X ram _ h2
        ((ram.buckets.get ⟨shr (X.key e) c.key_shift, h2⟩).write X
          (c.buckets.get ⟨shr (X.key e) c.key_shift, h⟩).data
          (c.buckets.get ⟨shr (X.key e) c.key_shift, h⟩).count) a
      have e2 := count_staged_set X c _ h
        ((c.buckets.get ⟨shr (X.key e) c.key_shift, h⟩).reset.push X e) a
      rw [hent, List.count_append] at e1
      rw [hpend] at e2
      simp only [write_buffer_t.pending] at e1 e2 ⊢
      omega
  · rw [he]
    have hbuf := hc.buffers _ (List.get_mem c.buckets _ h)
    have hpend := push_pending hX _ e hbuf.1 hfull
    refine ⟨?_, hr, ?_⟩
    · refine WriteCache.ok_set_buffer hc _ _ ⟨push_length hX _ e hbuf.1 hfull, ?_⟩ ?_
      · rw [push_count]
        exact hfull
      · intro x hx
        rw [hpend, List.mem_append] at hx
        rcases hx with hx | hx
        · exact hc.routed _ h x hx
        · simp only [List.mem_singleton] at hx
          rw [hx]
    · intro _ a
      have e2 := count_staged_set X c _ h
        ((c.buckets.get ⟨shr (X.key e) c.key_shift, h⟩).push X e) a
      rw [hpend, List.count_append] at e2
      simp only at e2 ⊢
      omega

/-! ## `WriteCache::flush` -/

theorem WriteCache.flush_step_cases {T : Type} (X : Extern T) (c : WriteCache) (ram : RamSort)
    (index : Nat) (hl : c.buckets.length = ram.buckets.length) :
    (WriteCache.flush_step X (none, c, ram) index = (none, c, ram) ∧
      ∀ h : index < c.buckets.length, (c.buckets.get ⟨index, h⟩).count = 0) ∨
    (∃ h : index < c.buckets.length, (c.buckets.get ⟨index, h⟩).count ≠ 0 ∧
      ram.is_finished = true ∧
      WriteCache.flush_step X (none, c, ram) index = (some Exn.read_only, c, ram)) ∨
    (∃ h : index < c.buckets.length, ∃ h2 : index < ram.buckets.length,
      (c.buckets.get ⟨index, h⟩).count ≠ 0 ∧ ram.is_finished = false ∧
      WriteCache.flush_step X (none, c, ram) index =
        (none,
          { c with buckets := c.buckets.set index (c.buckets.get ⟨index, h⟩).reset },
          { ram with
            buckets := ram.buckets.set index
              ((ram.buckets.get ⟨index, h2⟩).write X (c.buckets.get ⟨index, h⟩).data
                (c.buckets.get ⟨index, h⟩).count) })) := by
  by_cases h : index < c.buckets.length
  · by_cases h0 : (c.buckets.get ⟨index, h⟩).count = 0
    · left
      exact ⟨by simp only [WriteCache.flush_step, h, dite_true, h0, ne_eq, not_true, if_false],
        fun _ => h0⟩
    · right
      by_cases hf : ram.is_finished = true
      · left
        refine ⟨h, h0, hf, ?_⟩
        simp only [WriteCache.flush_step, h, dite_true, h0, ne_eq, not_false_eq_true, if_true,
          RamSort.write_finished X ram _ _ _ hf]
      · right
        have hf2 : ram.is_finished = false := by simpa using hf
        refine ⟨h, hl ▸ h, h0, hf2, ?_⟩
        simp only [WriteCache.flush_step, h, dite_true, h0, ne_eq, not_false_eq_true, if_true,
          RamSort.write_eq X ram _ _ _ hf2 (hl ▸ h)]
  · left
    exact ⟨by simp only [WriteCache.flush_step, h, dite_false], fun h2 => absurd h2 h⟩

theorem WriteCache.flush_step_error {T : Type} (X : Extern T) (err : Exn) (c : WriteCache)
    (ram : RamSort) (index : Nat) :
    WriteCache.flush_step X (some err, c, ram) index = (some err, c, ram) := rfl

/-- The first `n` iterations of the loop of `WriteCache::flush`. -/
theorem WriteCache.flush_eq {T : Type} (X : Extern T) (c : WriteCache) (ram : RamSort) :
    c.flush X ram = (List.range c.buckets.length).foldl (WriteCache.flush_step X) (none, c, ram) :=
  rfl

theorem WriteCache.flush_shape_upto {T : Type} (X : Extern T) (c : WriteCache) (ram : RamSort)
    (hl : c.buckets.length = ram.buckets.length) (n : Nat) :
    ram.frame ((List.range n).foldl (WriteCache.flush_step X) (none, c, ram)).2.2 ∧
    ((List.range n).foldl (WriteCache.flush_step X) (none, c, ram)).2.1.buckets.length =
      c.buckets.length ∧
    ((List.range n).foldl (WriteCache.flush_step X) (none, c, ram)).2.1.key_shift =
      c.key_shift ∧
    ((List.range n).foldl (WriteCache.flush_step X) (none, c, ram)).2.2.total_entries +
      ((List.range n).foldl (WriteCache.flush_step X) (none, c, ram)).2.1.pending_count =
      ram.total_entries + c.pending_count ∧
    (ram.is_finished = false →
      ((List.range n).foldl (WriteCache.flush_step X) (none, c, ram)).1 = none ∧
      ∀ j (h : j < ((List.range n).foldl (WriteCache.flush_step X)
          (none, c, ram)).2.1.buckets.length), j < n →
        (((List.range n).foldl (WriteCache.flush_step X) (none, c, ram)).2.1.buckets.get
          ⟨j, h⟩).count = 0) := by
  induction n with
  | zero =>
    rw [List.range_zero, List.foldl_nil]
    exact ⟨RamSort.frame_refl _, rfl, rfl, rfl, fun _ => ⟨rfl, fun j _ hj => by omega⟩⟩
  | succ n ih =>
    rw [List.range_succ, List.foldl_append, List.foldl_cons, List.foldl_nil]
    generalize (List.range n).foldl (WriteCache.flush_step X) (none, c, ram) = st at ih ⊢
    obtain ⟨err, c1, ram1⟩ := st
    obtain ⟨hfr, hlen, hks, hcnt, hfin⟩ := ih
    simp only at hfr hlen hks hcnt hfin
    cases err with
    | some e =>
      rw [WriteCache.flush_step_error]
      refine ⟨hfr, hlen, hks, hcnt, ?_⟩
      intro hf
      have := (hfin hf).1
      cases this
    | none =>
      have hl1 : c1.buckets.length = ram1.buckets.length := by rw [hlen, hfr.2, hl]
      have hf1 : ram1.is_finished = ram.is_finished := by
        have := congrArg RamSort.is_finished hfr.1
        exact this
      rcases WriteCache.flush_step_cases X c1 ram1 n hl1 with ⟨he, h0⟩ | ⟨h, _, hf, he⟩ |
        ⟨h, h2, _, hf, he⟩
      · rw [he]
        refine ⟨hfr, hlen, hks, hcnt, ?_⟩
        intro hf
        refine ⟨rfl, ?_⟩
        intro j h hj
        by_cases hjn : j = n
        · subst hjn
          exact h0 h
        · exact (hfin hf).2 j h (by omega)
      · rw [he]
        refine ⟨hfr, hlen, hks, hcnt, ?_⟩
        intro hf2
        rw [hf1, hf2] at hf
        cases hf
      · rw [he]
        have e1 := total_entries_set ram1 n h2
          ((ram1.buckets.get ⟨n, h2⟩).write X (c1.buckets.get ⟨n, h⟩).data
            (c1.buckets.get ⟨n, h⟩).count)
        have e2 := pending_count_set c1 n h (c1.buckets.get ⟨n, h⟩).reset
        rw [bucket_write_num_entries] at e1
        have e3 : (c1.buckets.get ⟨n, h⟩).reset.count = 0 := rfl
        refine ⟨hfr.trans (RamSort.frame_set _ _ (by simp)), by simpa using hlen, hks, ?_, ?_⟩
        · simp only at e1 e2 ⊢
          omega
        · intro hf2
          refine ⟨rfl, ?_⟩
          intro j hj hjn
          simp only [List.get_eq_getElem, List.getElem_set]
          split
          · rfl
          · have := (hfin hf2).2 j (by simpa using hj) (by omega)
            simpa using this

theorem WriteCache.flush_shape {T : Type} (X : Extern T) (c : WriteCache) (ram : RamSort)
    (hl : c.buckets.length = ram.buckets.length) :
    ram.frame (c.flush X ram).2.2 ∧
    (c.flush X ram).2.1.buckets.length = c.buckets.length ∧
    (c.flush X ram).2.1.key_shift = c.key_shift ∧
    (c.flush X ram).2.2.total_entries + (c.flush X ram).2.1.pending_count =
      ram.total_entries + c.pending_count ∧
    (ram.is_finished = false →
      (c.flush X ram).1 = none ∧ ∀ buffer ∈ (c.flush X ram).2.1.buckets, buffer.count = 0) := by
  obtain ⟨h1, h2, h3, h4, h5⟩ := WriteCache.flush_shape_upto X c ram hl c.buckets.length
  rw [← WriteCache.flush_eq] at h1 h2 h3 h4 h5
  refine ⟨h1, h2, h3, h4, ?_⟩
  intro hf
  refine ⟨(h5 hf).1, ?_⟩
  intro buffer hb
  obtain ⟨j, hj, rfl⟩ := List.getElem_of_mem hb
  have := (h5 hf).2 j hj (by omega)
  simpa using this

theorem WriteCache.flush_ok_upto {T : Type} [DecidableEq T] {X : Extern T}
    (c : WriteCache) (ram : RamSort) (hc : c.ok X ram) (hr : ram.ok X) (n : Nat) :
    ((List.range n).foldl (WriteCache.flush_step X) (none, c, ram)).2.1.ok X
      ((List.range n).foldl (WriteCache.flush_step X) (none, c, ram)).2.2 ∧
    ((List.range n).foldl (WriteCache.flush_step X) (none, c, ram)).2.2.ok X ∧
    ∀ a,
      (((List.range n).foldl (WriteCache.flush_step X) (none, c, ram)).2.2.stored X).count a +
        (((List.range n).foldl (WriteCache.flush_step X) (none, c, ram)).2.1.staged X).count a =
      (ram.stored X).count a + (c.staged X).count a := by
  induction n with
  | zero =>
    rw [List.range_zero, List.foldl_nil]
    exact ⟨hc, hr, fun _ => rfl⟩
  | succ n ih =>
    rw [List.range_succ, List.foldl_append, List.foldl_cons, List.foldl_nil]
    generalize (List.range n).foldl (WriteCache.flush_step X) (none, c, ram) = st at ih ⊢
    obtain ⟨err, c1, ram1⟩ := st
    obtain ⟨hc1, hr1, hcnt⟩ := ih
    simp only at hc1 hr1 hcnt
    cases err with
    | some e =>
      rw [WriteCache.flush_step_error]
      exact ⟨hc1, hr1, hcnt⟩
    | none =>
      rcases WriteCache.flush_step_cases X c1 ram1 n hc1.length with ⟨he, _⟩ | ⟨h, _, _, he⟩ |
        ⟨h, h2, _, _, he⟩
      · rw [he]
        exact ⟨hc1, hr1, hcnt⟩
      · rw [he]
        exact ⟨hc1, hr1, hcnt⟩
      · rw [he]
        have hbuf := hc1.buffers _ (List.get_mem c1.buckets _ h)
        have hbk := hr1.buckets _ (List.get_mem ram1.buckets _ h2)
        have hcap : (c1.buckets.get ⟨n, h⟩).count * X.disk_size ≤
            (c1.buckets.get ⟨n, h⟩).data.length := by
          rw [hbuf.1]
          exact Nat.mul_le_mul_right _ hbuf.2
        have hent := bucket_write_entries X _ _ _ hbk hcap
        have hpend : (c1.buckets.get ⟨n, h⟩).reset.pending X = [] := by
          simp [write_buffer_t.pending, write_buffer_t.reset, decode]
        have hram : RamSort.ok X { ram1 with
            buckets := ram1.buckets.set n
              ((ram1.buckets.get ⟨n, h2⟩).write X (c1.buckets.get ⟨n, h⟩).data
                (c1.buckets.get ⟨n, h⟩).count) } := by
          refine RamSort.ok_set_bucket hr1 _ _ (bucket_write_ok X _ _ _ hbk hcap) ?_
          intro x hx
          rw [hent, List.mem_append] at hx
          rcases hx with hx | hx
          · exact hr1.routed _ h2 x hx
          · rw [← hc1.key_shift]
            exact hc1.routed _ h x hx
        refine ⟨?_, hram, ?_⟩
        · refine WriteCache.ok_frame (WriteCache.ok_set_buffer hc1 _ _ ?_ ?_)
            (RamSort.frame_set _ _ (by simp))
          · exact ⟨hbuf.1, Nat.zero_le _⟩
          · intro x hx
            rw [hpend] at hx
            cases hx
        · intro a
          have e1 := count_stored_set X ram1 n h2
            ((ram1.buckets.get ⟨n, h2⟩).write X (c1.buckets.get ⟨n, h⟩).data
              (c1.buckets.get ⟨n, h⟩).count) a
          have e2 := count_staged_set X c1 n h (c1.buckets.get ⟨n, h⟩).reset a
          have e3 := hcnt a
          rw [hent, List.count_append] at e1
          rw [hpend] at e2
          simp only [write_buffer_t.pending, List.count_nil] at e1 e2 ⊢
          omega

theorem WriteCache.flush_ok {T : Type} [DecidableEq T] {X : Extern T}
    (c : WriteCache) (ram : RamSort) (hc : c.ok X ram) (hr : ram.ok X) :
    (c.flush X ram).2.1.ok X (c.flush X ram).2.2 ∧
    (c.flush X ram).2.2.ok X ∧
    ∀ a, ((c.flush X ram).2.2.stored X).count a + ((c.flush X ram).2.1.staged X).count a =
      (ram.stored X).count a + (c.staged X).count a :=
  WriteCache.flush_ok_upto c ram hc hr c.buckets.length

theorem staged_eq_nil {T : Type} (X : Extern T) (c : WriteCache)
    (h : ∀ buffer ∈ c.buckets, buffer.count = 0) : c.staged X = [] := by
  simp only [WriteCache.staged, List.flatMap_eq_nil_iff]
  intro buffer hb
  simp [write_buffer_t.pending, decode, h buffer hb]

theorem pending_count_eq_zero (c : WriteCache)
    (h : ∀ buffer ∈ c.buckets, buffer.count = 0) : c.pending_count = 0 := by
  simp only [WriteCache.pending_count]
  apply List.sum_eq_zero
  intro x hx
  simp only [List.mem_map] at hx
  obtain ⟨buffer, hb, rfl⟩ := hx
  exact h buffer hb

/-! ## Shifts -/

theorem shl1_eq (n : Int) : shl1 n = 2 ^ n.toNat := by
  simp [shl1, Nat.one_shiftLeft]

theorem shr_lt_shl1_iff (k : Nat) (key_size log_num_buckets : Int) (h0 : 0 ≤ log_num_buckets)
    (h1 : log_num_buckets ≤ key_size) :
    shr k (key_size - log_num_buckets) < shl1 log_num_buckets ↔ k < 2 ^ key_size.toNat := by
  have e1 : (key_size - log_num_buckets).toNat = key_size.toNat - log_num_buckets.toNat := by
    omega
  have e2 : log_num_buckets.toNat ≤ key_size.toNat := by omega
  rw [shl1_eq, shr, Nat.shiftRight_eq_div_pow, e1, Nat.div_lt_iff_lt_mul (Nat.two_pow_pos _),
    ← Nat.pow_add, Nat.add_sub_cancel' e2]

theorem shr_eq_iff (k i : Nat) (shift : Int) :
    shr k shift = i ↔ i <<< shift.toNat ≤ k ∧ k < (i + 1) <<< shift.toNat := by
  simp only [shr, Nat.shiftRight_eq_div_pow, Nat.shiftLeft_eq]
  have hp : 0 < 2 ^ shift.toNat := Nat.two_pow_pos _
  constructor
  · intro h
    subst h
    refine ⟨Nat.div_mul_le_self k _, ?_⟩
    exact (Nat.div_lt_iff_lt_mul hp).mp (Nat.lt_succ_self _)
  · rintro ⟨h1, h2⟩
    apply Nat.le_antisymm
    · exact Nat.lt_succ_iff.mp ((Nat.div_lt_iff_lt_mul hp).mpr h2)
    · exact (Nat.le_div_iff_mul_le hp).mpr h1

/-! ## A fresh engine -/

theorem new_buffer_ok {T : Type} (X : Extern T) : (write_buffer_t.new X).ok X :=
  ⟨by simp [write_buffer_t.new], Nat.zero_le _⟩

theorem WriteCache.new_ok {T : Type} (X : Extern T) (ram : RamSort) :
    (WriteCache.new X ram.bucket_key_shift ram.buckets.length).ok X ram := by
  refine ⟨rfl, by simp [WriteCache.new], ?_, ?_⟩
  · intro buffer hb
    simp only [WriteCache.new, List.mem_replicate] at hb
    rw [hb.2]
    exact new_buffer_ok X
  · intro i h e he
    simp [WriteCache.new, write_buffer_t.new, write_buffer_t.pending, decode] at he

theorem WriteCache.new_staged {T : Type} (X : Extern T) (key_shift : Int) (n : Nat) :
    (WriteCache.new X key_shift n).staged X = [] := by
  apply staged_eq_nil
  intro buffer hb
  simp only [WriteCache.new, List.mem_replicate] at hb
  rw [hb.2]
  rfl

theorem RamSort.new_eq {T : Type} (X : Extern T) (key_size log_num_buckets : Int) :
    RamSort.new X key_size log_num_buckets false = .ok
      { key_size := key_size
        log_num_buckets := log_num_buckets
        bucket_key_shift := key_size - log_num_buckets
        keep_files := false
        is_finished := false
        cache := WriteCache.new X (key_size - log_num_buckets) (shl1 log_num_buckets)
        buckets := List.replicate (shl1 log_num_buckets) bucket_t.empty } := by
  simp [RamSort.new, bucket_t.resize, bucket_t.empty]

theorem RamSort.new_facts {T : Type} (X : Extern T) (key_size log_num_buckets : Int)
    (ram : RamSort) (h : RamSort.new X key_size log_num_buckets false = .ok ram) :
    ram.Conf key_size log_num_buckets ∧ ram.is_finished = false ∧ ram.keep_files = false ∧
    (System.Inv X { ram := ram, fronts := [] }) ∧
    System.records X { ram := ram, fronts := [] } = [] ∧
    ram.total_entries = 0 ∧ ram.cache.pending_count = 0 := by
  rw [RamSort.new_eq] at h
  injection h with h
  subst h
  have hst : ∀ (r : RamSort), r.buckets = List.replicate (shl1 log_num_buckets) bucket_t.empty →
      r.stored X = [] := by
    intro r hr
    simp only [RamSort.stored, hr, List.flatMap_eq_nil_iff, List.mem_replicate]
    rintro b ⟨_, rfl⟩
    rfl
  refine ⟨⟨rfl, rfl, rfl, by simp⟩, rfl, rfl, ⟨⟨?_, ?_⟩, ?_, by simp⟩, ?_, ?_, ?_⟩
  · intro b hb
    simp only [List.mem_replicate] at hb
    rw [hb.2]
    simp [bucket_t.ok, bucket_t.empty, bucket_t.bytes]
  · intro i hi e he
    simp [bucket_t.entries, bucket_t.empty, decode] at he
  · have := WriteCache.new_ok X
      { key_size := key_size
        log_num_buckets := log_num_buckets
        bucket_key_shift := key_size - log_num_buckets
        keep_files := false
        is_finished := false
        cache := WriteCache.new X (key_size - log_num_buckets) (shl1 log_num_buckets)
        buckets := List.replicate (shl1 log_num_buckets) bucket_t.empty }
    simpa using this
  · simp only [System.records, WriteCache.new_staged, List.flatMap_nil, List.append_nil]
    exact hst _ rfl
  · simp [RamSort.total_entries, bucket_t.empty]
  · apply pending_count_eq_zero
    intro buffer hb
    simp only [WriteCache.new, List.mem_replicate] at hb
    rw [hb.2]
    rfl

/-! ## One call on an engine with its fronts -/

theorem RamSort.frame.conf {ram ram1 : RamSort} (h : ram.frame ram1) :
    ram1.key_size = ram.key_size ∧ ram1.log_num_buckets = ram.log_num_buckets ∧
    ram1.bucket_key_shift = ram.bucket_key_shift ∧ ram1.keep_files = ram.keep_files ∧
    ram1.is_finished = ram.is_finished ∧ ram1.cache = ram.cache ∧
    ram1.buckets.length = ram.buckets.length :=
  ⟨by rw [h.1], by rw [h.1], by rw [h.1], by rw [h.1], by rw [h.1], by rw [h.1], h.2⟩

theorem RamSort.ok_of_same_buckets {T : Type} {X : Extern T} {ram ram1 : RamSort} (h : ram.ok X)
    (hb : ram1.buckets = ram.buckets) (hs : ram1.bucket_key_shift = ram.bucket_key_shift) :
    ram1.ok X := by
  refine ⟨by rw [hb]; exact h.buckets, ?_⟩
  intro i hi e he
  rw [hs]
  have hi2 : i < ram.buckets.length := by rw [← hb]; exact hi
  refine h.routed i hi2 e ?_
  have : ram1.buckets.get ⟨i, hi⟩ = ram.buckets.get ⟨i, hi2⟩ := by
    simp only [List.get_eq_getElem]
    exact List.getElem_of_eq hb hi
  rw [← this]
  exact he

theorem WriteCache.ok_of_same_shape {T : Type} {X : Extern T} {ram ram1 : RamSort} {c : WriteCache}
    (hc : c.ok X ram) (hs : ram1.bucket_key_shift = ram.bucket_key_shift)
    (hl : ram1.buckets.length = ram.buckets.length) : c.ok X ram1 :=
  ⟨hc.key_shift.trans hs.symm, hc.length.trans hl.symm, hc.buffers, hc.routed⟩

theorem RamSort.Conf.congr {ks l : Int} {ram ram1 : RamSort} (h : ram.Conf ks l)
    (h1 : ram1.key_size = ram.key_size) (h2 : ram1.log_num_buckets = ram.log_num_buckets)
    (h3 : ram1.bucket_key_shift = ram.bucket_key_shift)
    (h4 : ram1.buckets.length = ram.buckets.length) : ram1.Conf ks l :=
  ⟨h1.trans h.key_size, h2.trans h.log_num_buckets, h3.trans h.bucket_key_shift,
   h4.trans h.length⟩

theorem System.step_add {T : Type} [DecidableEq T] {X : Extern T} (hX : X.Lawful) (s : System)
    (e : T) (hs : s.Inv X) :
    (s.step X (Op.add e)).2.Inv X ∧
    ((s.step X (Op.add e)).1 = none → ∀ a,
      ((s.step X (Op.add e)).2.records X).count a = (s.records X).count a + [e].count a) ∧
    (∀ ks l, s.ram.Conf ks l → (s.step X (Op.add e)).2.ram.Conf ks l) ∧
    (s.step X (Op.add e)).2.ram.is_finished = s.ram.is_finished ∧
    (s.step X (Op.add e)).2.ram.keep_files = s.ram.keep_files ∧
    (s.step X (Op.add e)).2.fronts = s.fronts ∧
    (s.ram.is_finished = false → shr (X.key e) s.ram.bucket_key_shift < s.ram.buckets.length →
      (s.step X (Op.add e)).1 = none) := by
  obtain ⟨h1, h2, h3⟩ := WriteCache.add_ok hX s.ram.cache s.ram e hs.cache hs.ram
  obtain ⟨g1, g2, g3, _, _, g6⟩ := WriteCache.add_shape X s.ram.cache s.ram e hs.cache.length
  obtain ⟨f1, f2, f3, f4, f5, f6, f7⟩ := g1.conf
  simp only [System.step, RamSort.add]
  generalize s.ram.cache.add X s.ram e = r at h1 h2 h3 g2 g3 g6 f1 f2 f3 f4 f5 f6 f7
  obtain ⟨err, c1, ram1⟩ := r
  simp only at h1 h2 h3 g2 g3 g6 f1 f2 f3 f4 f5 f6 f7 ⊢
  refine ⟨⟨RamSort.ok_of_same_buckets h2 rfl rfl, WriteCache.ok_of_same_shape h1 rfl rfl, ?_⟩, ?_, ?_, f5, f4,
    (by first | rfl | trivial), ?_⟩
  · intro c hc
    exact WriteCache.ok_of_same_shape (hs.fronts c hc) f3 f7
  · intro he a
    have := h3 he a
    simp only [System.records, RamSort.stored, List.count_append] at this ⊢
    omega
  · intro ks l hconf
    exact hconf.congr f1 f2 f3 f7
  · intro hf hidx
    rw [← hs.cache.key_shift, ← hs.cache.length] at hidx
    exact g6 hf hidx

theorem System.step_finish {T : Type} [DecidableEq T] {X : Extern T} (s : System)
    (hs : s.Inv X) :
    (s.step X Op.finish).2.Inv X ∧
    (∀ a, ((s.step X Op.finish).2.records X).count a = (s.records X).count a) ∧
    (∀ ks l, s.ram.Conf ks l → (s.step X Op.finish).2.ram.Conf ks l) ∧
    (s.step X Op.finish).2.ram.keep_files = s.ram.keep_files ∧
    (s.step X Op.finish).2.fronts = s.fronts ∧
    (s.ram.is_finished = false →
      (s.step X Op.finish).1 = none ∧ (s.step X Op.finish).2.ram.is_finished = true ∧
      (s.step X Op.finish).2.ram.cache.staged X = []) := by
  obtain ⟨h1, h2, h3⟩ := WriteCache.flush_ok s.ram.cache s.ram hs.cache hs.ram
  obtain ⟨g1, _, _, _, g5⟩ := WriteCache.flush_shape X s.ram.cache s.ram hs.cache.length
  obtain ⟨f1, f2, f3, f4, f5, f6, f7⟩ := g1.conf
  simp only [System.step, RamSort.finish]
  generalize s.ram.cache.flush X s.ram = r at h1 h2 h3 g5 f1 f2 f3 f4 f5 f6 f7
  obtain ⟨err, c1, ram1⟩ := r
  simp only at h1 h2 h3 g5 f1 f2 f3 f4 f5 f6 f7 ⊢
  cases err with
  | some e =>
    simp only
    refine ⟨⟨RamSort.ok_of_same_buckets h2 rfl rfl, WriteCache.ok_of_same_shape h1 rfl rfl, ?_⟩, ?_, ?_, f4,
      (by first | rfl | trivial), ?_⟩
    · intro c hc
      exact WriteCache.ok_of_same_shape (hs.fronts c hc) f3 f7
    · intro a
      have := h3 a
      simp only [System.records, RamSort.stored, List.count_append] at this ⊢
      omega
    · intro ks l hconf
      exact hconf.congr f1 f2 f3 f7
    · intro hf
      have := (g5 hf).1
      cases this
  | none =>
    simp only
    refine ⟨⟨RamSort.ok_of_same_buckets h2 rfl rfl, WriteCache.ok_of_same_shape h1 rfl rfl, ?_⟩, ?_, ?_, f4,
      (by first | rfl | trivial), ?_⟩
    · intro c hc
      exact WriteCache.ok_of_same_shape (hs.fronts c hc) f3 f7
    · intro a
      have := h3 a
      simp only [System.records, RamSort.stored, List.count_append] at this ⊢
      omega
    · intro ks l hconf
      exact hconf.congr f1 f2 f3 f7
    · intro hf
      exact ⟨by first | rfl | trivial, by first | rfl | trivial, staged_eq_nil X c1 (g5 hf).2⟩

theorem count_fronts_set {T : Type} [DecidableEq T] (X : Extern T) (fronts : List WriteCache)
    (j : Nat) (h : j < fronts.length) (c : WriteCache) (a : T) :
    ((fronts.set j c).flatMap (WriteCache.staged X)).count a +
      ((fronts.get ⟨j, h⟩).staged X).count a =
      (fronts.flatMap (WriteCache.staged X)).count a + (c.staged X).count a :=
  count_flatMap_set (WriteCache.staged X) fronts j h c a

theorem System.step_cache_add {T : Type} [DecidableEq T] {X : Extern T} (hX : X.Lawful)
    (s : System) (j : Nat) (e : T) (hs : s.Inv X) :
    (s.step X (Op.cache_add j e)).2.Inv X ∧
    ((s.step X (Op.cache_add j e)).1 = none → ∀ a,
      ((s.step X (Op.cache_add j e)).2.records X).count a =
        (s.records X).count a + ((Op.cache_add j e).records X s).count a) ∧
    (∀ ks l, s.ram.Conf ks l → (s.step X (Op.cache_add j e)).2.ram.Conf ks l) ∧
    (s.step X (Op.cache_add j e)).2.ram.is_finished = s.ram.is_finished ∧
    (s.step X (Op.cache_add j e)).2.ram.keep_files = s.ram.keep_files ∧
    (s.step X (Op.cache_add j e)).2.fronts.length = s.fronts.length ∧
    (s.ram.is_finished = false → shr (X.key e) s.ram.bucket_key_shift < s.ram.buckets.length →
      (s.step X (Op.cache_add j e)).1 = none) := by
  by_cases h : j < s.fronts.length
  · have hc := hs.fronts _ (List.get_mem s.fronts j h)
    obtain ⟨h1, h2, h3⟩ := WriteCache.add_ok hX (s.fronts.get ⟨j, h⟩) s.ram e hc hs.ram
    obtain ⟨g1, g2, g3, _, _, g6⟩ := WriteCache.add_shape X (s.fronts.get ⟨j, h⟩) s.ram e hc.length
    obtain ⟨f1, f2, f3, f4, f5, f6, f7⟩ := g1.conf
    simp only [System.step, h, dite_true, Op.records, if_true]
    generalize (s.fronts.get ⟨j, h⟩).add X s.ram e = r at h1 h2 h3 g2 g3 g6 f1 f2 f3 f4 f5 f6 f7
    obtain ⟨err, c1, ram1⟩ := r
    simp only at h1 h2 h3 g2 g3 g6 f1 f2 f3 f4 f5 f6 f7 ⊢
    refine ⟨⟨h2, ?_, ?_⟩, ?_, ?_, f5, f4, by simp, ?_⟩
    · rw [f6]
      exact WriteCache.ok_of_same_shape hs.cache f3 f7
    · exact forall_mem_set j (fun c hc2 => WriteCache.ok_of_same_shape (hs.fronts c hc2) f3 f7) h1
    · intro he a
      have e1 := h3 he a
      have e2 := count_fronts_set X s.fronts j h c1 a
      simp only [System.records, List.count_append, f6] at e1 e2 ⊢
      omega
    · intro ks l hconf
      exact hconf.congr f1 f2 f3 f7
    · intro hf hidx
      rw [← hc.key_shift, ← hc.length] at hidx
      exact g6 hf hidx
  · simp only [System.step, h, dite_false, Op.records, if_false]
    exact ⟨hs, by simp, fun _ _ hconf => hconf, (by first | rfl | trivial), (by first | rfl | trivial), (by first | rfl | trivial),
      fun _ _ => (by first | rfl | trivial)⟩

theorem System.step_cache_flush {T : Type} [DecidableEq T] {X : Extern T}
    (s : System) (j : Nat) (hs : s.Inv X) :
    (s.step X (Op.cache_flush j)).2.Inv X ∧
    (∀ a, ((s.step X (Op.cache_flush j)).2.records X).count a = (s.records X).count a) ∧
    (∀ ks l, s.ram.Conf ks l → (s.step X (Op.cache_flush j)).2.ram.Conf ks l) ∧
    (s.step X (Op.cache_flush j)).2.ram.is_finished = s.ram.is_finished ∧
    (s.step X (Op.cache_flush j)).2.ram.keep_files = s.ram.keep_files ∧
    (s.step X (Op.cache_flush j)).2.fronts.length = s.fronts.length ∧
    (s.ram.is_finished = false → (s.step X (Op.cache_flush j)).1 = none) := by
  by_cases h : j < s.fronts.length
  · have hc := hs.fronts _ (List.get_mem s.fronts j h)
    obtain ⟨h1, h2, h3⟩ := WriteCache.flush_ok (s.fronts.get ⟨j, h⟩) s.ram hc hs.ram
    obtain ⟨g1, _, _, _, g5⟩ := WriteCache.flush_shape X (s.fronts.get ⟨j, h⟩) s.ram hc.length
    obtain ⟨f1, f2, f3, f4, f5, f6, f7⟩ := g1.conf
    simp only [System.step, h, dite_true]
    generalize (s.fronts.get ⟨j, h⟩).flush X s.ram = r at h1 h2 h3 g5 f1 f2 f3 f4 f5 f6 f7
    obtain ⟨err, c1, ram1⟩ := r
    simp only at h1 h2 h3 g5 f1 f2 f3 f4 f5 f6 f7 ⊢
    refine ⟨⟨h2, ?_, ?_⟩, ?_, ?_, f5, f4, by simp, ?_⟩
    · rw [f6]
      exact WriteCache.ok_of_same_shape hs.cache f3 f7
    · exact forall_mem_set j (fun c hc2 => WriteCache.ok_of_same_shape (hs.fronts c hc2) f3 f7) h1
    · intro a
      have e1 := h3 a
      have e2 := count_fronts_set X s.fronts j h c1 a
      simp only [System.records, List.count_append, f6] at e1 e2 ⊢
      omega
    · intro ks l hconf
      exact hconf.congr f1 f2 f3 f7
    · intro hf
      exact (g5 hf).1
  · simp only [System.step, h, dite_false]
    exact ⟨hs, by simp, fun _ _ hconf => hconf, (by first | rfl | trivial), (by first | rfl | trivial), (by first | rfl | trivial),
      fun _ => (by first | rfl | trivial)⟩

theorem System.step_add_cache {T : Type} [DecidableEq T] {X : Extern T}
    (s : System) (hs : s.Inv X) :
    (s.step X Op.add_cache).2.Inv X ∧
    (∀ a, ((s.step X Op.add_cache).2.records X).count a = (s.records X).count a) ∧
    (s.step X Op.add_cache).2.ram = s.ram ∧
    (s.step X Op.add_cache).2.fronts.length = s.fronts.length + 1 ∧
    (s.step X Op.add_cache).1 = none := by
  simp only [System.step, RamSort.add_cache]
  refine ⟨⟨hs.ram, hs.cache, ?_⟩, ?_, by first | rfl | trivial, by simp, by first | rfl | trivial⟩
  · intro c hc
    simp only [List.mem_append, List.mem_singleton] at hc
    rcases hc with hc | hc
    · exact hs.fronts c hc
    · rw [hc]
      exact WriteCache.new_ok X s.ram
  · intro a
    simp [System.records, WriteCache.new_staged]

theorem System.step_write {T : Type} [DecidableEq T] {X : Extern T}
    (s : System) (index : Nat) (data : List Byte) (count : Nat) (hs : s.Inv X)
    (hop : (Op.write index data count : Op T).routed X s.ram.bucket_key_shift) :
    (s.step X (Op.write index data count)).2.Inv X ∧
    ((s.step X (Op.write index data count)).1 = none → ∀ a,
      ((s.step X (Op.write index data count)).2.records X).count a =
        (s.records X).count a + (decode X data count).count a) ∧
    (∀ ks l, s.ram.Conf ks l → (s.step X (Op.write index data count)).2.ram.Conf ks l) ∧
    (s.step X (Op.write index data count)).2.ram.is_finished = s.ram.is_finished ∧
    (s.step X (Op.write index data count)).2.ram.keep_files = s.ram.keep_files ∧
    (s.step X (Op.write index data count)).2.fronts = s.fronts := by
  obtain ⟨hd, hrt⟩ := hop
  by_cases hf : s.ram.is_finished = true
  · simp only [System.step, RamSort.write_finished X s.ram _ _ _ hf]
    exact ⟨hs, by simp, fun _ _ hconf => hconf, (by first | rfl | trivial), (by first | rfl | trivial), (by first | rfl | trivial)⟩
  · have hf2 : s.ram.is_finished = false := by simpa using hf
    by_cases hi : s.ram.buckets.length ≤ index
    · simp only [System.step, RamSort.write_range X s.ram _ _ _ hf2 hi]
      exact ⟨hs, by simp, fun _ _ hconf => hconf, (by first | rfl | trivial), (by first | rfl | trivial), (by first | rfl | trivial)⟩
    · have hi2 : index < s.ram.buckets.length := by omega
      have hbk := hs.ram.buckets _ (List.get_mem s.ram.buckets _ hi2)
      have hent := bucket_write_entries X _ data count hbk (Nat.le_of_eq hd.symm)
      simp only [System.step, RamSort.write_eq X s.ram _ _ _ hf2 hi2]
      have hram : RamSort.ok X { s.ram with
          buckets := s.ram.buckets.set index
            ((s.ram.buckets.get ⟨index, hi2⟩).write X data count) } := by
        refine RamSort.ok_set_bucket hs.ram _ _ (bucket_write_ok X _ _ _ hbk (Nat.le_of_eq hd.symm)) ?_
        intro x hx
        rw [hent, List.mem_append] at hx
        rcases hx with hx | hx
        · exact hs.ram.routed _ hi2 x hx
        · exact hrt x hx
      refine ⟨⟨hram, WriteCache.ok_of_same_shape hs.cache rfl (by simp), ?_⟩, ?_, ?_, (by first | rfl | trivial), (by first | rfl | trivial), (by first | rfl | trivial)⟩
      · intro c hc
        exact WriteCache.ok_of_same_shape (hs.fronts c hc) rfl (by simp)
      · intro _ a
        have e1 := count_stored_set X s.ram index hi2
          ((s.ram.buckets.get ⟨index, hi2⟩).write X data count) a
        rw [hent, List.count_append] at e1
        simp only [System.records, List.count_append] at e1 ⊢
        omega
      · intro ks l hconf
        exact hconf.congr rfl rfl rfl (by simp)

/-! ## Sequences of calls -/

theorem System.step_inv {T : Type} [DecidableEq T] {X : Extern T} (hX : X.Lawful) (s : System)
    (op : Op T) (hs : s.Inv X) (hop : op.routed X s.ram.bucket_key_shift) :
    (s.step X op).2.Inv X ∧ (∀ ks l, s.ram.Conf ks l → (s.step X op).2.ram.Conf ks l) := by
  cases op with
  | add e =>
    obtain ⟨h1, _, h3, _⟩ := System.step_add hX s e hs
    exact ⟨h1, h3⟩
  | write index data count =>
    obtain ⟨h1, _, h3, _⟩ := System.step_write s index data count hs hop
    exact ⟨h1, h3⟩
  | add_cache =>
    obtain ⟨h1, _, h3, _⟩ := System.step_add_cache (X := X) s hs
    exact ⟨h1, fun ks l hc => by rw [h3]; exact hc⟩
  | cache_add j e =>
    obtain ⟨h1, _, h3, _⟩ := System.step_cache_add hX s j e hs
    exact ⟨h1, h3⟩
  | cache_flush j =>
    obtain ⟨h1, _, h3, _⟩ := System.step_cache_flush (X := X) s j hs
    exact ⟨h1, h3⟩
  | finish =>
    obtain ⟨h1, _, h3, _⟩ := System.step_finish (X := X) s hs
    exact ⟨h1, h3⟩

theorem Reachable.inv {T : Type} [DecidableEq T] {X : Extern T} (hX : X.Lawful)
    (key_size log_num_buckets : Int) (s : System)
    (h : Reachable X (Op.routed X (key_size - log_num_buckets)) key_size log_num_buckets s) :
    s.Inv X ∧ s.ram.Conf key_size log_num_buckets := by
  induction h with
  | init ram h =>
    obtain ⟨h1, _, _, h4, _⟩ := RamSort.new_facts X key_size log_num_buckets ram h
    exact ⟨h4, h1⟩
  | step s op _ hop ih =>
    obtain ⟨h1, h2⟩ := ih
    have hop2 : op.routed X s.ram.bucket_key_shift := by
      rw [h2.bucket_key_shift]
      exact hop
    obtain ⟨h3, h4⟩ := System.step_inv hX s op h1 hop2
    exact ⟨h3, h4 _ _ h2⟩

theorem System.exec_producers {T : Type} [DecidableEq T] {X : Extern T} (hX : X.Lawful)
    (ks l : Int) (h0 : 0 ≤ l) (h1 : l ≤ ks) (ops : List (Op T)) (s : System)
    (hs : s.Inv X) (hconf : s.ram.Conf ks l) (hf : s.ram.is_finished = false)
    (hp : ∀ op ∈ ops, op.producer) (hwf : Op.well_formed s.fronts.length ops)
    (hk : ∀ e ∈ Op.added ops, X.key e < 2 ^ ks.toNat) :
    (s.exec X ops).1 = none ∧ (s.exec X ops).2.Inv X ∧ (s.exec X ops).2.ram.Conf ks l ∧
    (s.exec X ops).2.ram.is_finished = false ∧
    (s.exec X ops).2.ram.keep_files = s.ram.keep_files ∧
    ∀ a, ((s.exec X ops).2.records X).count a = (s.records X).count a + (Op.added ops).count a := by
  induction ops generalizing s with
  | nil => exact ⟨rfl, hs, hconf, hf, rfl, fun a => by simp [System.exec, Op.added]⟩
  | cons op ops ih =>
    have hidx : ∀ e, X.key e < 2 ^ ks.toNat →
        shr (X.key e) s.ram.bucket_key_shift < s.ram.buckets.length := by
      intro e he
      rw [hconf.bucket_key_shift, hconf.length]
      exact (shr_lt_shl1_iff _ ks l h0 h1).mpr he
    have hp2 : ∀ op ∈ ops, op.producer := fun o ho => hp o (by simp [ho])
    cases op with
    | add e =>
      obtain ⟨a1, a2, a3, a4, a5, a6, a7⟩ := System.step_add hX s e hs
      have hok := a7 hf (hidx e (hk e (by simp [Op.added])))
      have hwf2 : Op.well_formed (s.step X (Op.add e)).2.fronts.length ops := by
        rw [a6]; simpa [Op.well_formed] using hwf
      obtain ⟨b1, b2, b3, b4, b5, b6⟩ := ih (s.step X (Op.add e)).2 a1 (a3 _ _ hconf)
        (a4.trans hf) hp2 hwf2 (fun x hx => hk x (by simp [Op.added, hx]))
      have hex : s.exec X (Op.add e :: ops) = (s.step X (Op.add e)).2.exec X ops := by
        simp only [System.exec]
        generalize s.step X (Op.add e) = r at hok
        obtain ⟨err, s1⟩ := r
        simp only at hok
        subst hok
        rfl
      rw [hex]
      refine ⟨b1, b2, b3, b4, b5.trans a5, ?_⟩
      intro a
      have := a2 hok a
      have := b6 a
      simp only [Op.added, List.count_cons, List.count_nil] at *
      omega
    | write index data count => exact (hp (Op.write index data count) (by simp)).elim
    | finish => exact (hp Op.finish (by simp)).elim
    | add_cache =>
      obtain ⟨a1, a2, a3, a4, a5⟩ := System.step_add_cache (X := X) s hs
      have hwf2 : Op.well_formed (s.step X (Op.add_cache : Op T)).2.fronts.length ops := by
        rw [a4]; simpa [Op.well_formed] using hwf
      obtain ⟨b1, b2, b3, b4, b5, b6⟩ := ih (s.step X Op.add_cache).2 a1 (by rw [a3]; exact hconf)
        (by rw [a3]; exact hf) hp2 hwf2 (fun x hx => hk x (by simpa [Op.added] using hx))
      have hex : s.exec X (Op.add_cache :: ops) = (s.step X Op.add_cache).2.exec X ops := by
        simp only [System.exec]
        generalize s.step X (Op.add_cache : Op T) = r at a5
        obtain ⟨err, s1⟩ := r
        simp only at a5
        subst a5
        rfl
      rw [hex]
      refine ⟨b1, b2, b3, b4, by rw [b5, a3], ?_⟩
      intro a
      have := a2 a
      have := b6 a
      simp only [Op.added] at *
      omega
    | cache_add j e =>
      obtain ⟨a1, a2, a3, a4, a5, a6, a7⟩ := System.step_cache_add hX s j e hs
      have hok := a7 hf (hidx e (hk e (by simp [Op.added])))
      have hj : j < s.fronts.length := by
        simp only [Op.well_formed] at hwf
        exact hwf.1
      have hwf2 : Op.well_formed (s.step X (Op.cache_add j e)).2.fronts.length ops := by
        rw [a6]
        simp only [Op.well_formed] at hwf
        exact hwf.2
      obtain ⟨b1, b2, b3, b4, b5, b6⟩ := ih (s.step X (Op.cache_add j e)).2 a1 (a3 _ _ hconf)
        (a4.trans hf) hp2 hwf2 (fun x hx => hk x (by simp [Op.added, hx]))
      have hex : s.exec X (Op.cache_add j e :: ops) =
          (s.step X (Op.cache_add j e)).2.exec X ops := by
        simp only [System.exec]
        generalize s.step X (Op.cache_add j e) = r at hok
        obtain ⟨err, s1⟩ := r
        simp only at hok
        subst hok
        rfl
      rw [hex]
      refine ⟨b1, b2, b3, b4, b5.trans a5, ?_⟩
      intro a
      have := a2 hok a
      have := b6 a
      simp only [Op.added, Op.records, hj, if_true, List.count_cons, List.count_nil] at *
      omega
    | cache_flush j =>
      obtain ⟨a1, a2, a3, a4, a5, a6, a7⟩ := System.step_cache_flush (X := X) s j hs
      have hok := a7 hf
      have hwf2 : Op.well_formed (s.step X (Op.cache_flush j : Op T)).2.fronts.length ops := by
        rw [a6]
        simp only [Op.well_formed] at hwf
        exact hwf.2
      obtain ⟨b1, b2, b3, b4, b5, b6⟩ := ih (s.step X (Op.cache_flush j)).2 a1 (a3 _ _ hconf)
        (a4.trans hf) hp2 hwf2 (fun x hx => hk x (by simpa [Op.added] using hx))
      have hex : s.exec X (Op.cache_flush j :: ops) =
          (s.step X (Op.cache_flush j)).2.exec X ops := by
        simp only [System.exec]
        generalize s.step X (Op.cache_flush j : Op T) = r at hok
        obtain ⟨err, s1⟩ := r
        simp only at hok
        subst hok
        rfl
      rw [hex]
      refine ⟨b1, b2, b3, b4, b5.trans a5, ?_⟩
      intro a
      have := a2 a
      have := b6 a
      simp only [Op.added] at *
      omega

/-! ## The whole pipeline -/

theorem stored_length {T : Type} (X : Extern T) (ram : RamSort) :
    (ram.stored X).length = ram.total_entries := by
  simp only [RamSort.stored, RamSort.total_entries]
  induction ram.buckets with
  | nil => rfl
  | cons b bs ih =>
    simp only [List.flatMap_cons, List.length_append, List.map_cons, List.sum_cons, ih,
      bucket_t.entries, decode_length]

theorem add_all_eq_exec {T : Type} (X : Extern T) (records : List T) (ram : RamSort) :
    System.exec X { ram := ram, fronts := [] } (records.map Op.add) =
      ((ram.add_all X records).1, { ram := (ram.add_all X records).2, fronts := [] }) := by
  induction records generalizing ram with
  | nil => rfl
  | cons e es ih =>
    simp only [List.map_cons, System.exec, System.step, RamSort.add_all]
    generalize ram.add X e = r
    obtain ⟨err, ram1⟩ := r
    cases err with
    | some x => rfl
    | none => exact ih ram1

theorem sort_all_eq_sort_ops {T : Type} (X : Extern T) (key_size log_num_buckets : Int)
    (records : List T) :
    sort_all X key_size log_num_buckets records =
      sort_ops X key_size log_num_buckets (records.map Op.add) := by
  simp only [sort_all, sort_ops]
  cases RamSort.new X key_size log_num_buckets false with
  | error e => rfl
  | ok ram0 =>
    simp only [add_all_eq_exec]
    generalize ram0.add_all X records = r
    obtain ⟨err, ram1⟩ := r
    cases err <;> rfl

theorem added_map_add {T : Type} (records : List T) : Op.added (records.map Op.add) = records := by
  induction records with
  | nil => rfl
  | cons e es ih => simp [Op.added, ih]

theorem producer_map_add {T : Type} (records : List T) :
    ∀ op ∈ records.map Op.add, op.producer := by
  intro op hop
  simp only [List.mem_map] at hop
  obtain ⟨e, _, rfl⟩ := hop
  trivial

theorem well_formed_map_add {T : Type} (records : List T) (n : Nat) :
    Op.well_formed n (records.map Op.add) := by
  induction records with
  | nil => trivial
  | cons e es ih => simpa [Op.well_formed] using ih

theorem exec_map_add_fronts {T : Type} (X : Extern T) (records : List T) (ram : RamSort) :
    (System.exec X { ram := ram, fronts := [] } (records.map Op.add)).2.fronts = [] := by
  rw [add_all_eq_exec]

theorem sort_ops_spec {T : Type} {X : Extern T} (hX : X.Lawful) (ks l : Int) (h0 : 0 ≤ l)
    (h2 : 2 * l ≤ ks) (ops : List (Op T)) (hp : ∀ op ∈ ops, op.producer)
    (hwf : Op.well_formed 0 ops) (hk : ∀ e ∈ Op.added ops, X.key e < 2 ^ ks.toNat)
    (hfl : ∀ s, built X ks l ops = some s → s.flushed) :
    ∃ runs, sort_ops X ks l ops = some runs ∧ (concat_runs runs).Perm (Op.added ops) ∧
      (concat_runs runs).Pairwise (fun x y => X.key x ≤ X.key y) ∧
      Chain runs 0 (Op.added ops).length := by
  classical
  obtain ⟨ram0, hnew⟩ : ∃ ram0, RamSort.new X ks l false = .ok ram0 := ⟨_, RamSort.new_eq X ks l⟩
  obtain ⟨c1, c2, _, c4, c5, _, _⟩ := RamSort.new_facts X ks l ram0 hnew
  obtain ⟨e1, e2, e3, e4, _, e6⟩ := System.exec_producers hX ks l h0 (by omega) ops
    { ram := ram0, fronts := [] } c4 c1 c2 hp hwf hk
  have hflushed : (System.exec X { ram := ram0, fronts := [] } ops).2.flushed :=
    hfl _ (by simp only [built, hnew])
  obtain ⟨f1, f2, f3, _, f5, f6⟩ := System.step_finish (X := X) _ e2
  obtain ⟨g1, g2, g3⟩ := f6 e4
  simp only [sort_ops, hnew]
  generalize System.exec X { ram := ram0, fronts := [] } ops = r
    at e1 e2 e3 e4 e6 hflushed f1 f2 f3 f5 g1 g2 g3 ⊢
  obtain ⟨err, s⟩ := r
  simp only at e1 e2 e3 e4 e6 hflushed f1 f2 f3 f5 g1 g2 g3
  subst e1
  simp only [System.step] at f1 f2 f3 f5 g1 g2 g3
  simp only
  generalize s.ram.finish X = r2 at f1 f2 f3 f5 g1 g2 g3 ⊢
  obtain ⟨err2, ram2⟩ := r2
  simp only at f1 f2 f3 f5 g1 g2 g3
  subst g1
  have hsh : 0 ≤ ram2.bucket_key_shift - ram2.log_num_buckets := by
    rw [(f3 ks l e3).bucket_key_shift, (f3 ks l e3).log_num_buckets]
    omega
  simp only [read_eq X ram2 hsh]
  have hperm : (ram2.stored X).Perm (Op.added ops) := by
    rw [List.perm_iff_count]
    intro a
    have h5 := f2 a
    have h6 := e6 a
    rw [c5] at h6
    have h7 : s.fronts.flatMap (WriteCache.staged X) = [] := by
      simp only [List.flatMap_eq_nil_iff]
      intro c hc
      exact staged_eq_nil X c (hflushed c hc)
    simp only [System.records, g3, h7, c5, List.append_nil, List.count_nil] at h5 h6
    omega
  have hperm2 := (read_out_concat hX (ram2.bucket_key_shift - ram2.log_num_buckets)
    ram2.buckets 0).trans hperm
  refine ⟨_, rfl, hperm2, ?_, ?_⟩
  · exact read_out_sorted hX _ ram2.bucket_key_shift ram2.buckets 0 0
      (fun j h e he => by rw [f1.ram.routed j h e he]; omega)
  · have := read_out_chain hX (ram2.bucket_key_shift - ram2.log_num_buckets) ram2.buckets 0
    have h8 : (ram2.buckets.map bucket_t.num_entries).sum = (Op.added ops).length := by
      rw [← hperm.length_eq, stored_length]
      rfl
    rw [h8] at this
    simpa using this

theorem sort_all_spec {T : Type} {X : Extern T} (hX : X.Lawful) (ks l : Int) (h0 : 0 ≤ l)
    (h2 : 2 * l ≤ ks) (records : List T) (hk : ∀ e ∈ records, X.key e < 2 ^ ks.toNat) :
    ∃ runs, sort_all X ks l records = some runs ∧ (concat_runs runs).Perm records ∧
      (concat_runs runs).Pairwise (fun x y => X.key x ≤ X.key y) ∧
      Chain runs 0 records.length := by
  have := sort_ops_spec hX ks l h0 h2 (records.map Op.add) (producer_map_add records)
    (well_formed_map_add records 0) (by rw [added_map_add]; exact hk)
    (by
      intro s hs
      simp only [built] at hs
      cases hnew : RamSort.new X ks l false with
      | error e => simp [hnew] at hs
      | ok ram0 =>
        simp only [hnew, Option.some.injEq] at hs
        intro c hc
        rw [← hs, exec_map_add_fronts] at hc
        cases hc)
  rw [added_map_add, ← sort_all_eq_sort_ops] at this
  exact this

/-! ## Runs in offset order -/

theorem Chain.offsets_lt {T : Type} {runs : List (List T × Nat)} {a b : Nat}
    (h : Chain runs a b) : runs.Pairwise (fun r1 r2 => r1.2 < r2.2) := by
  have h1 := Chain.disjoint h
  have h2 := Chain.bounds h
  refine List.Pairwise.imp_of_mem ?_ h1
  intro r1 r2 hr1 _ hle
  have := (h2 r1 hr1).2.1
  omega

theorem in_offset_order_eq {T : Type} {runs arrival : List (List T × Nat)} {a b : Nat}
    (h : Chain runs a b) (hp : arrival.Perm runs) : in_offset_order arrival = runs := by
  have hlt := Chain.offsets_lt h
  have hperm : (in_offset_order arrival).Perm runs :=
    (List.perm_insertionSort _ arrival).trans hp
  have hsorted : (in_offset_order arrival).Pairwise (fun r1 r2 => r1.2 ≤ r2.2) := by
    haveI : IsTotal (List T × Nat) (fun r1 r2 => r1.2 ≤ r2.2) := ⟨fun r1 r2 => Nat.le_total _ _⟩
    haveI : IsTrans (List T × Nat) (fun r1 r2 => r1.2 ≤ r2.2) :=
      ⟨fun r1 r2 r3 h1 h2 => Nat.le_trans h1 h2⟩
    exact List.sorted_insertionSort _ arrival
  have hne : (in_offset_order arrival).Pairwise (fun r1 r2 => r1.2 ≠ r2.2) := by
    have h1 : (runs.map Prod.snd).Nodup := by
      rw [List.Nodup, List.pairwise_map]
      exact hlt.imp (fun h => Nat.ne_of_lt h)
    have h2 : ((in_offset_order arrival).map Prod.snd).Nodup :=
      (hperm.map Prod.snd).nodup_iff.mpr h1
    rw [List.Nodup, List.pairwise_map] at h2
    exact h2
  have hlt2 : (in_offset_order arrival).Pairwise (fun r1 r2 => r1.2 < r2.2) :=
    (hsorted.and hne).imp (fun h => Nat.lt_of_le_of_ne h.1 h.2)
  haveI : IsAntisymm (List T × Nat) (fun r1 r2 => r1.2 < r2.2) :=
    ⟨fun r1 r2 h1 h2 => absurd h1 (Nat.lt_asymm h2)⟩
  exact List.eq_of_perm_of_sorted hperm hlt2 hlt

/-! ## The small record type is lawful -/

theorem demo_lawful : demo.Lawful := by
  refine ⟨fun e => rfl, fun e => rfl, by decide, ?_, ?_⟩
  · intro l
    exact List.perm_insertionSort _ l
  · intro l
    haveI : IsTotal Rec (fun a b => a.key ≤ b.key) := ⟨fun a b => Nat.le_total _ _⟩
    haveI : IsTrans Rec (fun a b => a.key ≤ b.key) := ⟨fun a b c h1 h2 => Nat.le_trans h1 h2⟩
    exact List.sorted_insertionSort (fun a b => a.key ≤ b.key) l

/-! ## Claims -/

/-- C1 (completeness): for `1 ≤ log_num_buckets`, `2 * log_num_buckets ≤ key_size` and
records with keys below `2 ^ key_size`, building an engine, adding the records, `finish()`
and `read()` succeed, and in whatever order the runs arrive, their records taken together
are a permutation of the records added. -/
theorem completeness {T : Type} (X : Extern T) (hX : X.Lawful) (key_size log_num_buckets : Int)
    (records : List T) (h1 : 1 ≤ log_num_buckets) (h2 : 2 * log_num_buckets ≤ key_size)
    (hk : ∀ e ∈ records, X.key e < 2 ^ key_size.toNat) :
    ∃ runs, sort_all X key_size log_num_buckets records = some runs ∧
      ∀ arrival, arrival.Perm runs → (concat_runs arrival).Perm records := by
  obtain ⟨runs, hr, hperm, _, _⟩ :=
    sort_all_spec hX key_size log_num_buckets (by omega) h2 records hk
  exact ⟨runs, hr, fun arrival ha => (ha.flatMap_right _).trans hperm⟩

theorem completeness_witness :
    ∃ runs, sort_all demo 8 2 ten_records = some runs ∧
      ∀ arrival, arrival.Perm runs → (concat_runs arrival).Perm ten_records :=
  completeness demo demo_lawful 8 2 ten_records (by decide) (by decide) (by decide)

/-- C2 (global order): under the same preconditions the pipeline succeeds, and in whatever
order the runs arrive, concatenating them in ascending `global_offset` order gives records
whose keys are non-decreasing. -/
theorem global_order {T : Type} (X : Extern T) (hX : X.Lawful) (key_size log_num_buckets : Int)
    (records : List T) (h1 : 1 ≤ log_num_buckets) (h2 : 2 * log_num_buckets ≤ key_size)
    (hk : ∀ e ∈ records, X.key e < 2 ^ key_size.toNat) :
    ∃ runs, sort_all X key_size log_num_buckets records = some runs ∧
      ∀ arrival, arrival.Perm runs →
        (concat_runs (in_offset_order arrival)).Pairwise (fun x y => X.key x ≤ X.key y) := by
  obtain ⟨runs, hr, _, hsorted, hchain⟩ :=
    sort_all_spec hX key_size log_num_buckets (by omega) h2 records hk
  refine ⟨runs, hr, fun arrival ha => ?_⟩
  rw [in_offset_order_eq hchain ha]
  exact hsorted

theorem global_order_witness :
    ∃ runs, sort_all demo 8 2 ten_records = some runs ∧
      ∀ arrival, arrival.Perm runs →
        (concat_runs (in_offset_order arrival)).Pairwise (fun x y => demo.key x ≤ demo.key y) :=
  global_order demo demo_lawful 8 2 ten_records (by decide) (by decide) (by decide)

/-- C3 (offset contiguity): for `N` records added (keys below `2 ^ key_size`,
`0 ≤ log_num_buckets`, `2 * log_num_buckets ≤ key_size`, so that no call throws), the
intervals `[global_offset, global_offset + length)` of the runs are pairwise disjoint and
a position lies in one of them exactly when it is below `N`. -/
theorem offset_contiguity {T : Type} (X : Extern T) (hX : X.Lawful)
    (key_size log_num_buckets : Int) (records : List T) (h0 : 0 ≤ log_num_buckets)
    (h2 : 2 * log_num_buckets ≤ key_size) (hk : ∀ e ∈ records, X.key e < 2 ^ key_size.toNat) :
    ∃ runs, sort_all X key_size log_num_buckets records = some runs ∧
      ∀ arrival : List (List T × Nat), arrival.Perm runs →
        arrival.Pairwise
          (fun r1 r2 => r1.2 + r1.1.length ≤ r2.2 ∨ r2.2 + r2.1.length ≤ r1.2) ∧
        ∀ n, n < records.length ↔ ∃ r ∈ arrival, r.2 ≤ n ∧ n < r.2 + r.1.length := by
  obtain ⟨runs, hr, _, _, hchain⟩ := sort_all_spec hX key_size log_num_buckets h0 h2 records hk
  refine ⟨runs, hr, fun arrival ha => ⟨?_, ?_⟩⟩
  · rw [ha.pairwise_iff (fun h => h.symm)]
    exact (Chain.disjoint hchain).imp Or.inl
  · intro n
    have := Chain.cover hchain n
    simp only [Nat.zero_le, true_and] at this
    rw [this]
    constructor
    · rintro ⟨r, hr1, hr2⟩
      exact ⟨r, ha.mem_iff.mpr hr1, hr2⟩
    · rintro ⟨r, hr1, hr2⟩
      exact ⟨r, ha.mem_iff.mp hr1, hr2⟩

theorem offset_contiguity_witness :
    ∃ runs, sort_all demo 8 2 ten_records = some runs ∧
      ∀ arrival : List (List Rec × Nat), arrival.Perm runs →
        arrival.Pairwise
          (fun r1 r2 => r1.2 + r1.1.length ≤ r2.2 ∨ r2.2 + r2.1.length ≤ r1.2) ∧
        ∀ n, n < ten_records.length ↔ ∃ r ∈ arrival, r.2 ≤ n ∧ n < r.2 + r.1.length :=
  offset_contiguity demo demo_lawful 8 2 ten_records (by decide) (by decide) (by decide)

theorem two_fronts_flushed : ∀ s, built demo 8 2 two_fronts = some s → s.flushed := by
  intro s hs
  have : built demo 8 2 two_fronts = some (System.exec demo
      { ram := { key_size := 8, log_num_buckets := 2, bucket_key_shift := 6, keep_files := false,
                 is_finished := false, cache := WriteCache.new demo 6 4,
                 buckets := List.replicate 4 bucket_t.empty }, fronts := [] } two_fronts).2 := by
    decide
  rw [this] at hs
  injection hs with hs
  subst hs
  decide

/-- C4, as stated, fails: with insertion sort as `std::sort`, two records of equal key come
out in the order in which they reached the bucket, and a second front changes that order
although every front is flushed before `finish()`. -/
theorem producer_independence_fails :
    demo.Lawful ∧ (∀ op ∈ two_fronts, op.producer) ∧ Op.well_formed 0 two_fronts ∧
    (∀ e ∈ Op.added two_fronts, demo.key e < 2 ^ (8 : Int).toNat) ∧
    (∀ s, built demo 8 2 two_fronts = some s → s.flushed) ∧
    (sort_ops demo 8 2 two_fronts).map (fun runs => concat_runs (in_offset_order runs)) =
      some [{ key := 5, tag := 2 }, { key := 5, tag := 1 }] ∧
    (sort_all demo 8 2 (Op.added two_fronts)).map
      (fun runs => concat_runs (in_offset_order runs)) =
      some [{ key := 5, tag := 1 }, { key := 5, tag := 2 }] ∧
    (sort_ops demo 8 2 two_fronts).map (fun runs => concat_runs (in_offset_order runs)) ≠
      (sort_all demo 8 2 (Op.added two_fronts)).map
        (fun runs => concat_runs (in_offset_order runs)) := by
  refine ⟨demo_lawful, by simp [two_fronts, Op.producer], by simp [two_fronts, Op.well_formed],
    by decide, two_fronts_flushed, by decide, by decide, by decide⟩

/-- C4, amended: however the records are split across fronts and however the calls are
interleaved, if every front is flushed before `finish()` the output read in offset order
has the same sequence of keys as with a single front, and the same records up to the order
of records with equal keys. -/
theorem producer_independence_keys {T : Type} (X : Extern T) (hX : X.Lawful)
    (key_size log_num_buckets : Int) (ops : List (Op T)) (h1 : 1 ≤ log_num_buckets)
    (h2 : 2 * log_num_buckets ≤ key_size) (hp : ∀ op ∈ ops, op.producer)
    (hwf : Op.well_formed 0 ops) (hk : ∀ e ∈ Op.added ops, X.key e < 2 ^ key_size.toNat)
    (hfl : ∀ s, built X key_size log_num_buckets ops = some s → s.flushed) :
    ∃ runs1 runs2, sort_ops X key_size log_num_buckets ops = some runs1 ∧
      sort_all X key_size log_num_buckets (Op.added ops) = some runs2 ∧
      (concat_runs (in_offset_order runs1)).map X.key =
        (concat_runs (in_offset_order runs2)).map X.key ∧
      (concat_runs (in_offset_order runs1)).Perm (concat_runs (in_offset_order runs2)) := by
  obtain ⟨runs1, a1, a2, a3, a4⟩ :=
    sort_ops_spec hX key_size log_num_buckets (by omega) h2 ops hp hwf hk hfl
  obtain ⟨runs2, b1, b2, b3, b4⟩ :=
    sort_all_spec hX key_size log_num_buckets (by omega) h2 (Op.added ops) hk
  refine ⟨runs1, runs2, a1, b1, ?_, ?_⟩
  · rw [in_offset_order_eq a4 (List.Perm.refl _), in_offset_order_eq b4 (List.Perm.refl _)]
    have hperm : ((concat_runs runs1).map X.key).Perm ((concat_runs runs2).map X.key) :=
      (a2.trans b2.symm).map X.key
    haveI : IsAntisymm Nat (fun a b => a ≤ b) := ⟨fun a b => Nat.le_antisymm⟩
    exact List.eq_of_perm_of_sorted (r := fun a b => a ≤ b) hperm (List.pairwise_map.mpr a3)
      (List.pairwise_map.mpr b3)
  · rw [in_offset_order_eq a4 (List.Perm.refl _), in_offset_order_eq b4 (List.Perm.refl _)]
    exact a2.trans b2.symm

theorem producer_independence_keys_witness :
    ∃ runs1 runs2, sort_ops demo 8 2 two_fronts = some runs1 ∧
      sort_all demo 8 2 (Op.added two_fronts) = some runs2 ∧
      (concat_runs (in_offset_order runs1)).map demo.key =
        (concat_runs (in_offset_order runs2)).map demo.key ∧
      (concat_runs (in_offset_order runs1)).Perm (concat_runs (in_offset_order runs2)) :=
  producer_independence_keys demo demo_lawful 8 2 two_fronts (by decide) (by decide)
    (by simp [two_fronts, Op.producer]) (by simp [two_fronts, Op.well_formed]) (by decide)
    two_fronts_flushed

theorem demo_engine_new : RamSort.new demo 8 2 false = .ok demo_engine := rfl

/-- C5 (write appends exactly): on an engine that is not finished, with `index` below
`num_buckets()`, a block of `count` serialised records and the bucket's buffer as long as
its `num_entries` records, `write` succeeds, bucket `index` holds its previous bytes followed
by the block, its `num_entries` grows by `count`, and every other bucket is unchanged. -/
theorem write_appends {T : Type} (X : Extern T) (ram : RamSort) (index : Nat)
    (data : List Byte) (count : Nat) (hf : ram.is_finished = false)
    (hi : index < ram.num_buckets) (hd : data.length = count * X.disk_size)
    (hb : (ram.buckets.get ⟨index, hi⟩).ok X) :
    ∃ ram1, ram.write X index data count = (none, ram1) ∧
      ram1.num_buckets = ram.num_buckets ∧
      (ram1.buckets[index]?).map bucket_t.bytes =
        some ((ram.buckets.get ⟨index, hi⟩).bytes ++ data) ∧
      (ram1.buckets[index]?).map bucket_t.num_entries =
        some ((ram.buckets.get ⟨index, hi⟩).num_entries + count) ∧
      ∀ j, j ≠ index → ram1.buckets[j]? = ram.buckets[j]? := by
  have hi2 : index < ram.buckets.length := hi
  refine ⟨_, RamSort.write_eq X ram index data count hf hi2, ?_, ?_, ?_, ?_⟩
  · simp [RamSort.num_buckets]
  · have := bucket_write_bytes X (ram.buckets.get ⟨index, hi⟩) data count hb
      (Nat.le_of_eq hd.symm)
    rw [List.take_of_length_le (Nat.le_of_eq hd)] at this
    simp only [List.getElem?_set_self hi2, Option.map_some']
    rw [this]
  · simp only [List.getElem?_set_self hi2, Option.map_some', bucket_write_num_entries]
  · intro j hj
    simp only
    rw [List.getElem?_set_ne (Ne.symm hj)]

theorem write_appends_witness :
    ∃ ram1, demo_engine.write demo 1 [64, 7] 1 = (none, ram1) ∧
      ram1.num_buckets = demo_engine.num_buckets ∧
      (ram1.buckets[1]?).map bucket_t.bytes =
        some ((demo_engine.buckets.get ⟨1, by decide⟩).bytes ++ [64, 7]) ∧
      (ram1.buckets[1]?).map bucket_t.num_entries =
        some ((demo_engine.buckets.get ⟨1, by decide⟩).num_entries + 1) ∧
      ∀ j, j ≠ 1 → ram1.buckets[j]? = demo_engine.buckets[j]? :=
  write_appends demo demo_engine 1 [64, 7] 1 (by decide) (by decide) (by decide) rfl

/-- C6 (write fails exactly when it must, and atomically): on a finished engine `write`
throws "read only" (the check made first); on an engine that is not finished it throws
"bucket index out of range" when `index` is not below `num_buckets()` and succeeds
otherwise; whenever it throws, the engine is unchanged. -/
theorem write_fails_exactly {T : Type} (X : Extern T) (ram : RamSort) (index : Nat)
    (data : List Byte) (count : Nat) :
    (ram.is_finished = true → ram.write X index data count = (some Exn.read_only, ram)) ∧
    (ram.is_finished = false → ram.num_buckets ≤ index →
      ram.write X index data count = (some Exn.bucket_index_out_of_range, ram)) ∧
    (ram.is_finished = false → index < ram.num_buckets →
      (ram.write X index data count).1 = none) ∧
    ((ram.write X index data count).1 ≠ none → (ram.write X index data count).2 = ram) := by
  refine ⟨RamSort.write_finished X ram index data count,
    fun hf hi => RamSort.write_range X ram index data count hf hi, ?_, ?_⟩
  · intro hf hi
    rw [RamSort.write_eq X ram index data count hf hi]
  · intro h
    by_cases hf : ram.is_finished = true
    · rw [RamSort.write_finished X ram index data count hf]
    · have hf2 : ram.is_finished = false := by simpa using hf
      by_cases hi : ram.buckets.length ≤ index
      · rw [RamSort.write_range X ram index data count hf2 hi]
      · rw [RamSort.write_eq X ram index data count hf2 (by omega)] at h
        exact absurd rfl h

theorem write_fails_exactly_witness :
    (demo_engine.is_finished = true →
      demo_engine.write demo 4 [64, 7] 1 = (some Exn.read_only, demo_engine)) ∧
    (demo_engine.is_finished = false → demo_engine.num_buckets ≤ 4 →
      demo_engine.write demo 4 [64, 7] 1 = (some Exn.bucket_index_out_of_range, demo_engine)) ∧
    (demo_engine.is_finished = false → 4 < demo_engine.num_buckets →
      (demo_engine.write demo 4 [64, 7] 1).1 = none) ∧
    ((demo_engine.write demo 4 [64, 7] 1).1 ≠ none →
      (demo_engine.write demo 4 [64, 7] 1).2 = demo_engine) :=
  write_fails_exactly demo demo_engine 4 [64, 7] 1

/-- C7 at the failing input: after `finish()` on a fresh engine, `add(record)` returns
without an exception; the record sits in the staging buffer, no bucket holds it, and
`read()` emits no run.  Every `write` on the finished engine does throw "read only". -/
theorem add_after_finish_is_accepted :
    (demo_engine.finish demo).1 = none ∧
    (demo_engine.finish demo).2.is_finished = true ∧
    ((demo_engine.finish demo).2.add demo { key := 5, tag := 1 }).1 = none ∧
    ((demo_engine.finish demo).2.add demo { key := 5, tag := 1 }).2.cache.pending_count = 1 ∧
    ((demo_engine.finish demo).2.add demo { key := 5, tag := 1 }).2.total_entries = 0 ∧
    (((demo_engine.finish demo).2.add demo { key := 5, tag := 1 }).2.read demo).2.2 = [] ∧
    (∀ index data count, ((demo_engine.finish demo).2.write demo index data count).1 =
      some Exn.read_only) := by
  refine ⟨by decide, by decide, by decide, by decide, by decide, by decide, ?_⟩
  intro index data count
  rw [RamSort.write_finished demo _ index data count (by decide)]

/-! ## What a bucket holds together with a front -/

theorem content_eq {T : Type} (X : Extern T) (ram : RamSort) (c : WriteCache) (j : Nat)
    (h1 : j < ram.buckets.length) (h2 : j < c.buckets.length) :
    content X ram c j =
      (ram.buckets.get ⟨j, h1⟩).entries X ++ (c.buckets.get ⟨j, h2⟩).pending X := by
  simp [content, List.getElem?_eq_getElem h1, List.getElem?_eq_getElem h2]

theorem content_set_both {T : Type} (X : Extern T) (ram : RamSort) (c : WriteCache) (i j : Nat)
    (b : bucket_t) (buffer : write_buffer_t) (h1 : i < ram.buckets.length)
    (h2 : i < c.buckets.length) :
    content X { ram with buckets := ram.buckets.set i b }
      { c with buckets := c.buckets.set i buffer } j =
      if j = i then b.entries X ++ buffer.pending X else content X ram c j := by
  by_cases hj : j = i
  · subst hj
    simp [content, List.getElem?_set_self h1, List.getElem?_set_self h2]
  · simp only [content, hj, if_false]
    rw [List.getElem?_set_ne (Ne.symm hj), List.getElem?_set_ne (Ne.symm hj)]

theorem content_set_buffer {T : Type} (X : Extern T) (ram : RamSort) (c : WriteCache) (i j : Nat)
    (buffer : write_buffer_t) (h1 : i < ram.buckets.length) (h2 : i < c.buckets.length) :
    content X ram { c with buckets := c.buckets.set i buffer } j =
      if j = i then (ram.buckets.get ⟨i, h1⟩).entries X ++ buffer.pending X
      else content X ram c j := by
  by_cases hj : j = i
  · subst hj
    simp [content, List.getElem?_eq_getElem h1, List.getElem?_set_self h2]
  · simp only [content, hj, if_false]
    rw [List.getElem?_set_ne (Ne.symm hj)]

/-- The method `WriteCache::add`, bucket by bucket: the record joins what bucket `index`
and its staging buffer hold together, behind everything added before; nothing else
changes. -/
theorem WriteCache.add_content {T : Type} {X : Extern T} (hX : X.Lawful) (c : WriteCache)
    (ram : RamSort) (e : T) (hc : c.ok X ram) (hr : ram.ok X)
    (hok : (c.add X ram e).1 = none) (j : Nat) :
    content X (c.add X ram e).2.2 (c.add X ram e).2.1 j =
      content X ram c j ++ if j = shr (X.key e) c.key_shift then [e] else [] := by
  rcases WriteCache.add_cases X c ram e hc.length with ⟨h, he⟩ | ⟨h, _, hf, he⟩ |
    ⟨h, h2, hfull, hf, he⟩ | ⟨h, hfull, he⟩
  · rw [he] at hok
    cases hok
  · rw [he] at hok
    cases hok
  · rw [he]
    have hbuf := hc.buffers _ (List.get_mem c.buckets _ h)
    have hbk := hr.buckets _ (List.get_mem ram.buckets _ h2)
    have hcap : (c.buckets.get ⟨shr (X.key e) c.key_shift, h⟩).count * X.disk_size ≤
        (c.buckets.get ⟨shr (X.key e) c.key_shift, h⟩).data.length := by
      rw [hbuf.1]
      exact Nat.mul_le_mul_right _ hbuf.2
    have hent := bucket_write_entries X _ _ _ hbk hcap
    have hpend : ((c.buckets.get ⟨shr (X.key e) c.key_shift, h⟩).reset.push X e).pending X
        = [e] := by
      rw [push_pending hX (c.buckets.get ⟨shr (X.key e) c.key_shift, h⟩).reset e hbuf.1
        hX.capacity_pos]
      simp [write_buffer_t.pending, write_buffer_t.reset, decode]
    simp only
    rw [content_set_both X ram c _ j _ _ h2 h, hent, hpend]
    by_cases hj : j = shr (X.key e) c.key_shift
    · subst hj
      simp only [if_true]
      rw [content_eq X ram c _ h2 h]
      rfl
    · simp only [hj, if_false, List.append_nil]
  · rw [he]
    have hbuf := hc.buffers _ (List.get_mem c.buckets _ h)
    have hpend := push_pending hX _ e hbuf.1 hfull
    have h2 : shr (X.key e) c.key_shift < ram.buckets.length := hc.length ▸ h
    simp only
    rw [content_set_buffer X ram c _ j _ h2 h, hpend]
    by_cases hj : j = shr (X.key e) c.key_shift
    · subst hj
      simp only [if_true]
      rw [content_eq X ram c _ h2 h, List.append_assoc]
    · simp only [hj, if_false, List.append_nil]

/-- The loop of `WriteCache::flush`, bucket by bucket: what a bucket and its staging buffer
hold together does not change. -/
theorem WriteCache.flush_content_upto {T : Type} [DecidableEq T] {X : Extern T}
    (c : WriteCache) (ram : RamSort) (hc : c.ok X ram) (hr : ram.ok X) (n j : Nat) :
    content X ((List.range n).foldl (WriteCache.flush_step X) (none, c, ram)).2.2
      ((List.range n).foldl (WriteCache.flush_step X) (none, c, ram)).2.1 j =
      content X ram c j := by
  induction n with
  | zero => rw [List.range_zero, List.foldl_nil]
  | succ n ih =>
    obtain ⟨hc1, hr1, _⟩ := WriteCache.flush_ok_upto c ram hc hr n
    rw [List.range_succ, List.foldl_append, List.foldl_cons, List.foldl_nil]
    generalize (List.range n).foldl (WriteCache.flush_step X) (none, c, ram) = st at ih hc1 hr1 ⊢
    obtain ⟨err, c1, ram1⟩ := st
    simp only at ih hc1 hr1
    cases err with
    | some e =>
      rw [WriteCache.flush_step_error]
      exact ih
    | none =>
      rcases WriteCache.flush_step_cases X c1 ram1 n hc1.length with ⟨he, _⟩ | ⟨h, _, _, he⟩ |
        ⟨h, h2, _, _, he⟩
      · rw [he]
        exact ih
      · rw [he]
        exact ih
      · rw [he]
        have hbuf := hc1.buffers _ (List.get_mem c1.buckets _ h)
        have hbk := hr1.buckets _ (List.get_mem ram1.buckets _ h2)
        have hcap : (c1.buckets.get ⟨n, h⟩).count * X.disk_size ≤
            (c1.buckets.get ⟨n, h⟩).data.length := by
          rw [hbuf.1]
          exact Nat.mul_le_mul_right _ hbuf.2
        have hent := bucket_write_entries X _ _ _ hbk hcap
        have hpend : (c1.buckets.get ⟨n, h⟩).reset.pending X = [] := by
          simp [write_buffer_t.pending, write_buffer_t.reset, decode]
        simp only
        rw [content_set_both X ram1 c1 n j _ _ h2 h, hent, hpend, ← ih]
        by_cases hj : j = n
        · subst hj
          simp only [if_true, List.append_nil]
          rw [content_eq X ram1 c1 _ h2 h]
          rfl
        · simp only [hj, if_false]

/-- A successful `WriteCache::flush`, bucket by bucket: every bucket holds what it held
before followed by what was pending for it. -/
theorem WriteCache.flush_entries {T : Type} {X : Extern T} (c : WriteCache) (ram : RamSort)
    (hc : c.ok X ram) (hr : ram.ok X) (hf : ram.is_finished = false) :
    (c.flush X ram).1 = none ∧
    ∀ j, ((((c.flush X ram).2.2.buckets[j]?).map (bucket_t.entries X)).getD [] : List T) =
      content X ram c j := by
  classical
  obtain ⟨_, h2, _, _, h5⟩ := WriteCache.flush_shape X c ram hc.length
  obtain ⟨h6, h7⟩ := h5 hf
  refine ⟨h6, fun j => ?_⟩
  have h8 := WriteCache.flush_content_upto c ram hc hr c.buckets.length j
  rw [← WriteCache.flush_eq] at h8
  rw [← h8]
  simp only [content]
  have h9 : (((c.flush X ram).2.1.buckets[j]?).map (write_buffer_t.pending X)).getD [] = [] := by
    cases hj : (c.flush X ram).2.1.buckets[j]? with
    | none => rfl
    | some buffer =>
      have hm : buffer ∈ (c.flush X ram).2.1.buckets := List.mem_iff_getElem?.mpr ⟨j, hj⟩
      simp [write_buffer_t.pending, decode, h7 buffer hm]
  rw [h9, List.append_nil]

theorem demo_engine_inv : System.Inv demo { ram := demo_engine, fronts := [] } :=
  (RamSort.new_facts demo 8 2 demo_engine demo_engine_new).2.2.2.1

/-- C8 (bucket routing of add): for a front `c` of an engine built with
`(key_size, log_num_buckets)`, `0 ≤ log_num_buckets ≤ key_size`, and a record with key `k`,
let `index = k >> (key_size - log_num_buckets)`.  `add` throws "bucket index out of range"
exactly when `index ≥ 2 ^ log_num_buckets`, that is when `k ≥ 2 ^ key_size`, and then
neither the front nor the engine changes.  When `add` succeeds the record is the last one
pending in staging buffer `index` (or went there after that buffer was written to bucket
`index`), every other staging buffer is unchanged, no other bucket gains a record, and a
following `flush` on an engine that is not finished leaves the record as the last one
stored in bucket `index`. -/
theorem add_routing {T : Type} (X : Extern T) (hX : X.Lawful) (key_size log_num_buckets : Int)
    (ram : RamSort) (c : WriteCache) (e : T) (h0 : 0 ≤ log_num_buckets)
    (h1 : log_num_buckets ≤ key_size) (hconf : ram.Conf key_size log_num_buckets)
    (hr : ram.ok X) (hc : c.ok X ram) :
    ((c.add X ram e).1 = some Exn.bucket_index_out_of_range ↔
      shl1 log_num_buckets ≤ shr (X.key e) (key_size - log_num_buckets)) ∧
    (shl1 log_num_buckets ≤ shr (X.key e) (key_size - log_num_buckets) ↔
      2 ^ key_size.toNat ≤ X.key e) ∧
    ((c.add X ram e).1 = some Exn.bucket_index_out_of_range → (c.add X ram e).2 = (c, ram)) ∧
    ((c.add X ram e).1 = none →
      (∀ j, content X (c.add X ram e).2.2 (c.add X ram e).2.1 j =
        content X ram c j ++
          if j = shr (X.key e) (key_size - log_num_buckets) then [e] else []) ∧
      (∃ staged,
        ((c.add X ram e).2.1.buckets[shr (X.key e) (key_size - log_num_buckets)]?).map
          (write_buffer_t.pending X) = some (staged ++ [e])) ∧
      (∀ j, j ≠ shr (X.key e) (key_size - log_num_buckets) →
        (c.add X ram e).2.1.buckets[j]? = c.buckets[j]?) ∧
      (ram.is_finished = false →
        ((c.add X ram e).2.1.flush X (c.add X ram e).2.2).1 = none ∧
        ∀ j, ((((c.add X ram e).2.1.flush X (c.add X ram e).2.2).2.2.buckets[j]?).map
            (bucket_t.entries X)).getD [] =
          content X ram c j ++
            if j = shr (X.key e) (key_size - log_num_buckets) then [e] else [])) := by
  classical
  have hks : c.key_shift = key_size - log_num_buckets := by
    rw [hc.key_shift, hconf.bucket_key_shift]
  have hlen : c.buckets.length = shl1 log_num_buckets := by rw [hc.length, hconf.length]
  have hcases := WriteCache.add_cases X c ram e hc.length
  have hcontent := WriteCache.add_content hX c ram e hc hr
  obtain ⟨k1, k2, _⟩ := WriteCache.add_ok hX c ram e hc hr
  obtain ⟨g1, _⟩ := WriteCache.add_shape X c ram e hc.length
  rw [hks] at hcases hcontent
  refine ⟨?_, ?_, ?_, ?_⟩
  · rcases hcases with ⟨h, he⟩ | ⟨h, _, _, he⟩ | ⟨h, _, _, _, he⟩ | ⟨h, _, he⟩
    · rw [he]
      simp only [true_iff]
      omega
    · rw [he]
      simp only [Option.some.injEq, reduceCtorEq, false_iff]
      omega
    · rw [he]
      simp only [reduceCtorEq, false_iff]
      omega
    · rw [he]
      simp only [reduceCtorEq, false_iff]
      omega
  · have := shr_lt_shl1_iff (X.key e) key_size log_num_buckets h0 h1
    constructor
    · intro h
      by_contra hn
      have := this.mpr (by omega)
      omega
    · intro h
      by_contra hn
      have := this.mp (by omega)
      omega
  · intro herr
    rcases hcases with ⟨_, he⟩ | ⟨_, _, _, he⟩ | ⟨_, _, _, _, he⟩ | ⟨_, _, he⟩
    · rw [he]
    · rw [he] at herr
      cases herr
    · rw [he] at herr
      cases herr
    · rw [he] at herr
      cases herr
  · intro hok
    refine ⟨hcontent hok, ?_, ?_, ?_⟩
    · rcases hcases with ⟨_, he⟩ | ⟨_, _, _, he⟩ | ⟨h, _, _, _, he⟩ | ⟨h, hfull, he⟩
      · rw [he] at hok
        cases hok
      · rw [he] at hok
        cases hok
      · rw [he]
        have hbuf := hc.buffers _ (List.get_mem c.buckets _ h)
        refine ⟨[], ?_⟩
        simp only [List.getElem?_set_self h, Option.map_some', List.nil_append]
        rw [push_pending hX (c.buckets.get ⟨_, h⟩).reset e hbuf.1 hX.capacity_pos]
        simp [write_buffer_t.pending, write_buffer_t.reset, decode]
      · rw [he]
        have hbuf := hc.buffers _ (List.get_mem c.buckets _ h)
        refine ⟨(c.buckets.get ⟨_, h⟩).pending X, ?_⟩
        simp only [List.getElem?_set_self h, Option.map_some']
        rw [push_pending hX _ e hbuf.1 hfull]
    · intro j hj
      rcases hcases with ⟨_, he⟩ | ⟨_, _, _, he⟩ | ⟨h, _, _, _, he⟩ | ⟨h, hfull, he⟩
      · rw [he]
      · rw [he]
      · rw [he]
        simp only
        rw [List.getElem?_set_ne (Ne.symm hj)]
      · rw [he]
        simp only
        rw [List.getElem?_set_ne (Ne.symm hj)]
    · intro hf
      have hf2 : (c.add X ram e).2.2.is_finished = false := by
        rw [g1.conf.2.2.2.2.1]
        exact hf
      obtain ⟨f1, f2⟩ := WriteCache.flush_entries (c.add X ram e).2.1 (c.add X ram e).2.2 k1 k2 hf2
      refine ⟨f1, fun j => ?_⟩
      rw [f2 j, hcontent hok j]

theorem add_routing_witness :
    ((demo_engine.cache.add demo demo_engine { key := 200, tag := 1 }).1 =
        some Exn.bucket_index_out_of_range ↔ shl1 2 ≤ shr 200 (8 - 2)) ∧
    (shl1 2 ≤ shr 200 (8 - 2) ↔ 2 ^ (8 : Int).toNat ≤ 200) ∧
    ((demo_engine.cache.add demo demo_engine { key := 200, tag := 1 }).1 =
        some Exn.bucket_index_out_of_range →
      (demo_engine.cache.add demo demo_engine { key := 200, tag := 1 }).2 =
        (demo_engine.cache, demo_engine)) ∧
    ((demo_engine.cache.add demo demo_engine { key := 200, tag := 1 }).1 = none →
      (∀ j, content demo (demo_engine.cache.add demo demo_engine { key := 200, tag := 1 }).2.2
          (demo_engine.cache.add demo demo_engine { key := 200, tag := 1 }).2.1 j =
        content demo demo_engine demo_engine.cache j ++
          if j = shr 200 (8 - 2) then [{ key := 200, tag := 1 }] else []) ∧
      (∃ staged,
        ((demo_engine.cache.add demo demo_engine
            { key := 200, tag := 1 }).2.1.buckets[shr 200 (8 - 2)]?).map
          (write_buffer_t.pending demo) = some (staged ++ [{ key := 200, tag := 1 }])) ∧
      (∀ j, j ≠ shr 200 (8 - 2) →
        (demo_engine.cache.add demo demo_engine { key := 200, tag := 1 }).2.1.buckets[j]? =
          demo_engine.cache.buckets[j]?) ∧
      (demo_engine.is_finished = false →
        ((demo_engine.cache.add demo demo_engine { key := 200, tag := 1 }).2.1.flush demo
          (demo_engine.cache.add demo demo_engine { key := 200, tag := 1 }).2.2).1 = none ∧
        ∀ j, ((((demo_engine.cache.add demo demo_engine { key := 200, tag := 1 }).2.1.flush demo
            (demo_engine.cache.add demo demo_engine
              { key := 200, tag := 1 }).2.2).2.2.buckets[j]?).map
            (bucket_t.entries demo)).getD [] =
          content demo demo_engine demo_engine.cache j ++
            if j = shr 200 (8 - 2) then [{ key := 200, tag := 1 }] else [])) :=
  add_routing demo demo_lawful 8 2 demo_engine demo_engine.cache { key := 200, tag := 1 }
    (by decide) (by decide) ⟨rfl, rfl, rfl, rfl⟩ demo_engine_inv.ram demo_engine_inv.cache

/-- C9, as stated, fails: `write` is public and takes any block, so `write(0, data, 1)` with
the record of key 255 leaves in bucket 0 a record whose key is not in `[0 << 6, 1 << 6)`. -/
theorem key_range_fails :
    Reachable demo (fun _ => True) 8 2 misrouted ∧
    ({ key := 255, tag := 0 } : Rec) ∈
      (misrouted.ram.buckets.getD 0 bucket_t.empty).entries demo ∧
    ¬ (0 <<< (8 - 2 : Int).toNat ≤ demo.key { key := 255, tag := 0 } ∧
      demo.key { key := 255, tag := 0 } < (0 + 1) <<< (8 - 2 : Int).toNat) := by
  refine ⟨?_, by decide, by decide⟩
  exact Reachable.step _ (Op.write 0 [255, 0] 1) (Reachable.init demo_engine demo_engine_new)
    trivial

/-- C9, amended: in every state reached from the constructor through `add`, `add_cache()`,
`add` and `flush` on the fronts, `finish()`, and `write` calls that pass a block of `count`
serialised records whose keys all select the bucket written to, every record stored in
bucket `i` has a key `k` with `(i << shift) ≤ k < ((i + 1) << shift)`, where
`shift = key_size - log_num_buckets`. -/
theorem key_range_invariant {T : Type} (X : Extern T) (hX : X.Lawful)
    (key_size log_num_buckets : Int) (s : System)
    (h : Reachable X (Op.routed X (key_size - log_num_buckets)) key_size log_num_buckets s) :
    ∀ i (hi : i < s.ram.buckets.length), ∀ e ∈ (s.ram.buckets.get ⟨i, hi⟩).entries X,
      i <<< (key_size - log_num_buckets).toNat ≤ X.key e ∧
      X.key e < (i + 1) <<< (key_size - log_num_buckets).toNat := by
  classical
  obtain ⟨h1, h2⟩ := Reachable.inv hX key_size log_num_buckets s h
  intro i hi e he
  have := h1.ram.routed i hi e he
  rw [h2.bucket_key_shift] at this
  exact (shr_eq_iff _ _ _).mp this

theorem key_range_invariant_witness :
    Reachable demo (Op.routed demo (8 - 2)) 8 2
      (System.step demo { ram := demo_engine, fronts := [] } (Op.write 3 [255, 0] 1)).2 ∧
    3 <<< (8 - 2 : Int).toNat ≤ demo.key { key := 255, tag := 0 } ∧
    demo.key { key := 255, tag := 0 } < (3 + 1) <<< (8 - 2 : Int).toNat :=
  ⟨Reachable.step _ (Op.write 3 [255, 0] 1) (Reachable.init demo_engine demo_engine_new)
      ⟨by decide, by decide⟩,
    key_range_invariant demo demo_lawful 8 2
      (System.step demo { ram := demo_engine, fronts := [] } (Op.write 3 [255, 0] 1)).2
      (Reachable.step _ (Op.write 3 [255, 0] 1) (Reachable.init demo_engine demo_engine_new)
        ⟨by decide, by decide⟩)
      3 (by decide) { key := 255, tag := 0 } (by decide)⟩

/-! ## Counting records -/

theorem System.exec_direct {T : Type} (X : Extern T) (ks l : Int) (h0 : 0 ≤ l) (h1 : l ≤ ks)
    (ops : List (Op T)) (s : System)
    (hl : s.ram.cache.buckets.length = s.ram.buckets.length)
    (hks : s.ram.cache.key_shift = s.ram.bucket_key_shift)
    (hconf : s.ram.Conf ks l) (hf : s.ram.is_finished = false)
    (hd : ∀ op ∈ ops, op.direct X ks l) :
    (s.exec X ops).1 = none ∧
    (s.exec X ops).2.ram.cache.buckets.length = (s.exec X ops).2.ram.buckets.length ∧
    (s.exec X ops).2.ram.is_finished = false ∧
    (s.exec X ops).2.ram.total_entries + (s.exec X ops).2.ram.cache.pending_count =
      s.ram.total_entries + s.ram.cache.pending_count + (ops.map Op.count).sum := by
  induction ops generalizing s with
  | nil => exact ⟨rfl, hl, hf, by simp [System.exec]⟩
  | cons op ops ih =>
    have hd2 : ∀ op ∈ ops, op.direct X ks l := fun o ho => hd o (by simp [ho])
    have hop := hd op (by simp)
    cases op with
    | add e =>
      have hk : X.key e < 2 ^ ks.toNat := hop
      obtain ⟨g1, g2, g3, g4, _, g6⟩ := WriteCache.add_shape X s.ram.cache s.ram e hl
      obtain ⟨f1, f2, f3, _, f5, _, f7⟩ := g1.conf
      have hidx : shr (X.key e) s.ram.cache.key_shift < s.ram.cache.buckets.length := by
        rw [hks, hl, hconf.bucket_key_shift, hconf.length]
        exact (shr_lt_shl1_iff _ ks l h0 h1).mpr hk
      have hok := g6 hf hidx
      have hcnt := g4 hok
      simp only [System.exec, System.step, RamSort.add]
      generalize s.ram.cache.add X s.ram e = r at g2 g3 f1 f2 f3 f5 f7 hok hcnt
      obtain ⟨err, c1, ram1⟩ := r
      simp only at g2 g3 f1 f2 f3 f5 f7 hok hcnt
      subst hok
      simp only
      obtain ⟨b1, b2, b3, b4⟩ := ih { s with ram := { ram1 with cache := c1 } }
        (by simp only; rw [g2, hl, f7]) (by simp only; rw [g3, hks, f3])
        (hconf.congr f1 f2 f3 f7) (f5.trans hf) hd2
      refine ⟨b1, b2, b3, ?_⟩
      rw [b4]
      simp only [RamSort.total_entries, List.map_cons, List.sum_cons, Op.count] at hcnt ⊢
      omega
    | write index data count =>
      have hi : index < s.ram.buckets.length := by
        rw [hconf.length]
        exact hop
      have e1 := total_entries_set s.ram index hi
        ((s.ram.buckets.get ⟨index, hi⟩).write X data count)
      rw [bucket_write_num_entries] at e1
      simp only [System.exec, System.step, RamSort.write_eq X s.ram index data count hf hi]
      obtain ⟨b1, b2, b3, b4⟩ := ih
        { s with ram := { s.ram with
            buckets := s.ram.buckets.set index
              ((s.ram.buckets.get ⟨index, hi⟩).write X data count) } }
        (by simpa using hl) hks (hconf.congr rfl rfl rfl (by simp)) hf hd2
      refine ⟨b1, b2, b3, ?_⟩
      rw [b4]
      simp only [List.map_cons, List.sum_cons, Op.count] at e1 ⊢
      omega
    | add_cache => exact hop.elim
    | cache_add j e => exact hop.elim
    | cache_flush j => exact hop.elim
    | finish => exact hop.elim

/-- C10 (record count at finish): for `0 ≤ log_num_buckets ≤ key_size` and any sequence of
`add(record)` calls with keys below `2 ^ key_size` and `write(index, data, count)` calls with
`index` below the number of buckets, made on a fresh engine, no call throws, `finish()`
succeeds, and the sum of `num_entries` over all buckets then equals the number of `add`
calls plus the sum of the counts of the `write` calls. -/
theorem record_count_at_finish {T : Type} (X : Extern T) (key_size log_num_buckets : Int)
    (ops : List (Op T)) (h0 : 0 ≤ log_num_buckets) (h1 : log_num_buckets ≤ key_size)
    (hd : ∀ op ∈ ops, op.direct X key_size log_num_buckets) :
    ∃ ram0 s ram1, RamSort.new X key_size log_num_buckets false = .ok ram0 ∧
      System.exec X { ram := ram0, fronts := [] } ops = (none, s) ∧
      s.ram.finish X = (none, ram1) ∧ ram1.is_finished = true ∧
      ram1.total_entries = (ops.map Op.count).sum := by
  obtain ⟨ram0, hnew⟩ : ∃ ram0, RamSort.new X key_size log_num_buckets false = .ok ram0 :=
    ⟨_, RamSort.new_eq X key_size log_num_buckets⟩
  obtain ⟨c1, c2, _, c4, _, c6, c7⟩ := RamSort.new_facts X key_size log_num_buckets ram0 hnew
  obtain ⟨e1, e2, e3, e4⟩ := System.exec_direct X key_size log_num_buckets h0 h1 ops
    { ram := ram0, fronts := [] } c4.cache.length c4.cache.key_shift c1 c2 hd
  generalize hr : System.exec X { ram := ram0, fronts := [] } ops = r at e1 e2 e3 e4
  obtain ⟨err, s⟩ := r
  simp only at e1 e2 e3 e4
  subst e1
  obtain ⟨_, _, _, g4, g5⟩ := WriteCache.flush_shape X s.ram.cache s.ram e2
  obtain ⟨g6, g7⟩ := g5 e3
  have g8 := pending_count_eq_zero _ g7
  generalize hr2 : s.ram.cache.flush X s.ram = r2 at g4 g6 g7 g8
  obtain ⟨err2, c2, ram2⟩ := r2
  simp only at g4 g6 g8
  subst g6
  refine ⟨ram0, s, { ram2 with cache := c2, is_finished := true }, hnew, hr, ?_, rfl, ?_⟩
  · simp only [RamSort.finish, hr2]
  · simp only [RamSort.total_entries] at g4 c6 e4 ⊢
    omega

theorem record_count_at_finish_witness :
    ∃ ram0 s ram1, RamSort.new demo 8 2 false = .ok ram0 ∧
      System.exec demo { ram := ram0, fronts := [] }
        [Op.add { key := 200, tag := 1 }, Op.write 0 [5, 2, 7, 3] 2,
          Op.add { key := 64, tag := 4 }] = (none, s) ∧
      s.ram.finish demo = (none, ram1) ∧ ram1.is_finished = true ∧
      ram1.total_entries =
        (([Op.add { key := 200, tag := 1 }, Op.write 0 [5, 2, 7, 3] 2,
          Op.add { key := 64, tag := 4 }] : List (Op Rec)).map Op.count).sum :=
  record_count_at_finish demo 8 2 _ (by decide) (by decide)
    (by
      intro op hop
      simp only [List.mem_cons, List.mem_singleton, List.not_mem_nil, or_false] at hop
      rcases hop with h | h | h <;> subst h <;> simp [Op.direct, demo, shl1])

/-! ## Claims on `finish`, `flush` and the life of the buffers -/

/-- C11, as stated, fails: after `add_cache()` and one `add` on the new front, `finish()`
returns without an exception, the front still holds its record as pending and no bucket
holds it. -/
theorem finish_leaves_fronts :
    (unflushed.fronts.map WriteCache.pending_count) = [1] ∧
    (unflushed.step demo Op.finish).1 = none ∧
    (unflushed.step demo Op.finish).2.ram.is_finished = true ∧
    ((unflushed.step demo Op.finish).2.fronts.map WriteCache.pending_count) = [1] ∧
    (unflushed.step demo Op.finish).2.ram.stored demo = [] := by
  refine ⟨by decide, by decide, by decide, by decide, by decide⟩

/-- C11, amended: `finish()` flushes the engine's own front.  On an engine that is not
finished, `finish()` returns without an exception and freezes the engine; afterwards the
engine's own front has zero pending records, every bucket holds what it held before
followed by what that front had staged for it, and the fronts created by `add_cache()` are
as they were. -/
theorem finish_flushes_own_front {T : Type} (X : Extern T) (s : System) (hs : s.Inv X)
    (hf : s.ram.is_finished = false) :
    (s.step X Op.finish).1 = none ∧
    (s.step X Op.finish).2.ram.is_finished = true ∧
    (∀ buffer ∈ (s.step X Op.finish).2.ram.cache.buckets, buffer.count = 0) ∧
    (∀ j, ((((s.step X Op.finish).2.ram.buckets[j]?).map (bucket_t.entries X)).getD [] : List T) =
      content X s.ram s.ram.cache j) ∧
    (s.step X Op.finish).2.fronts = s.fronts := by
  obtain ⟨h1, h2⟩ := WriteCache.flush_entries s.ram.cache s.ram hs.cache hs.ram hf
  obtain ⟨_, _, _, _, h5⟩ := WriteCache.flush_shape X s.ram.cache s.ram hs.cache.length
  have h6 := (h5 hf).2
  simp only [System.step, RamSort.finish]
  generalize s.ram.cache.flush X s.ram = r at h1 h2 h6
  obtain ⟨err, c1, ram1⟩ := r
  simp only at h1 h2 h6
  subst h1
  exact ⟨rfl, rfl, h6, h2, trivial⟩

theorem finish_flushes_own_front_witness :
    ((System.step demo { ram := demo_engine, fronts := [] }
        (Op.add { key := 5, tag := 1 })).2.step demo Op.finish).1 = none ∧
    ((System.step demo { ram := demo_engine, fronts := [] }
        (Op.add { key := 5, tag := 1 })).2.step demo Op.finish).2.ram.is_finished = true ∧
    (∀ buffer ∈ ((System.step demo { ram := demo_engine, fronts := [] }
        (Op.add { key := 5, tag := 1 })).2.step demo Op.finish).2.ram.cache.buckets,
      buffer.count = 0) ∧
    (∀ j, (((((System.step demo { ram := demo_engine, fronts := [] }
        (Op.add { key := 5, tag := 1 })).2.step demo Op.finish).2.ram.buckets[j]?).map
          (bucket_t.entries demo)).getD [] : List Rec) =
      content demo
        (System.step demo { ram := demo_engine, fronts := [] }
          (Op.add { key := 5, tag := 1 })).2.ram
        (System.step demo { ram := demo_engine, fronts := [] }
          (Op.add { key := 5, tag := 1 })).2.ram.cache j) ∧
    ((System.step demo { ram := demo_engine, fronts := [] }
        (Op.add { key := 5, tag := 1 })).2.step demo Op.finish).2.fronts =
      (System.step demo { ram := demo_engine, fronts := [] }
        (Op.add { key := 5, tag := 1 })).2.fronts :=
  finish_flushes_own_front demo
    (System.step demo { ram := demo_engine, fronts := [] } (Op.add { key := 5, tag := 1 })).2
    (System.step_add demo_lawful _ _ demo_engine_inv).1 (by decide)

/-! ## `WriteCache::flush` in any state -/

theorem WriteCache.flush_step_any {T : Type} (X : Extern T) (c : WriteCache) (ram : RamSort)
    (index : Nat) :
    (WriteCache.flush_step X (none, c, ram) index = (none, c, ram) ∧
      ∀ h : index < c.buckets.length, (c.buckets.get ⟨index, h⟩).count = 0) ∨
    (∃ h : index < c.buckets.length, ∃ e, (c.buckets.get ⟨index, h⟩).count ≠ 0 ∧
      WriteCache.flush_step X (none, c, ram) index = (some e, c, ram)) ∨
    (∃ h : index < c.buckets.length, ∃ h2 : index < ram.buckets.length,
      (c.buckets.get ⟨index, h⟩).count ≠ 0 ∧ ram.is_finished = false ∧
      WriteCache.flush_step X (none, c, ram) index =
        (none,
          { c with buckets := c.buckets.set index (c.buckets.get ⟨index, h⟩).reset },
          { ram with
            buckets := ram.buckets.set index
              ((ram.buckets.get ⟨index, h2⟩).write X (c.buckets.get ⟨index, h⟩).data
                (c.buckets.get ⟨index, h⟩).count) })) := by
  by_cases h : index < c.buckets.length
  · by_cases h0 : (c.buckets.get ⟨index, h⟩).count = 0
    · left
      exact ⟨by simp only [WriteCache.flush_step, h, dite_true, h0, ne_eq, not_true, if_false],
        fun _ => h0⟩
    · right
      by_cases hf : ram.is_finished = true
      · left
        refine ⟨h, Exn.read_only, h0, ?_⟩
        simp only [WriteCache.flush_step, h, dite_true, h0, ne_eq, not_false_eq_true, if_true,
          RamSort.write_finished X ram _ _ _ hf]
      · have hf2 : ram.is_finished = false := by simpa using hf
        by_cases hi : ram.buckets.length ≤ index
        · left
          refine ⟨h, Exn.bucket_index_out_of_range, h0, ?_⟩
          simp only [WriteCache.flush_step, h, dite_true, h0, ne_eq, not_false_eq_true, if_true,
            RamSort.write_range X ram _ _ _ hf2 hi]
        · right
          have hi2 : index < ram.buckets.length := by omega
          refine ⟨h, hi2, h0, hf2, ?_⟩
          simp only [WriteCache.flush_step, h, dite_true, h0, ne_eq, not_false_eq_true, if_true,
            RamSort.write_eq X ram _ _ _ hf2 hi2]
  · left
    exact ⟨by simp only [WriteCache.flush_step, h, dite_false], fun h2 => absurd h2 h⟩

theorem WriteCache.flush_fold_error {T : Type} (X : Extern T) (e : Exn) (c : WriteCache)
    (ram : RamSort) (l : List Nat) :
    l.foldl (WriteCache.flush_step X) (some e, c, ram) = (some e, c, ram) := by
  induction l with
  | nil => rfl
  | cons i l ih => rw [List.foldl_cons, WriteCache.flush_step_error, ih]

theorem WriteCache.flush_replay_none {T : Type} (X : Extern T) (c : WriteCache) (ram : RamSort)
    (n : Nat) (h0 : ∀ i, i < n → ∀ h : i < c.buckets.length, (c.buckets.get ⟨i, h⟩).count = 0) :
    (List.range n).foldl (WriteCache.flush_step X) (none, c, ram) = (none, c, ram) := by
  induction n with
  | zero => rfl
  | succ n ih =>
    rw [List.range_succ, List.foldl_append, ih (fun i hi h => h0 i (by omega) h),
      List.foldl_cons, List.foldl_nil]
    by_cases h : n < c.buckets.length
    · simp only [WriteCache.flush_step, h, dite_true, h0 n (by omega) h, ne_eq, not_true,
        if_false]
    · simp only [WriteCache.flush_step, h, dite_false]

theorem WriteCache.flush_replay_error {T : Type} (X : Extern T) (c : WriteCache) (ram : RamSort)
    (m : Nat) (e : Exn)
    (h0 : ∀ i, i < m → ∀ h : i < c.buckets.length, (c.buckets.get ⟨i, h⟩).count = 0)
    (hm : WriteCache.flush_step X (none, c, ram) m = (some e, c, ram)) (k : Nat) :
    (List.range (m + 1 + k)).foldl (WriteCache.flush_step X) (none, c, ram) =
      (some e, c, ram) := by
  induction k with
  | zero =>
    rw [Nat.add_zero, List.range_succ, List.foldl_append, WriteCache.flush_replay_none X c ram m h0,
      List.foldl_cons, List.foldl_nil, hm]
  | succ k ih =>
    rw [← Nat.add_assoc, List.range_succ, List.foldl_append, ih, List.foldl_cons,
      List.foldl_nil, WriteCache.flush_step_error]

/-- The state of the loop of `WriteCache::flush` after `n` iterations: without an exception
the first `n` staging buffers are empty; after an exception the loop stands at a buffer at
which the same call throws again. -/
theorem WriteCache.flush_settled {T : Type} (X : Extern T) (c : WriteCache) (ram : RamSort)
    (n : Nat) :
    ((List.range n).foldl (WriteCache.flush_step X) (none, c, ram)).2.1.buckets.length =
      c.buckets.length ∧
    (((List.range n).foldl (WriteCache.flush_step X) (none, c, ram)).1 = none →
      ∀ i, i < n → ∀ h : i < ((List.range n).foldl (WriteCache.flush_step X)
          (none, c, ram)).2.1.buckets.length,
        (((List.range n).foldl (WriteCache.flush_step X) (none, c, ram)).2.1.buckets.get
          ⟨i, h⟩).count = 0) ∧
    (∀ e, ((List.range n).foldl (WriteCache.flush_step X) (none, c, ram)).1 = some e →
      ∃ m, m < n ∧
        (∀ i, i < m → ∀ h : i < ((List.range n).foldl (WriteCache.flush_step X)
            (none, c, ram)).2.1.buckets.length,
          (((List.range n).foldl (WriteCache.flush_step X) (none, c, ram)).2.1.buckets.get
            ⟨i, h⟩).count = 0) ∧
        WriteCache.flush_step X
          (none, ((List.range n).foldl (WriteCache.flush_step X) (none, c, ram)).2.1,
            ((List.range n).foldl (WriteCache.flush_step X) (none, c, ram)).2.2) m =
          (some e, ((List.range n).foldl (WriteCache.flush_step X) (none, c, ram)).2.1,
            ((List.range n).foldl (WriteCache.flush_step X) (none, c, ram)).2.2)) := by
  induction n with
  | zero =>
    rw [List.range_zero, List.foldl_nil]
    refine ⟨rfl, fun _ i hi => by omega, fun e he => by cases he⟩
  | succ n ih =>
    rw [List.range_succ, List.foldl_append, List.foldl_cons, List.foldl_nil]
    generalize (List.range n).foldl (WriteCache.flush_step X) (none, c, ram) = st at ih ⊢
    obtain ⟨err, c1, ram1⟩ := st
    obtain ⟨hlen, hnone, hsome⟩ := ih
    simp only at hlen hnone hsome
    cases err with
    | some e =>
      rw [WriteCache.flush_step_error]
      refine ⟨hlen, fun h => by simp at h, ?_⟩
      intro e2 he2
      obtain ⟨m, hm, h1, h2⟩ := hsome e2 he2
      exact ⟨m, by omega, h1, h2⟩
    | none =>
      have hz := hnone rfl
      rcases WriteCache.flush_step_any X c1 ram1 n with ⟨he, h0⟩ | ⟨h, e, _, he⟩ |
        ⟨h, h2, _, _, he⟩
      · rw [he]
        refine ⟨hlen, ?_, fun e he2 => by simp at he2⟩
        intro _ i hi h
        by_cases hin : i = n
        · subst hin
          exact h0 h
        · exact hz i (by omega) h
      · rw [he]
        refine ⟨hlen, fun h => by simp at h, ?_⟩
        intro e2 he2
        simp only [Option.some.injEq] at he2
        subst he2
        exact ⟨n, by omega, hz, he⟩
      · rw [he]
        refine ⟨by simpa using hlen, ?_, fun e he2 => by simp at he2⟩
        intro _ i hi hh
        simp only [List.get_eq_getElem, List.getElem_set]
        split
        · rfl
        · have := hz i (by omega) (by simpa using hh)
          simpa using this

/-- C12 (idempotent flush): a `flush()` with nothing pending returns without an exception
and leaves every bucket and every staging buffer as it was; a second `flush()` right after
a first one ends as the first one did and leaves the state the first one left; and after a
`flush()` that returned without an exception every staging count is zero. -/
theorem flush_idempotent {T : Type} (X : Extern T) (c : WriteCache) (ram : RamSort) :
    ((∀ buffer ∈ c.buckets, buffer.count = 0) → c.flush X ram = (none, c, ram)) ∧
    (c.flush X ram).2.1.flush X (c.flush X ram).2.2 = c.flush X ram ∧
    ((c.flush X ram).1 = none → ∀ buffer ∈ (c.flush X ram).2.1.buckets, buffer.count = 0) := by
  obtain ⟨hlen, hnone, hsome⟩ := WriteCache.flush_settled X c ram c.buckets.length
  rw [← WriteCache.flush_eq] at hlen hnone hsome
  refine ⟨?_, ?_, ?_⟩
  · intro h0
    exact WriteCache.flush_replay_none X c ram c.buckets.length
      (fun i _ h => h0 _ (List.get_mem c.buckets i h))
  · generalize c.flush X ram = r at hlen hnone hsome
    obtain ⟨err, c1, ram1⟩ := r
    simp only at hlen hnone hsome ⊢
    cases err with
    | none =>
      rw [WriteCache.flush_eq]
      exact WriteCache.flush_replay_none X c1 ram1 c1.buckets.length
        (fun i hi h => hnone rfl i (by omega) h)
    | some e =>
      obtain ⟨m, hm, h1, h2⟩ := hsome e rfl
      have hk : c1.buckets.length = m + 1 + (c1.buckets.length - (m + 1)) := by omega
      rw [WriteCache.flush_eq, hk]
      exact WriteCache.flush_replay_error X c1 ram1 m e h1 h2 _
  · intro hok buffer hb
    obtain ⟨j, hj, rfl⟩ := List.getElem_of_mem hb
    have := hnone hok j (by omega) hj
    simpa using this

theorem flush_idempotent_witness :
    ((∀ buffer ∈ (unflushed.fronts.getD 0 unflushed.ram.cache).buckets, buffer.count = 0) →
      (unflushed.fronts.getD 0 unflushed.ram.cache).flush demo unflushed.ram =
        (none, unflushed.fronts.getD 0 unflushed.ram.cache, unflushed.ram)) ∧
    ((unflushed.fronts.getD 0 unflushed.ram.cache).flush demo unflushed.ram).2.1.flush demo
        ((unflushed.fronts.getD 0 unflushed.ram.cache).flush demo unflushed.ram).2.2 =
      (unflushed.fronts.getD 0 unflushed.ram.cache).flush demo unflushed.ram ∧
    (((unflushed.fronts.getD 0 unflushed.ram.cache).flush demo unflushed.ram).1 = none →
      ∀ buffer ∈ ((unflushed.fronts.getD 0 unflushed.ram.cache).flush demo
          unflushed.ram).2.1.buckets,
        buffer.count = 0) :=
  flush_idempotent demo (unflushed.fronts.getD 0 unflushed.ram.cache) unflushed.ram

/-! ## The length of the bucket buffers -/

theorem bucket_write_ok_any {T : Type} (X : Extern T) (b : bucket_t) (data : List Byte)
    (count : Nat) (hb : b.ok X) : (b.write X data count).ok X := by
  have hb2 : (b.data.getD []).length = b.num_entries * X.disk_size := hb
  by_cases h0 : b.num_entries * X.disk_size + count * X.disk_size = 0
  · simp only [bucket_t.ok, bucket_t.write, bucket_t.resize, h0, if_true, bucket_t.bytes,
      Option.map_none', Option.getD_none, List.length_nil]
    rw [Nat.add_mul]
    exact h0.symm
  · simp only [bucket_t.ok, bucket_t.write, bucket_t.resize, h0, if_false, bucket_t.bytes,
      Option.map_some', Option.getD_some, memcpy, realloc, List.length_append,
      List.length_take, List.length_drop, List.length_replicate, hb2]
    rw [Nat.add_mul]
    omega

theorem RamSort.write_buckets_ok {T : Type} (X : Extern T) (ram : RamSort) (index : Nat)
    (data : List Byte) (count : Nat) (h : ∀ b ∈ ram.buckets, b.ok X) :
    ∀ b ∈ (ram.write X index data count).2.buckets, b.ok X := by
  by_cases hf : ram.is_finished = true
  · rw [RamSort.write_finished X ram index data count hf]
    exact h
  · have hf2 : ram.is_finished = false := by simpa using hf
    by_cases hi : ram.buckets.length ≤ index
    · rw [RamSort.write_range X ram index data count hf2 hi]
      exact h
    · have hi2 : index < ram.buckets.length := by omega
      rw [RamSort.write_eq X ram index data count hf2 hi2]
      exact forall_mem_set index h
        (bucket_write_ok_any X _ data count (h _ (List.get_mem ram.buckets index hi2)))

theorem WriteCache.add_buckets_ok {T : Type} (X : Extern T) (c : WriteCache) (ram : RamSort)
    (e : T) (h : ∀ b ∈ ram.buckets, b.ok X) :
    ∀ b ∈ (c.add X ram e).2.2.buckets, b.ok X := by
  simp only [WriteCache.add]
  split
  · exact h
  · split
    · rename_i hlt hfull
      have hw := RamSort.write_buckets_ok X ram (shr (X.key e) c.key_shift)
        (c.buckets.get ⟨shr (X.key e) c.key_shift, Nat.lt_of_not_le hlt⟩).data
        (c.buckets.get ⟨shr (X.key e) c.key_shift, Nat.lt_of_not_le hlt⟩).count h
      generalize ram.write X (shr (X.key e) c.key_shift)
        (c.buckets.get ⟨shr (X.key e) c.key_shift, Nat.lt_of_not_le hlt⟩).data
        (c.buckets.get ⟨shr (X.key e) c.key_shift, Nat.lt_of_not_le hlt⟩).count = w at hw
      obtain ⟨err, ram1⟩ := w
      cases err <;> exact hw
    · exact h

theorem WriteCache.flush_step_buckets_ok {T : Type} (X : Extern T)
    (st : Option Exn × WriteCache × RamSort) (index : Nat)
    (h : ∀ b ∈ st.2.2.buckets, b.ok X) :
    ∀ b ∈ (WriteCache.flush_step X st index).2.2.buckets, b.ok X := by
  obtain ⟨err, c, ram⟩ := st
  cases err with
  | some e => exact h
  | none =>
    rcases WriteCache.flush_step_any X c ram index with ⟨he, _⟩ | ⟨_, _, _, he⟩ |
      ⟨hi, hi2, _, hf, he⟩
    · rw [he]
      exact h
    · rw [he]
      exact h
    · rw [he]
      have := RamSort.write_buckets_ok X ram index (c.buckets.get ⟨index, hi⟩).data
        (c.buckets.get ⟨index, hi⟩).count h
      rw [RamSort.write_eq X ram index _ _ hf hi2] at this
      exact this

theorem WriteCache.flush_buckets_ok {T : Type} (X : Extern T) (c : WriteCache) (ram : RamSort)
    (h : ∀ b ∈ ram.buckets, b.ok X) : ∀ b ∈ (c.flush X ram).2.2.buckets, b.ok X := by
  have key : ∀ (l : List Nat) (st : Option Exn × WriteCache × RamSort),
      (∀ b ∈ st.2.2.buckets, b.ok X) →
      ∀ b ∈ (l.foldl (WriteCache.flush_step X) st).2.2.buckets, b.ok X := by
    intro l
    induction l with
    | nil => exact fun st hst => hst
    | cons i l ih =>
      intro st hst
      exact ih _ (WriteCache.flush_step_buckets_ok X st i hst)
  exact key _ (none, c, ram) h

theorem RamSort.read_bucket_keep {T : Type} (X : Extern T) (ram : RamSort) (task : Nat × Nat)
    (hk : ram.keep_files = true) : (ram.read_bucket X task).2.1 = ram := by
  simp only [RamSort.read_bucket, hk, Bool.true_eq_false, if_false]
  split
  · split <;> rfl
  · rfl

theorem RamSort.read_step_keep {T : Type} (X : Extern T)
    (st : Option Exn × RamSort × List (List T × Nat)) (task : Nat × Nat)
    (hk : st.2.1.keep_files = true) : (RamSort.read_step X st task).2.1 = st.2.1 := by
  obtain ⟨err, ram, output⟩ := st
  simp only at hk
  cases err with
  | some e => rfl
  | none =>
    have h1 := RamSort.read_bucket_keep X ram task hk
    simp only [RamSort.read_step]
    generalize ram.read_bucket X task = r at h1
    obtain ⟨err2, ram1, out⟩ := r
    simp only at h1
    subst h1
    cases err2 <;> rfl

theorem RamSort.read_keep {T : Type} (X : Extern T) (ram : RamSort)
    (hk : ram.keep_files = true) : (ram.read X).2.1 = ram := by
  have key : ∀ (l : List (Nat × Nat)) (st : Option Exn × RamSort × List (List T × Nat)),
      st.2.1.keep_files = true → (l.foldl (RamSort.read_step X) st).2.1 = st.2.1 := by
    intro l
    induction l with
    | nil => exact fun st _ => rfl
    | cons t l ih =>
      intro st hst
      have h1 := RamSort.read_step_keep X st t hst
      rw [List.foldl_cons, ih _ (by rw [h1]; exact hst), h1]
  exact key _ (none, ram, []) hk

theorem System.step_buckets_ok {T : Type} (X : Extern T) (s : System) (op : Op T)
    (h : ∀ b ∈ s.ram.buckets, b.ok X) : ∀ b ∈ (s.step X op).2.ram.buckets, b.ok X := by
  cases op with
  | add e =>
    have := WriteCache.add_buckets_ok X s.ram.cache s.ram e h
    simp only [System.step, RamSort.add]
    exact this
  | write index data count =>
    have := RamSort.write_buckets_ok X s.ram index data count h
    simp only [System.step]
    exact this
  | add_cache => exact h
  | cache_add j e =>
    simp only [System.step]
    split
    · rename_i hj
      exact WriteCache.add_buckets_ok X (s.fronts.get ⟨j, hj⟩) s.ram e h
    · exact h
  | cache_flush j =>
    simp only [System.step]
    split
    · rename_i hj
      exact WriteCache.flush_buckets_ok X (s.fronts.get ⟨j, hj⟩) s.ram h
    · exact h
  | finish =>
    have := WriteCache.flush_buckets_ok X s.ram.cache s.ram h
    simp only [System.step, RamSort.finish]
    generalize s.ram.cache.flush X s.ram = r at this
    obtain ⟨err, c1, ram1⟩ := r
    cases err <;> exact this

theorem System.call_buckets_ok {T : Type} (X : Extern T) (s : System) (call : Call T)
    (hcall : read_keeps s call) (h : ∀ b ∈ s.ram.buckets, b.ok X) :
    ∀ b ∈ (s.call X call).2.ram.buckets, b.ok X := by
  cases call with
  | build op => exact System.step_buckets_ok X s op h
  | set_keep_files enable => exact h
  | read =>
    have hk : s.ram.keep_files = true := hcall
    have := RamSort.read_keep X s.ram hk
    simp only [System.call]
    rw [this]
    exact h
  | close =>
    intro b hb
    simp [System.call, RamSort.close] at hb

/-- C13, as stated, fails: after `add(record)`, `finish()` and `read()` with `keep_files`
unset, bucket 0 has no buffer left while its `num_entries` is still 1, so the buffer has
length 0 and not `1 * disk_size = 2`. -/
theorem buffer_length_fails :
    Reached demo (fun _ _ => True) 8 2 released ∧
    released.ram.buckets.map (fun b => (b.bytes.length, b.num_entries * demo.disk_size)) =
      [(0, 2), (0, 0), (0, 0), (0, 0)] ∧
    ¬ ∀ b ∈ released.ram.buckets, b.bytes.length = b.num_entries * demo.disk_size := by
  refine ⟨?_, by decide, by decide⟩
  exact Reached.step _ Call.read
    (Reached.step _ (Call.build Op.finish)
      (Reached.step _ (Call.build (Op.add { key := 5, tag := 1 }))
        (Reached.init demo_engine demo_engine_new) trivial) trivial) trivial

/-- C13, amended: in every state reached from the constructor through `add`, `write`,
`add_cache()`, `add` and `flush` on the fronts, `finish()`, `set_keep_files`, `close()`, and
`read()` made while `keep_files` is set, every bucket's buffer has length exactly
`num_entries * disk_size`.  (A `read()` with `keep_files` unset releases the buffers and
leaves `num_entries` as it is.) -/
theorem buffer_length_invariant {T : Type} (X : Extern T) (key_size log_num_buckets : Int)
    (s : System) (h : Reached X read_keeps key_size log_num_buckets s) :
    ∀ b ∈ s.ram.buckets, b.bytes.length = b.num_entries * X.disk_size := by
  induction h with
  | init ram h =>
    rw [RamSort.new_eq] at h
    injection h with h
    subst h
    intro b hb
    simp only [List.mem_replicate] at hb
    rw [hb.2]
    simp [bucket_t.empty, bucket_t.bytes]
  | step s call _ hcall ih => exact System.call_buckets_ok X s call hcall ih

theorem buffer_length_invariant_witness :
    Reached demo read_keeps 8 2 retained ∧
    ∀ b ∈ retained.ram.buckets, b.bytes.length = b.num_entries * demo.disk_size :=
  ⟨Reached.step _ Call.read
      (Reached.step _ (Call.set_keep_files true)
        (Reached.step _ (Call.build Op.finish)
          (Reached.step _ (Call.build (Op.add { key := 5, tag := 1 }))
            (Reached.init demo_engine demo_engine_new) trivial) trivial) trivial) rfl,
    buffer_length_invariant demo 8 2 retained
      (Reached.step _ Call.read
        (Reached.step _ (Call.set_keep_files true)
          (Reached.step _ (Call.build Op.finish)
            (Reached.step _ (Call.build (Op.add { key := 5, tag := 1 }))
              (Reached.init demo_engine demo_engine_new) trivial) trivial) trivial)
        rfl)⟩

/-! ## `read` in any state -/

theorem RamSort.read_fold_error {T : Type} (X : Extern T) (e : Exn) (ram : RamSort)
    (output : List (List T × Nat)) (l : List (Nat × Nat)) :
    l.foldl (RamSort.read_step X) (some e, ram, output) = (some e, ram, output) := by
  induction l with
  | nil => rfl
  | cons t l ih =>
    rw [List.foldl_cons]
    exact ih

theorem RamSort.read_bucket_negative {T : Type} (X : Extern T) (ram : RamSort)
    (index : Nat × Nat) (hi : index.1 < ram.buckets.length)
    (hs : ram.bucket_key_shift - ram.log_num_buckets < 0) :
    ram.read_bucket X index = (some Exn.key_shift_negative, ram, []) := by
  simp only [RamSort.read_bucket, hi, dite_true, hs, if_true]

theorem RamSort.read_negative {T : Type} (X : Extern T) (ram : RamSort)
    (hne : ram.buckets ≠ []) (hs : ram.bucket_key_shift - ram.log_num_buckets < 0) :
    ram.read X = (some Exn.key_shift_negative, ram, []) := by
  simp only [RamSort.read]
  cases hb : ram.buckets with
  | nil => exact absurd hb hne
  | cons b bs =>
    have hi : (0, 0).1 < ram.buckets.length := by rw [hb]; simp
    have h1 := RamSort.read_bucket_negative X ram (0, 0) hi hs
    simp only [read_tasks, List.foldl_cons, RamSort.read_step, h1]
    exact RamSort.read_fold_error X _ ram [] _

theorem RamSort.read_no_buckets {T : Type} (X : Extern T) (ram : RamSort)
    (hb : ram.buckets = []) : ram.read X = (none, ram, []) := by
  simp only [RamSort.read, hb, read_tasks, List.foldl_nil]

theorem RamSort.read_total {T : Type} (X : Extern T) (ram : RamSort)
    (hok : (ram.read X).1 = none) :
    (ram.read X).2.1 =
      { ram with
        buckets := ram.buckets.map (fun b => if ram.keep_files = false then b.remove else b) } := by
  by_cases hs : 0 ≤ ram.bucket_key_shift - ram.log_num_buckets
  · rw [read_eq X ram hs]
  · by_cases hb : ram.buckets = []
    · rw [RamSort.read_no_buckets X ram hb]
      simp only [hb, List.map_nil]
      rw [← hb]
    · rw [RamSort.read_negative X ram hb (by omega)] at hok
      cases hok

theorem finished_engine_buckets_ok : ∀ b ∈ finished_engine.buckets, b.ok demo := by
  show ∀ b ∈ finished_engine.buckets, b.bytes.length = b.num_entries * demo.disk_size
  decide

/-- C14 (release versus retention during read): on an engine whose buckets each hold a buffer
of `num_entries * disk_size` bytes (as after `finish()`), `read()` completes whenever the
secondary shift is not negative, with `keep_files` set or not; when it completes with
`keep_files` unset, every bucket is left without a buffer (and otherwise as it was); when
it completes after `set_keep_files(true)`, every bucket, and so every buffer, is exactly as
it was before, still holding its `num_entries * disk_size` bytes. -/
theorem release_or_retention {T : Type} (X : Extern T) (ram : RamSort)
    (hr : ∀ b ∈ ram.buckets, b.ok X) :
    (0 ≤ ram.bucket_key_shift - ram.log_num_buckets →
      (ram.read X).1 = none ∧ ((ram.set_keep_files true).read X).1 = none) ∧
    ((ram.read X).1 = none → ram.keep_files = false →
      (ram.read X).2.1.buckets = ram.buckets.map bucket_t.remove ∧
      ∀ b ∈ (ram.read X).2.1.buckets, b.data = none) ∧
    (((ram.set_keep_files true).read X).1 = none →
      ((ram.set_keep_files true).read X).2.1.buckets = ram.buckets ∧
      (∀ j : Nat, ((((ram.set_keep_files true).read X).2.1.buckets[j]?).map bucket_t.bytes) =
        (ram.buckets[j]?).map bucket_t.bytes) ∧
      ∀ b ∈ ((ram.set_keep_files true).read X).2.1.buckets,
        b.bytes.length = b.num_entries * X.disk_size) := by
  have hkeep : ((ram.set_keep_files true).read X).2.1.buckets = ram.buckets := by
    rw [RamSort.read_keep X (ram.set_keep_files true) rfl]
    rfl
  refine ⟨?_, ?_, fun _ => ⟨hkeep, fun j => by rw [hkeep], fun b hb => hr b (hkeep ▸ hb)⟩⟩
  · intro hs
    refine ⟨by rw [read_eq X ram hs], ?_⟩
    rw [read_eq X (ram.set_keep_files true) hs]
  · intro hok hk
    have h1 : (ram.read X).2.1.buckets = ram.buckets.map bucket_t.remove := by
      rw [RamSort.read_total X ram hok]
      simp only [hk, if_true]
    refine ⟨h1, ?_⟩
    intro b hb
    rw [h1, List.mem_map] at hb
    obtain ⟨b0, _, rfl⟩ := hb
    rfl

theorem release_or_retention_witness :
    ((finished_engine.read demo).1 = none ∧
      ((finished_engine.set_keep_files true).read demo).1 = none) ∧
    ((finished_engine.read demo).2.1.buckets = finished_engine.buckets.map bucket_t.remove ∧
      ∀ b ∈ (finished_engine.read demo).2.1.buckets, b.data = none) ∧
    ((finished_engine.set_keep_files true).read demo).2.1.buckets = finished_engine.buckets :=
  have h := release_or_retention demo finished_engine finished_engine_buckets_ok
  ⟨h.1 (by decide), h.2.1 (h.1 (by decide)).1 rfl, (h.2.2 (h.1 (by decide)).2).1⟩

/-- C16 (close): `close()` returns without an exception in every state; afterwards the
engine holds no bucket, so `num_buckets()` is 0 and no bucket buffer is left; and a second
`close()` leaves the state of the first. -/
theorem close_is_idempotent {T : Type} (X : Extern T) (s : System) :
    (s.call X Call.close).1 = none ∧
    (s.call X Call.close).2.ram = s.ram.close ∧
    s.ram.close.num_buckets = 0 ∧ s.ram.close.buckets = [] ∧
    s.ram.close.close = s.ram.close ∧
    ((s.call X Call.close).2.call X Call.close).2 = (s.call X Call.close).2 :=
  ⟨rfl, rfl, rfl, rfl, rfl, rfl⟩

theorem close_is_idempotent_witness :
    (retained.call demo Call.close).1 = none ∧
    (retained.call demo Call.close).2.ram = retained.ram.close ∧
    retained.ram.close.num_buckets = 0 ∧ retained.ram.close.buckets = [] ∧
    retained.ram.close.close = retained.ram.close ∧
    ((retained.call demo Call.close).2.call demo Call.close).2 =
      (retained.call demo Call.close).2 :=
  close_is_idempotent demo retained

/-- C19 (negative secondary shift is fatal): on an engine built with
`(key_size, log_num_buckets)`, for every bucket index and start offset, `read_bucket` throws
"key_shift < 0" when `key_size - 2 * log_num_buckets < 0`, whatever the bucket holds, and
then emits no run and leaves the engine as it was, as does `read()`; when
`key_size - 2 * log_num_buckets ≥ 0` it throws nothing. -/
theorem negative_shift_is_fatal {T : Type} (X : Extern T) (key_size log_num_buckets : Int)
    (ram : RamSort) (index : Nat × Nat) (hconf : ram.Conf key_size log_num_buckets)
    (hi : index.1 < ram.num_buckets) :
    (key_size - 2 * log_num_buckets < 0 →
      ram.read_bucket X index = (some Exn.key_shift_negative, ram, []) ∧
      ram.read X = (some Exn.key_shift_negative, ram, [])) ∧
    (0 ≤ key_size - 2 * log_num_buckets → (ram.read_bucket X index).1 = none) := by
  have hi2 : index.1 < ram.buckets.length := hi
  refine ⟨?_, ?_⟩
  · intro hs
    have hs2 : ram.bucket_key_shift - ram.log_num_buckets < 0 := by
      rw [hconf.bucket_key_shift, hconf.log_num_buckets]
      omega
    refine ⟨RamSort.read_bucket_negative X ram index hi2 hs2, ?_⟩
    apply RamSort.read_negative X ram _ hs2
    intro hb
    rw [hb] at hi2
    simp at hi2
  · intro hs
    have hs2 : 0 ≤ ram.bucket_key_shift - ram.log_num_buckets := by
      rw [hconf.bucket_key_shift, hconf.log_num_buckets]
      omega
    rw [read_bucket_eq X ram index.1 index.2 hi2 hs2]

theorem negative_shift_is_fatal_witness :
    ((3 : Int) - 2 * 2 < 0 →
      narrow_engine.read_bucket demo (1, 0) = (some Exn.key_shift_negative, narrow_engine, []) ∧
      narrow_engine.read demo = (some Exn.key_shift_negative, narrow_engine, [])) ∧
    (0 ≤ (3 : Int) - 2 * 2 → (narrow_engine.read_bucket demo (1, 0)).1 = none) :=
  negative_shift_is_fatal demo 3 2 narrow_engine (1, 0) ⟨rfl, rfl, rfl, rfl⟩ (by decide)

/-! ## A sequence of `add` calls on one front -/

theorem WriteCache.add_all_spec {T : Type} {X : Extern T} (hX : X.Lawful) (records : List T) :
    ∀ (c : WriteCache) (ram : RamSort), c.ok X ram → ram.ok X → ram.is_finished = false →
      (∀ r ∈ records, shr (X.key r) c.key_shift < c.buckets.length) →
      (c.add_all X ram records).1 = none ∧
      (c.add_all X ram records).2.1.ok X (c.add_all X ram records).2.2 ∧
      (c.add_all X ram records).2.2.ok X ∧
      (c.add_all X ram records).2.2.is_finished = false ∧
      ∀ j, content X (c.add_all X ram records).2.2 (c.add_all X ram records).2.1 j =
        content X ram c j ++ records.filter (fun r => shr (X.key r) c.key_shift = j) := by
  classical
  induction records with
  | nil =>
    intro c ram hc hr hf _
    exact ⟨rfl, hc, hr, hf, fun j => by simp [WriteCache.add_all]⟩
  | cons e es ih =>
    intro c ram hc hr hf hall
    have hin : shr (X.key e) c.key_shift < c.buckets.length := hall e (List.mem_cons_self _ _)
    obtain ⟨hfr, hlen, hks, _, _, hsucc⟩ := WriteCache.add_shape X c ram e hc.length
    have hnone := hsucc hf hin
    obtain ⟨hc1, hr1, _⟩ := WriteCache.add_ok hX c ram e hc hr
    have hcont := WriteCache.add_content hX c ram e hc hr hnone
    have hf1 : (c.add X ram e).2.2.is_finished = false := by
      rw [hfr.1]
      exact hf
    generalize hres : c.add X ram e = res at hnone hc1 hr1 hcont hf1 hlen hks
    obtain ⟨err, c1, ram1⟩ := res
    simp only at hnone hc1 hr1 hcont hf1 hlen hks
    subst hnone
    have hall1 : ∀ r ∈ es, shr (X.key r) c1.key_shift < c1.buckets.length := by
      intro r hr
      rw [hks, hlen]
      exact hall r (List.mem_cons_of_mem _ hr)
    obtain ⟨i1, i2, i3, i4, i5⟩ := ih c1 ram1 hc1 hr1 hf1 hall1
    have hstep : c.add_all X ram (e :: es) = c1.add_all X ram1 es := by
      simp only [WriteCache.add_all, hres]
    rw [hstep]
    refine ⟨i1, i2, i3, i4, ?_⟩
    intro j
    rw [i5 j, hcont j, hks, List.append_assoc]
    congr 1
    by_cases hj : j = shr (X.key e) c.key_shift
    · subst hj
      simp
    · have hj2 : ¬ shr (X.key e) c.key_shift = j := fun h => hj h.symm
      simp [hj, hj2]

/-- C17 (staging discipline of `WriteCache::add`): on a front of an engine in its build
phase, for a record whose bucket index is in range and whose staging buffer is `buffer`:
when `buffer` is at capacity, `add` makes the one call
`ram->write(index, buffer.data, capacity)`, which appends the `capacity` pending records to
the bucket, and then stages the record in the emptied buffer (count 1); when `buffer` is
below capacity, `add` leaves the engine alone and stages the record (count + 1).  After an
`add`, after a sequence of `add` calls and after a `flush`, every staging count is at most
the capacity; and after a sequence of `add` calls bucket `j` followed by its staging buffer
holds what it held before followed by the added records of index `j` in the order of the
calls, all of which a `flush` leaves stored in bucket `j` in that order. -/
theorem staging_discipline {T : Type} {X : Extern T} (hX : X.Lawful) (c : WriteCache)
    (ram : RamSort) (hc : c.ok X ram) (hr : ram.ok X) (hf : ram.is_finished = false)
    (e : T) (buffer : write_buffer_t)
    (hb : c.buckets[shr (X.key e) c.key_shift]? = some buffer) (records : List T)
    (hall : ∀ r ∈ records, shr (X.key r) c.key_shift < c.buckets.length) :
    (buffer.count = X.capacity →
      (ram.write X (shr (X.key e) c.key_shift) buffer.data X.capacity).1 = none ∧
      c.add X ram e =
        (none,
          { c with
            buckets := c.buckets.set (shr (X.key e) c.key_shift) (buffer.reset.push X e) },
          (ram.write X (shr (X.key e) c.key_shift) buffer.data X.capacity).2) ∧
      (buffer.pending X).length = X.capacity ∧
      (((c.add X ram e).2.2.buckets[shr (X.key e) c.key_shift]?).map
          (bucket_t.entries X)).getD [] =
        ((ram.buckets[shr (X.key e) c.key_shift]?).map (bucket_t.entries X)).getD [] ++
          buffer.pending X ∧
      (buffer.reset.push X e).count = 1 ∧ (buffer.reset.push X e).pending X = [e]) ∧
    (buffer.count < X.capacity →
      c.add X ram e =
        (none,
          { c with buckets := c.buckets.set (shr (X.key e) c.key_shift) (buffer.push X e) },
          ram) ∧
      (buffer.push X e).count = buffer.count + 1 ∧
      (buffer.push X e).pending X = buffer.pending X ++ [e]) ∧
    (∀ staging ∈ (c.add X ram e).2.1.buckets, staging.count ≤ X.capacity) ∧
    (∀ staging ∈ (c.add_all X ram records).2.1.buckets, staging.count ≤ X.capacity) ∧
    (∀ staging ∈ (c.flush X ram).2.1.buckets, staging.count ≤ X.capacity) ∧
    (c.add_all X ram records).1 = none ∧
    (∀ j, content X (c.add_all X ram records).2.2 (c.add_all X ram records).2.1 j =
      content X ram c j ++ records.filter (fun r => shr (X.key r) c.key_shift = j)) ∧
    ((c.add_all X ram records).2.1.flush X (c.add_all X ram records).2.2).1 = none ∧
    ∀ j, ((((c.add_all X ram records).2.1.flush X (c.add_all X ram records).2.2).2.2.buckets[j]?).map
        (bucket_t.entries X)).getD [] =
      content X ram c j ++ records.filter (fun r => shr (X.key r) c.key_shift = j) := by
  classical
  obtain ⟨hin, hget⟩ : ∃ h : shr (X.key e) c.key_shift < c.buckets.length,
      c.buckets.get ⟨shr (X.key e) c.key_shift, h⟩ = buffer := by
    rw [List.getElem?_eq_some_iff] at hb
    obtain ⟨h, h2⟩ := hb
    exact ⟨h, h2⟩
  have hin2 : shr (X.key e) c.key_shift < ram.buckets.length := hc.length ▸ hin
  have hbok : buffer.ok X := hc.buffers buffer (hget ▸ List.get_mem _ _ _)
  have hcases := WriteCache.add_cases X c ram e hc.length
  obtain ⟨a1, a2, a3, a4, a5⟩ := WriteCache.add_all_spec hX records c ram hc hr hf hall
  obtain ⟨f1, f2⟩ := WriteCache.flush_entries (c.add_all X ram records).2.1
    (c.add_all X ram records).2.2 a2 a3 a4
  refine ⟨?_, ?_, ?_, ?_, ?_, a1, a5, f1, ?_⟩
  · intro hcap
    have hw := RamSort.write_eq X ram (shr (X.key e) c.key_shift) buffer.data X.capacity hf hin2
    rcases hcases with ⟨h, _⟩ | ⟨_, _, h, _⟩ | ⟨_, _, _, _, h⟩ | ⟨_, h, _⟩
    · omega
    · rw [hf] at h
      cases h
    · have hw2 := congrArg Prod.snd hw
      simp only at hw2
      rw [hget, hcap, ← hw2] at h
      have hbk : (ram.buckets.get ⟨shr (X.key e) c.key_shift, hin2⟩).ok X :=
        hr.buckets _ (List.get_mem _ _ _)
      have hd : X.capacity * X.disk_size ≤ buffer.data.length := by rw [hbok.1]
      refine ⟨by rw [hw], h, ?_, ?_, rfl, ?_⟩
      · rw [write_buffer_t.pending, decode_length, hcap]
      · rw [h]
        simp only [hw, List.getElem?_set_self hin2, Option.map_some, Option.getD_some,
          List.getElem?_eq_getElem hin2]
        show (bucket_t.write X (ram.buckets.get ⟨shr (X.key e) c.key_shift, hin2⟩) buffer.data
            X.capacity).entries X =
          (ram.buckets.get ⟨shr (X.key e) c.key_shift, hin2⟩).entries X ++ buffer.pending X
        rw [bucket_write_entries X _ buffer.data X.capacity hbk hd, write_buffer_t.pending, hcap]
      · have h0 : buffer.reset.pending X = [] := by
          simp [write_buffer_t.pending, write_buffer_t.reset, decode]
        have := push_pending hX buffer.reset e hbok.1 hX.capacity_pos
        rw [this, h0]
        rfl
    · rw [hget] at h
      omega
  · intro hlt
    rcases hcases with ⟨h, _⟩ | ⟨_, _, h, _⟩ | ⟨_, _, h, _⟩ | ⟨_, _, h⟩
    · omega
    · rw [hf] at h
      cases h
    · rw [hget] at h
      omega
    · rw [hget] at h
      exact ⟨h, rfl, push_pending hX buffer e hbok.1 hlt⟩
  · intro staging hs
    exact ((WriteCache.add_ok hX c ram e hc hr).1.buffers staging hs).2
  · intro staging hs
    exact (a2.buffers staging hs).2
  · intro staging hs
    exact ((WriteCache.flush_ok c ram hc hr).1.buffers staging hs).2
  · intro j
    rw [f2 j, a5 j]

theorem staging_discipline_witness :
    full_buffer.count = demo.capacity ∧
    (((full_front.1.add demo full_front.2 { key := 1, tag := 3 }).2.2.buckets[shr
        (demo.key { key := 1, tag := 3 }) full_front.1.key_shift]?).map
        (bucket_t.entries demo)).getD [] =
      ((full_front.2.buckets[shr (demo.key { key := 1, tag := 3 })
        full_front.1.key_shift]?).map (bucket_t.entries demo)).getD [] ++
        full_buffer.pending demo ∧
    (full_buffer.reset.push demo { key := 1, tag := 3 }).count = 1 ∧
    (full_front.1.add_all demo full_front.2 ten_records).1 = none :=
  have hs := WriteCache.add_all_spec demo_lawful
    [{ key := 5, tag := 1 }, { key := 7, tag := 2 }] demo_engine.cache demo_engine
    demo_engine_inv.cache demo_engine_inv.ram rfl (by decide)
  have h := staging_discipline demo_lawful full_front.1 full_front.2 hs.2.1 hs.2.2.1 rfl
    { key := 1, tag := 3 } full_buffer rfl ten_records (by decide)
  ⟨rfl, (h.1 rfl).2.2.2.1, (h.1 rfl).2.2.2.2.1, h.2.2.2.2.2.1⟩

/-! ## The blocks of `read_bucket` -/

theorem table_push_absent {T : Type} (table : List (Nat × List T)) (k : Nat) (e : T)
    (hk : k ∉ table.map Prod.fst) : table_push table k e = table ++ [(k, [e])] := by
  induction table with
  | nil => rfl
  | cons p rest ih =>
    obtain ⟨k1, block⟩ := p
    simp only [List.map_cons, List.mem_cons, not_or] at hk
    have h1 : ¬ k1 = k := fun h => hk.1 h.symm
    simp only [table_push, h1, if_false, List.cons_append, ih hk.2]

theorem table_push_present {T : Type} (table : List (Nat × List T)) (k : Nat) (e : T)
    (hn : (table.map Prod.fst).Nodup) (hk : k ∈ table.map Prod.fst) :
    table_push table k e =
      table.map (fun p => if p.1 = k then (p.1, p.2 ++ [e]) else p) := by
  induction table with
  | nil => simp at hk
  | cons p rest ih =>
    obtain ⟨k1, block⟩ := p
    simp only [List.map_cons, List.nodup_cons] at hn
    by_cases h1 : k1 = k
    · subst h1
      simp only [table_push, if_true, List.map_cons]
      congr 1
      have hid : rest.map (fun p => if p.1 = k1 then (p.1, p.2 ++ [e]) else p) = rest.map id := by
        apply List.map_congr_left
        intro p hp
        have hne : ¬ p.1 = k1 := fun h => hn.1 (h ▸ List.mem_map_of_mem Prod.fst hp)
        simp only [hne, if_false, id]
      rw [hid, List.map_id]
    · simp only [List.map_cons, List.mem_cons] at hk
      have hk2 : k ∈ rest.map Prod.fst := by
        rcases hk with h | h
        · exact absurd h.symm h1
        · exact h
      simp only [table_push, h1, if_false, List.map_cons, ih hn.2 hk2]

theorem table_push_filter {T : Type} (f : T → Nat) (es : List T) (table : List (Nat × List T))
    (e : T) (hn : (table.map Prod.fst).Nodup)
    (hk : ∀ k, k ∈ table.map Prod.fst ↔ ∃ x ∈ es, f x = k)
    (hb : ∀ p ∈ table, p.2 = es.filter (fun x => f x = p.1)) :
    ((table_push table (f e) e).map Prod.fst).Nodup ∧
    (∀ k, k ∈ (table_push table (f e) e).map Prod.fst ↔ ∃ x ∈ es ++ [e], f x = k) ∧
    ∀ p ∈ table_push table (f e) e, p.2 = (es ++ [e]).filter (fun x => f x = p.1) := by
  have hkeys := table_push_keys table (f e) e
  have hmem : ∀ k, k ∈ (table_push table (f e) e).map Prod.fst ↔ ∃ x ∈ es ++ [e], f x = k := by
    intro k
    rw [hkeys]
    constructor
    · intro h
      split at h
      · obtain ⟨x, hx, hfx⟩ := (hk k).mp h
        exact ⟨x, List.mem_append_left _ hx, hfx⟩
      · rcases List.mem_append.mp h with h | h
        · obtain ⟨x, hx, hfx⟩ := (hk k).mp h
          exact ⟨x, List.mem_append_left _ hx, hfx⟩
        · exact ⟨e, by simp, (List.mem_singleton.mp h).symm⟩
    · rintro ⟨x, hx, hfx⟩
      rcases List.mem_append.mp hx with hx | hx
      · have := (hk k).mpr ⟨x, hx, hfx⟩
        split
        · exact this
        · exact List.mem_append_left _ this
      · have hxe : x = e := List.mem_singleton.mp hx
        subst hxe
        subst hfx
        split
        · assumption
        · simp
  by_cases hin : f e ∈ table.map Prod.fst
  · refine ⟨by rw [hkeys, if_pos hin]; exact hn, hmem, ?_⟩
    rw [table_push_present table (f e) e hn hin]
    intro p hp
    obtain ⟨q, hq, rfl⟩ := List.mem_map.mp hp
    by_cases h1 : q.1 = f e
    · simp only [h1, if_true, List.filter_append]
      rw [hb q hq, h1]
      simp
    · have h2 : ¬ f e = q.1 := fun h => h1 h.symm
      simp only [h1, if_false, List.filter_append]
      rw [hb q hq]
      simp [h2]
  · refine ⟨?_, hmem, ?_⟩
    · rw [hkeys, if_neg hin]
      refine List.Nodup.append hn (List.nodup_singleton _) ?_
      intro a ha ha2
      rw [List.mem_singleton] at ha2
      exact hin (ha2 ▸ ha)
    · rw [table_push_absent table (f e) e hin]
      intro p hp
      rcases List.mem_append.mp hp with hp | hp
      · have h2 : ¬ f e = p.1 := fun h => hin (h ▸ List.mem_map_of_mem Prod.fst hp)
        rw [hb p hp, List.filter_append]
        simp [h2]
      · have hpe : p = (f e, [e]) := List.mem_singleton.mp hp
        subst hpe
        have hnil : es.filter (fun x => f x = f e) = [] := by
          rw [List.filter_eq_nil_iff]
          intro x hx
          have : ¬ f x = f e := fun h => hin ((hk (f e)).mpr ⟨x, hx, h⟩)
          simpa using this
        rw [List.filter_append, hnil]
        simp

theorem foldl_table_filter {T : Type} (f : T → Nat) (es2 : List T) :
    ∀ (es1 : List T) (table : List (Nat × List T)), (table.map Prod.fst).Nodup →
      (∀ k, k ∈ table.map Prod.fst ↔ ∃ x ∈ es1, f x = k) →
      (∀ p ∈ table, p.2 = es1.filter (fun x => f x = p.1)) →
      ((es2.foldl (fun t e => table_push t (f e) e) table).map Prod.fst).Nodup ∧
      (∀ k, k ∈ (es2.foldl (fun t e => table_push t (f e) e) table).map Prod.fst ↔
        ∃ x ∈ es1 ++ es2, f x = k) ∧
      ∀ p ∈ es2.foldl (fun t e => table_push t (f e) e) table,
        p.2 = (es1 ++ es2).filter (fun x => f x = p.1) := by
  induction es2 with
  | nil =>
    intro es1 table hn hk hb
    simp only [List.foldl_nil, List.append_nil]
    exact ⟨hn, hk, hb⟩
  | cons e es2 ih =>
    intro es1 table hn hk hb
    obtain ⟨s1, s2, s3⟩ := table_push_filter f es1 table e hn hk hb
    have := ih (es1 ++ [e]) (table_push table (f e) e) s1 s2 s3
    simpa only [List.foldl_cons, List.append_assoc, List.singleton_append] using this

theorem bucket_runs_blocks {T : Type} (X : Extern T) (key_shift : Int) (b : bucket_t)
    (offset : Nat) :
    ∃ ids : List Nat, ids.Pairwise (· < ·) ∧
      (∀ k, k ∈ ids ↔ ∃ r ∈ b.entries X, shr (X.key r) key_shift = k) ∧
      (bucket_runs X key_shift b offset).map Prod.fst =
        ids.map (fun k => (b.entries X).filter (fun r => shr (X.key r) key_shift = k)) := by
  have hfold := foldl_table_filter (fun r => shr (X.key r) key_shift) (b.entries X) []
    [] (by simp) (by simp) (by simp)
  simp only [List.nil_append] at hfold
  have htab : read_table X key_shift b.bytes b.num_entries =
      (b.entries X).foldl (fun t e => table_push t (shr (X.key e) key_shift) e) [] :=
    read_table_eq X key_shift b.bytes b.num_entries
  rw [← htab] at hfold
  obtain ⟨t1, t2, t3⟩ := hfold
  have hperm := sort_table_perm _ t1
  refine ⟨(sort_table (read_table X key_shift b.bytes b.num_entries)).map Prod.fst,
    sort_table_sorted _ t1, ?_, ?_⟩
  · intro k
    rw [← t2 k]
    exact (hperm.map Prod.fst).mem_iff
  · rw [bucket_runs, emit_blocks_fst, List.map_map]
    apply List.map_congr_left
    intro p hp
    exact t3 p (hperm.mem_iff.mp hp)

theorem read_tasks_get (bs : List bucket_t) :
    ∀ (i offset j : Nat), j < bs.length →
      (read_tasks bs i offset)[j]? =
        some (i + j, offset + ((bs.take j).map bucket_t.num_entries).sum) := by
  induction bs with
  | nil =>
    intro i offset j hj
    simp at hj
  | cons b bs ih =>
    intro i offset j hj
    cases j with
    | zero => simp [read_tasks]
    | succ j =>
      have hj2 : j < bs.length := by simpa using hj
      simp only [read_tasks, List.getElem?_cons_succ, ih (i + 1) (offset + b.num_entries) j hj2,
        List.take_succ_cons, List.map_cons, List.sum_cons]
      congr 2
      · omega
      · omega

theorem flatMap_congr_mem {α β : Type} (l : List α) (f g : α → List β)
    (h : ∀ a ∈ l, f a = g a) : l.flatMap f = l.flatMap g := by
  induction l with
  | nil => rfl
  | cons a l ih =>
    simp only [List.flatMap_cons]
    rw [h a (List.mem_cons_self _ _), ih (fun x hx => h x (List.mem_cons_of_mem _ hx))]

theorem read_out_flatMap {T : Type} (X : Extern T) (key_shift : Int) (bs : List bucket_t) :
    ∀ offset : Nat,
      read_out X key_shift bs offset =
        (List.range bs.length).flatMap (fun j =>
          ((bs[j]?).map (fun b =>
            sort_runs X (bucket_runs X key_shift b
              (offset + ((bs.take j).map bucket_t.num_entries).sum)))).getD []) := by
  induction bs with
  | nil =>
    intro offset
    rfl
  | cons b bs ih =>
    intro offset
    rw [read_out, ih (offset + b.num_entries), List.length_cons, List.range_succ_eq_map,
      List.flatMap_cons, List.flatMap_map]
    congr 1
    · simp
    · apply flatMap_congr_mem
      intro j _
      simp only [Function.comp, List.getElem?_cons_succ, List.take_succ_cons, List.map_cons,
        List.sum_cons, Nat.add_assoc]

theorem read_eq_read_buckets {T : Type} (X : Extern T) (ram : RamSort)
    (hs : 0 ≤ ram.bucket_key_shift - ram.log_num_buckets) :
    (ram.read X).2.2 =
      (List.range ram.buckets.length).flatMap (fun j =>
        sort_runs X
          (ram.read_bucket X (j, ((ram.buckets.take j).map bucket_t.num_entries).sum)).2.2) := by
  rw [read_eq X ram hs]
  show read_out X (ram.bucket_key_shift - ram.log_num_buckets) ram.buckets 0 = _
  rw [read_out_flatMap]
  apply flatMap_congr_mem
  intro j hj
  have hj2 : j < ram.buckets.length := List.mem_range.mp hj
  rw [read_bucket_eq X ram j _ hj2 hs, List.getElem?_eq_getElem hj2]
  simp only [Option.map_some', Option.getD_some, Nat.zero_add]
  rfl

/-- C18 (re-bucketing of one bucket): on an engine built with `(key_size, log_num_buckets)`
where `key_size - 2 * log_num_buckets ≥ 0` and every bucket holds a buffer of
`num_entries * disk_size` bytes, for every bucket `b` and start offset `s`,
`read_bucket((b, s))` returns without exception a list of runs such that, for a strictly
ascending list `ids` of exactly the sub-bucket ids `key >> (key_size - 2 * log_num_buckets)`
occurring in the bucket, the runs are, in the order of `ids`, the bucket's records with
that id in their stored order; the first run has offset `s`, no run is empty and each later
run starts where the one before it ends, the last one ending at `s + num_entries`, so that
the runs account for every byte of the buffer; and `read()` returns without exception what
`read_bucket((j, s))` returns for bucket `j = 0, 1, ...` in turn, each run sorted, with `s`
the sum of `num_entries` of the buckets with an index below `j`. -/
theorem rebucketing {T : Type} (X : Extern T) (key_size log_num_buckets : Int) (ram : RamSort)
    (hconf : ram.Conf key_size log_num_buckets) (hs : 0 ≤ key_size - 2 * log_num_buckets)
    (hr : ∀ bucket ∈ ram.buckets, bucket.ok X)
    (b s : Nat) (bucket : bucket_t) (hb : ram.buckets[b]? = some bucket) :
    (ram.read_bucket X (b, s)).1 = none ∧
    (∃ ids : List Nat, ids.Pairwise (· < ·) ∧
      (∀ k, k ∈ ids ↔
        ∃ r ∈ bucket.entries X, shr (X.key r) (key_size - 2 * log_num_buckets) = k) ∧
      (ram.read_bucket X (b, s)).2.2.map Prod.fst =
        ids.map (fun k =>
          (bucket.entries X).filter
            (fun r => shr (X.key r) (key_size - 2 * log_num_buckets) = k))) ∧
    Chain (ram.read_bucket X (b, s)).2.2 s (s + bucket.num_entries) ∧
    (concat_runs (ram.read_bucket X (b, s)).2.2).length * X.disk_size = bucket.bytes.length ∧
    (ram.read X).1 = none ∧
    (ram.read X).2.2 =
      (List.range ram.num_buckets).flatMap (fun j =>
        sort_runs X
          (ram.read_bucket X (j, ((ram.buckets.take j).map bucket_t.num_entries).sum)).2.2) ∧
    (read_tasks ram.buckets 0 0)[b]? =
      some (b, ((ram.buckets.take b).map bucket_t.num_entries).sum) := by
  obtain ⟨hin, hget⟩ : ∃ h : b < ram.buckets.length, ram.buckets.get ⟨b, h⟩ = bucket := by
    rw [List.getElem?_eq_some_iff] at hb
    obtain ⟨h, h2⟩ := hb
    exact ⟨h, h2⟩
  have hbok : bucket.ok X := hr bucket (hget ▸ List.get_mem _ _ _)
  have hshift : ram.bucket_key_shift - ram.log_num_buckets = key_size - 2 * log_num_buckets := by
    rw [hconf.bucket_key_shift, hconf.log_num_buckets]
    omega
  have hs2 : 0 ≤ ram.bucket_key_shift - ram.log_num_buckets := by
    rw [hshift]
    exact hs
  have hread := read_eq_read_buckets X ram hs2
  have hnone : (ram.read X).1 = none := by rw [read_eq X ram hs2]
  have hrb := read_bucket_eq X ram b s hin hs2
  rw [hget, hshift] at hrb
  rw [hrb]
  have hchain := bucket_runs_chain X (key_size - 2 * log_num_buckets) bucket s
  refine ⟨rfl, bucket_runs_blocks X _ bucket s, hchain, ?_, hnone, hread, ?_⟩
  · have hlen := hchain.length_concat
    have : (concat_runs (bucket_runs X (key_size - 2 * log_num_buckets) bucket s)).length =
        bucket.num_entries := by omega
    show (concat_runs (bucket_runs X (key_size - 2 * log_num_buckets) bucket s)).length *
      X.disk_size = bucket.bytes.length
    rw [this]
    exact hbok.symm
  · have := read_tasks_get ram.buckets 0 0 b hin
    simpa using this

theorem ten_engine_buckets_ok : ∀ b ∈ ten_engine.buckets, b.ok demo := by
  show ∀ b ∈ ten_engine.buckets, b.bytes.length = b.num_entries * demo.disk_size
  decide

theorem rebucketing_witness :
    (ten_engine.read_bucket demo (0, 0)).1 = none ∧
    (∃ ids : List Nat, ids.Pairwise (· < ·) ∧
      (∀ k, k ∈ ids ↔
        ∃ r ∈ (ten_engine.buckets.getD 0 bucket_t.empty).entries demo,
          shr (demo.key r) (8 - 2 * 2) = k) ∧
      (ten_engine.read_bucket demo (0, 0)).2.2.map Prod.fst =
        ids.map (fun k =>
          ((ten_engine.buckets.getD 0 bucket_t.empty).entries demo).filter
            (fun r => shr (demo.key r) (8 - 2 * 2) = k))) ∧
    Chain (ten_engine.read_bucket demo (0, 0)).2.2 0
      (0 + (ten_engine.buckets.getD 0 bucket_t.empty).num_entries) ∧
    (ten_engine.read demo).1 = none ∧
    (ten_engine.read demo).2.2 =
      (List.range ten_engine.num_buckets).flatMap (fun j =>
        sort_runs demo
          (ten_engine.read_bucket demo
            (j, ((ten_engine.buckets.take j).map bucket_t.num_entries).sum)).2.2) :=
  have h := rebucketing demo 8 2 ten_engine ⟨rfl, rfl, rfl, rfl⟩ (by decide)
    ten_engine_buckets_ok 0 0 (ten_engine.buckets.getD 0 bucket_t.empty) rfl
  ⟨h.1, h.2.1, h.2.2.1, h.2.2.2.2.1, h.2.2.2.2.2.1⟩

/-! ## Counting the runs of `read` -/

theorem sub_pairs_fst {T : Type} (X : Extern T) (key_shift : Int) (bs : List bucket_t) :
    ∀ (i : Nat), ∀ p ∈ sub_pairs X key_shift bs i, i ≤ p.1 := by
  induction bs with
  | nil =>
    intro i p hp
    simp [sub_pairs] at hp
  | cons b bs ih =>
    intro i p hp
    simp only [sub_pairs, List.mem_append, List.mem_map] at hp
    rcases hp with ⟨e, _, rfl⟩ | hp
    · exact Nat.le_refl _
    · exact Nat.le_of_succ_le (ih (i + 1) p hp)

theorem bucket_runs_length {T : Type} (X : Extern T) (key_shift : Int) (b : bucket_t)
    (offset i : Nat) :
    (bucket_runs X key_shift b offset).length =
      ((b.entries X).map (fun e => (i, shr (X.key e) key_shift))).toFinset.card := by
  obtain ⟨ids, h1, h2, h3⟩ := bucket_runs_blocks X key_shift b offset
  have hlen : (bucket_runs X key_shift b offset).length = ids.length := by
    have := congrArg List.length h3
    simpa using this
  have hnd : ids.Nodup := h1.imp (fun h => Nat.ne_of_lt h)
  have himg : ((b.entries X).map (fun e => (i, shr (X.key e) key_shift))).toFinset =
      ids.toFinset.image (fun k => (i, k)) := by
    ext p
    simp only [List.mem_toFinset, List.mem_map, Finset.mem_image]
    constructor
    · rintro ⟨e, he, rfl⟩
      exact ⟨shr (X.key e) key_shift, (h2 _).mpr ⟨e, he, rfl⟩, rfl⟩
    · rintro ⟨k, hk, rfl⟩
      obtain ⟨e, he, hek⟩ := (h2 k).mp hk
      exact ⟨e, he, by rw [hek]⟩
  rw [hlen, himg, Finset.card_image_of_injective _ (fun a b h => (Prod.mk.inj h).2),
    List.toFinset_card_of_nodup hnd]

theorem read_out_length {T : Type} (X : Extern T) (key_shift : Int) (bs : List bucket_t) :
    ∀ (offset i : Nat),
      (read_out X key_shift bs offset).length = (sub_pairs X key_shift bs i).dedup.length := by
  induction bs with
  | nil =>
    intro offset i
    simp [read_out, sub_pairs]
  | cons b bs ih =>
    intro offset i
    rw [← List.card_toFinset]
    simp only [read_out, sub_pairs, List.length_append, sort_runs, List.length_map,
      List.toFinset_append]
    rw [Finset.card_union_of_disjoint, ih (offset + b.num_entries) (i + 1),
      ← List.card_toFinset, bucket_runs_length X key_shift b offset i]
    rw [Finset.disjoint_left]
    intro p hp hq
    rw [List.mem_toFinset] at hp hq
    obtain ⟨e, _, rfl⟩ := List.mem_map.mp hp
    have := sub_pairs_fst X key_shift bs (i + 1) _ hq
    simp at this

theorem Chain.eq_nil {T : Type} {runs : List (List T × Nat)} {a : Nat} (h : Chain runs a a) :
    runs = [] := by
  cases runs with
  | nil => rfl
  | cons r rs =>
    obtain ⟨_, h2, h3⟩ := h
    have := h3.le
    have hpos : 0 < r.1.length := List.length_pos.mpr h2
    omega

theorem sum_bytes_length {T : Type} (X : Extern T) (bs : List bucket_t)
    (h : ∀ b ∈ bs, b.ok X) :
    (bs.map (fun b => b.bytes.length)).sum = (bs.map bucket_t.num_entries).sum * X.disk_size := by
  induction bs with
  | nil => simp
  | cons b bs ih =>
    have hb : b.bytes.length = b.num_entries * X.disk_size := h b (List.mem_cons_self _ _)
    simp only [List.map_cons, List.sum_cons, ih (fun x hx => h x (List.mem_cons_of_mem _ hx)),
      hb, Nat.add_mul]

/-- C20 (no empty runs): on an engine built with `(key_size, log_num_buckets)` where
`key_size - 2 * log_num_buckets ≥ 0` and every bucket holds a buffer of
`num_entries * disk_size` bytes (as after `finish()`), `read()` returns without exception,
every run it emits holds at least one record, the runs hold one record for every
`disk_size` bytes stored, the number of runs is the number of distinct pairs
(bucket index, sub-bucket id) among the stored records, and no stored record means no run;
in particular, for `log_num_buckets` from 0 to 30, an engine to which nothing was added
emits no run on `finish()` and `read()` and no call throws. -/
theorem no_empty_runs {T : Type} {X : Extern T} (hX : X.Lawful) (key_size log_num_buckets : Int)
    (ram : RamSort) (hconf : ram.Conf key_size log_num_buckets)
    (hs : 0 ≤ key_size - 2 * log_num_buckets) (hr : ∀ b ∈ ram.buckets, b.ok X) :
    (ram.read X).1 = none ∧
    (∀ run ∈ (ram.read X).2.2, run.1 ≠ []) ∧
    (concat_runs (ram.read X).2.2).length * X.disk_size =
      (ram.buckets.map (fun b => b.bytes.length)).sum ∧
    (ram.read X).2.2.length =
      (sub_pairs X (key_size - 2 * log_num_buckets) ram.buckets 0).dedup.length ∧
    (ram.stored X = [] → (ram.read X).2.2 = []) ∧
    (0 ≤ log_num_buckets → log_num_buckets ≤ 30 →
      sort_all X key_size log_num_buckets [] = some []) := by
  have hshift : ram.bucket_key_shift - ram.log_num_buckets = key_size - 2 * log_num_buckets := by
    rw [hconf.bucket_key_shift, hconf.log_num_buckets]
    omega
  have hs2 : 0 ≤ ram.bucket_key_shift - ram.log_num_buckets := by
    rw [hshift]
    exact hs
  have hread := read_eq X ram hs2
  rw [hshift] at hread
  have hchain := read_out_chain hX (key_size - 2 * log_num_buckets) ram.buckets 0
  rw [hread]
  refine ⟨rfl, ?_, ?_, read_out_length X _ ram.buckets 0 0, ?_, ?_⟩
  · intro run hrun
    have := hchain.bounds run hrun
    intro hnil
    rw [hnil] at this
    simp at this
  · have hlen := hchain.length_concat
    rw [sum_bytes_length X ram.buckets hr]
    show (concat_runs (read_out X (key_size - 2 * log_num_buckets) ram.buckets 0)).length *
      X.disk_size = _
    congr 1
    omega
  · intro hst
    have hlen := stored_length X ram
    rw [hst] at hlen
    have h0 : (ram.buckets.map bucket_t.num_entries).sum = 0 := by
      simpa [RamSort.total_entries] using hlen.symm
    rw [h0] at hchain
    exact hchain.eq_nil
  · intro h0 _
    obtain ⟨runs, h1, _, _, h4⟩ := sort_all_spec hX key_size log_num_buckets h0 (by omega) []
      (by simp)
    rw [h1, h4.eq_nil]

theorem no_empty_runs_witness :
    (ten_engine.read demo).1 = none ∧
    (∀ run ∈ (ten_engine.read demo).2.2, run.1 ≠ []) ∧
    (concat_runs (ten_engine.read demo).2.2).length * demo.disk_size =
      (ten_engine.buckets.map (fun b => b.bytes.length)).sum ∧
    (ten_engine.read demo).2.2.length =
      (sub_pairs demo (8 - 2 * 2) ten_engine.buckets 0).dedup.length ∧
    (ten_engine.stored demo = [] → (ten_engine.read demo).2.2 = []) ∧
    sort_all demo 8 2 [] = some [] :=
  have h := no_empty_runs demo_lawful 8 2 ten_engine ⟨rfl, rfl, rfl, rfl⟩ (by decide)
    ten_engine_buckets_ok
  ⟨h.1, h.2.1, h.2.2.1, h.2.2.2.1, h.2.2.2.2.1, h.2.2.2.2.2 (by decide) (by decide)⟩

end Chia
